import Mathlib

/-!
securebase-go: a shallow embedding of the Keccak sponge and the keyed base64 codec

The development follows the two Go packages of the repository.

* `Go`         : the parts of the Go language and standard library that the
  program relies on (slices, `[]rune(string)`, `string([]rune)`, `unicode/utf16`,
  `encoding/binary`).
* `Keccak`     : `Keccak/Keccak.go`.
* `SecureBase` : `SecureBase.go`.

Conventions.

* A Go `byte` is a `Fin 256`; a `uint64`/`uint16`/`rune`/`int` that can only be
  non-negative is a `Nat`, reduced explicitly where the machine type wraps; an
  `int` that may be negative is an `Int`.
* A Go `string` is its sequence of bytes, `List Byte`.  A `nil` slice and an
  empty slice are both `[]`.
* A run-time panic is `none` in the `Option` monad.  The two codec functions
  that `recover()` turn that `none` into their error result.
* The mutex of a hash session is not modelled: every function is described by
  its sequential behaviour.
-/

set_option maxRecDepth 10000
set_option linter.dupNamespace false

namespace Go

/-- A Go `byte`. -/
abbrev Byte := Fin 256

/-- A Go `rune`; all runes of this program are non-negative. -/
abbrev Rune := Nat

/-- The conversion `byte(x)` of a non-negative integer: truncation to 8 bits. -/
def byte (x : Nat) : Byte := ⟨x % 256, Nat.mod_lt x (by decide)⟩

/-- The statement `s[i] = v`; `none` is the panic "index out of range". -/
def store {α : Type} (s : List α) (i : Nat) (v : α) : Option (List α) :=
  if i < s.length then some (s.set i v) else none

/-- The expression `s[i]` for an `int` index; `none` is the panic "index out of range". -/
def index {α : Type} (s : List α) (i : Int) : Option α :=
  if 0 ≤ i then s[i.toNat]? else none

/-- The statement `s[i] = v` for an `int` index. -/
def storeInt {α : Type} (s : List α) (i : Int) (v : α) : Option (List α) :=
  if 0 ≤ i then store s i.toNat v else none

/-- The slice expression `s[lo:hi]` of a slice whose capacity is its length. -/
def subslice {α : Type} (s : List α) (lo hi : Nat) : Option (List α) :=
  if lo ≤ hi ∧ hi ≤ s.length then some ((s.drop lo).take (hi - lo)) else none

/-- The statement `copy(dst[lo:hi], src)`, as its effect on `dst`: the slice
expression may panic, and `copy` moves `min(hi-lo, len(src))` elements. -/
def copyInto {α : Type} (dst : List α) (lo hi : Nat) (src : List α) : Option (List α) :=
  if lo ≤ hi ∧ hi ≤ dst.length then
    let n := min (hi - lo) src.length
    some (dst.take lo ++ src.take n ++ dst.drop (lo + n))
  else none

/-- A 64-bit `int` product or sum, wrapped to the two's complement range. -/
def wrapInt (x : Int) : Int := (x + 2 ^ 63) % 2 ^ 64 - 2 ^ 63

/-! ### UTF-8: the conversions between `string` and `[]rune` -/

def runeError : Nat := 0xFFFD
def maxRune : Nat := 0x10FFFF
def surrogateMin : Nat := 0xD800
def surrogateMax : Nat := 0xDFFF

/-- A continuation byte, `locb <= b && b <= hicb`. -/
def isCont (b : Byte) : Bool := 0x80 ≤ b.val && b.val ≤ 0xBF

/-- Go `runtime.decoderune` on the bytes from the current position on: the rune
and the number of bytes it takes.  An invalid or truncated sequence gives
`runeError` and one byte. -/
def decoderune (s : List Byte) : Rune × Nat :=
  match s with
  | [] => (runeError, 1)
  | s0 :: rest =>
    if 0xC0 ≤ s0.val ∧ s0.val < 0xE0 then
      match rest with
      | s1 :: _ =>
        if isCont s1 then
          let r := ((s0.val &&& 0x1F) <<< 6) ||| (s1.val &&& 0x3F)
          if 0x7F < r then (r, 2) else (runeError, 1)
        else (runeError, 1)
      | _ => (runeError, 1)
    else if 0xE0 ≤ s0.val ∧ s0.val < 0xF0 then
      match rest with
      | s1 :: s2 :: _ =>
        if isCont s1 ∧ isCont s2 then
          let r := ((s0.val &&& 0x0F) <<< 12) ||| ((s1.val &&& 0x3F) <<< 6) ||| (s2.val &&& 0x3F)
          if 0x7FF < r ∧ ¬ (surrogateMin ≤ r ∧ r ≤ surrogateMax) then (r, 3) else (runeError, 1)
        else (runeError, 1)
      | _ => (runeError, 1)
    else if 0xF0 ≤ s0.val ∧ s0.val < 0xF8 then
      match rest with
      | s1 :: s2 :: s3 :: _ =>
        if isCont s1 ∧ isCont s2 ∧ isCont s3 then
          let r := ((s0.val &&& 0x07) <<< 18) ||| ((s1.val &&& 0x3F) <<< 12)
                    ||| ((s2.val &&& 0x3F) <<< 6) ||| (s3.val &&& 0x3F)
          if 0xFFFF < r ∧ r ≤ maxRune then (r, 4) else (runeError, 1)
        else (runeError, 1)
      | _ => (runeError, 1)
    else (runeError, 1)

/-- The loop of `[]rune(s)`: a byte below `0x80` is its own rune, anything else
goes through `decoderune`.  The first argument bounds the number of runes;
`len(s)` is enough because every rune takes at least one byte. -/
def stringToRunesAux : Nat → List Byte → List Rune
  | 0, _ => []
  | fuel + 1, s =>
    match s with
    | [] => []
    | s0 :: rest =>
      if s0.val < 0x80 then s0.val :: stringToRunesAux fuel rest
      else
        let (r, w) := decoderune s
        r :: stringToRunesAux fuel (s.drop w)

/-- The conversion `[]rune(s)`. -/
def stringToRunes (s : List Byte) : List Rune := stringToRunesAux s.length s

/-- Go `runtime.encoderune`: the UTF-8 bytes of one rune; a surrogate or a value
above `maxRune` is written as `runeError`. -/
def encoderune (r : Rune) : List Byte :=
  if r ≤ 0x7F then [byte r]
  else if r ≤ 0x7FF then [byte (0xC0 ||| (r >>> 6)), byte (0x80 ||| (r &&& 0x3F))]
  else if maxRune < r ∨ (surrogateMin ≤ r ∧ r ≤ surrogateMax) then
    [byte (0xE0 ||| (runeError >>> 12)),
     byte (0x80 ||| ((runeError >>> 6) &&& 0x3F)),
     byte (0x80 ||| (runeError &&& 0x3F))]
  else if r ≤ 0xFFFF then
    [byte (0xE0 ||| (r >>> 12)),
     byte (0x80 ||| ((r >>> 6) &&& 0x3F)),
     byte (0x80 ||| (r &&& 0x3F))]
  else
    [byte (0xF0 ||| (r >>> 18)),
     byte (0x80 ||| ((r >>> 12) &&& 0x3F)),
     byte (0x80 ||| ((r >>> 6) &&& 0x3F)),
     byte (0x80 ||| (r &&& 0x3F))]

/-- The conversion `string(runes)`. -/
def runesToString (rs : List Rune) : List Byte := rs.flatMap encoderune

/-! ### `unicode/utf16` and `encoding/binary` -/

def surr1 : Nat := 0xD800
def surr2 : Nat := 0xDC00
def surr3 : Nat := 0xE000
def surrSelf : Nat := 0x10000
def replacementChar : Nat := 0xFFFD

/-- Go `utf16.Encode`: one code unit for a rune of the basic plane, a surrogate
pair above it, the replacement character for anything that is no code point. -/
def utf16Encode : List Rune → List Nat
  | [] => []
  | v :: rest =>
    if v < surr1 ∨ (surr3 ≤ v ∧ v < surrSelf) then (v % 65536) :: utf16Encode rest
    else if surrSelf ≤ v ∧ v ≤ maxRune then
      let r := v - surrSelf
      ((surr1 + ((r >>> 10) &&& 0x3FF)) % 65536) :: ((surr2 + (r &&& 0x3FF)) % 65536)
        :: utf16Encode rest
    else replacementChar :: utf16Encode rest

/-- Go `utf16.Decode`: a well-formed surrogate pair is one rune, a lone
surrogate is the replacement character. -/
def utf16Decode : List Nat → List Rune
  | [] => []
  | [r] => if r < surr1 ∨ surr3 ≤ r then [r] else [replacementChar]
  | r :: r2 :: rest =>
    if r < surr1 ∨ surr3 ≤ r then r :: utf16Decode (r2 :: rest)
    else if surr1 ≤ r ∧ r < surr2 ∧ surr2 ≤ r2 ∧ r2 < surr3 then
      ((((r - surr1) <<< 10) ||| (r2 - surr2)) + surrSelf) :: utf16Decode rest
    else replacementChar :: utf16Decode (r2 :: rest)

/-- Go `binary.LittleEndian.PutUint64` into an 8-byte buffer. -/
def putUint64 (v : Nat) : List Byte :=
  [byte v, byte (v >>> 8), byte (v >>> 16), byte (v >>> 24),
   byte (v >>> 32), byte (v >>> 40), byte (v >>> 48), byte (v >>> 56)]

/-- Go `binary.LittleEndian.Uint64`; it panics on fewer than 8 bytes. -/
def uint64LE (b : List Byte) : Option Nat :=
  match b with
  | b0 :: b1 :: b2 :: b3 :: b4 :: b5 :: b6 :: b7 :: _ =>
    some (b0.val ||| (b1.val <<< 8) ||| (b2.val <<< 16) ||| (b3.val <<< 24)
      ||| (b4.val <<< 32) ||| (b5.val <<< 40) ||| (b6.val <<< 48) ||| (b7.val <<< 56))
  | _ => none

end Go

namespace Keccak

open Go

/-- A hash session: the lanes (`[]uint64`, `nil` after disposal) and the flag. -/
structure Keccak where
  state : List Nat
  disposed : Bool
deriving DecidableEq

def keccakRounds : Nat := 24

/-- The table `roundConstants`, in the order of the source. -/
def roundConstants : List Nat := [
  0x0000000000000001, 0x0000000000008082, 0x800000000000808a, 0x8000000080008000,
  0x000000000000808b, 0x0000000080000001, 0x8000000080008081, 0x8000000000008009,
  0x000000000000008a, 0x0000000000000088, 0x0000000080008009, 0x000000008000000a,
  0x000000008000808b, 0x800000000000008b, 0x8000000000008089, 0x8000000000008003,
  0x8000000000008002, 0x8000000000000080, 0x000000000000800a, 0x800000008000000a,
  0x8000000080008081, 0x8000000000008080, 0x0000000080000001, 0x8000000080008008]

/-- The table `rhoOffsets`, one row of the source a line. -/
def rhoOffsets : List Nat :=
  [0, 1, 62, 28, 27] ++
  [36, 44, 6, 55, 20] ++
  [3, 10, 43, 25, 39] ++
  [41, 45, 15, 21, 8] ++
  [18, 2, 61, 56, 14]

/-- The error value `ErrObjectDisposed`, by its message. -/
def ErrObjectDisposed : String := "Object is disposed"

/-- The constructor `New`: 25 zero lanes, not disposed. -/
def New : Keccak := { state := List.replicate 25 0, disposed := false }

/-- The method `initializeState`: every lane of the slice is set to zero. -/
def initializeState (state : List Nat) : List Nat := state.map (fun _ => 0)

/-- The function `rol` on a `uint64`: `(x << uint(n)) | (x >> uint(64-n))`.  The
left shift drops the bits above 64; a right shift by 64 or more gives 0, which
is also what `uint(64-n)` yields for `n > 64`. -/
def rol (x : Nat) (n : Nat) : Nat :=
  ((x <<< n) % 2 ^ 64) ||| (if 64 - n < 64 ∧ n ≤ 64 then x >>> (64 - n) else 0)

/-- The bitwise complement `^x` of a `uint64`. -/
def not64 (x : Nat) : Nat := x ^^^ (2 ^ 64 - 1)

/-- Theta, first loop of a round: the column parities `c[i]`. -/
def thetaC (state : List Nat) : Option (List Nat) :=
  (List.range 5).mapM (fun i => do
    pure ((← state[i]?) ^^^ (← state[i + 5]?) ^^^ (← state[i + 10]?)
            ^^^ (← state[i + 15]?) ^^^ (← state[i + 20]?)))

/-- Theta, second loop: `d[i] = c[(i+4)%5] ^ rol(c[(i+1)%5], 1)`. -/
def thetaD (cs : List Nat) : Option (List Nat) :=
  (List.range 5).mapM (fun i => do
    pure ((← cs[(i + 4) % 5]?) ^^^ rol (← cs[(i + 1) % 5]?) 1))

/-- Theta, third loop: `state[i+j] ^= d[j]` for `i = 0, 5, .., 20` and `j < 5`. -/
def thetaXor (state ds : List Nat) : Option (List Nat) :=
  [0, 5, 10, 15, 20].foldlM (fun st i =>
    (List.range 5).foldlM (fun st j => do
      store st (i + j) ((← st[i + j]?) ^^^ (← ds[j]?))) st) state

/-- The rotation loop: `b[i] = rol(state[i], rhoOffsets[i])` for `i < 25`. -/
def rhoB (state : List Nat) : Option (List Nat) :=
  (List.range 25).mapM (fun i => do
    pure (rol (← state[i]?) (← rhoOffsets[i]?)))

/-- Chi: `state[i+j] = b[i+j] ^ (^b[i+((j+1)%5)] & b[i+((j+2)%5)])`. -/
def chi (state bs : List Nat) : Option (List Nat) :=
  [0, 5, 10, 15, 20].foldlM (fun st i =>
    (List.range 5).foldlM (fun st j => do
      store st (i + j)
        ((← bs[i + j]?) ^^^ (not64 (← bs[i + ((j + 1) % 5)]?) &&& (← bs[i + ((j + 2) % 5)]?))))
      st) state

/-- Iota: `state[0] ^= roundConstants[round]`. -/
def iota (state : List Nat) (round : Nat) : Option (List Nat) := do
  store state 0 ((← state[0]?) ^^^ (← roundConstants[round]?))

/-- One round of `keccakF`, the body of its loop, on the lanes; `cs`, `ds` and
`bs` are the slices `c`, `d` and `b` of the source. -/
def keccakRound (state : List Nat) (round : Nat) : Option (List Nat) := do
  let cs ← thetaC state
  let ds ← thetaD cs
  let state ← thetaXor state ds
  let bs ← rhoB state
  let state ← chi state bs
  iota state round

/-- The method `keccakF`: the rounds `0 .. keccakRounds-1` in order. -/
def keccakF (state : List Nat) : Option (List Nat) :=
  (List.range keccakRounds).foldlM keccakRound state

/-- The method `pad`.  A zero rate panics in the remainder, a negative total
length panics in `make`. -/
def pad (input : List Byte) (rateInBytes : Int) : Option (List Byte) :=
  if rateInBytes = 0 then none
  else
    let paddingLength : Int := rateInBytes - Int.tmod (input.length : Int) rateInBytes
    let total : Int := (input.length : Int) + paddingLength
    if total < 0 then none
    else do
      let padded : List Byte := List.replicate total.toNat 0
      let padded ← copyInto padded 0 padded.length input
      let padded ← store padded input.length (byte 0x06)
      let last ← padded[padded.length - 1]?
      store padded (padded.length - 1) (byte (last.val ||| 0x80))

/-- The inner loop of `absorb` for the block at `offset`: the words
`i = 0 .. blockSize/8 - 1` that lie inside the message are xored into lane `i`. -/
def absorbBlock (message : List Byte) (offset : Nat) (words : Nat) (state : List Nat) :
    Option (List Nat) :=
  (List.range words).foldlM (fun st i =>
    if offset + i * 8 + 8 ≤ message.length then do
      let w ← uint64LE (← subslice message (offset + i * 8) (offset + i * 8 + 8))
      store st i ((← st[i]?) ^^^ w)
    else pure st) state

/-- The outer loop of `absorb` with `n` blocks still to go. -/
def absorbLoop (message : List Byte) (blockSize : Nat) :
    Nat → Nat → List Nat → Option (List Nat)
  | 0, _, state => some state
  | n + 1, offset, state => do
    let state ← absorbBlock message offset (blockSize / 8) state
    let state ← keccakF state
    absorbLoop message blockSize n (offset + blockSize) state

/-- The method `absorb`.  With a positive block size the loop
`for offset := 0; offset < len(message); offset += blockSize` runs
`ceil(len(message)/blockSize)` times.  With a block size that is not positive
and a non-empty message it does not leave the loop normally; `Hash` never gets
there, because `pad` panics first. -/
def absorb (state : List Nat) (message : List Byte) (rateInBytes : Int) : Option (List Nat) :=
  if message.length = 0 then some state
  else if rateInBytes ≤ 0 then none
  else
    let blockSize := rateInBytes.toNat
    absorbLoop message blockSize ((message.length + blockSize - 1) / blockSize) 0 state

/-- The first inner loop of `squeeze`: lane `i` is written to the output at
`offset + 8*i`, for every whole word of the round. -/
def squeezeWords (state : List Nat) (output : List Byte) (offset bytesToOutput : Nat) :
    Option (List Byte) :=
  (List.range (bytesToOutput / 8)).foldlM (fun out i => do
    let buffer := putUint64 (← state[i]?)
    copyInto out (offset + i * 8) out.length buffer) output

/-- The tail of a round of `squeeze`: the first `bytesToOutput % 8` bytes of the
next lane, when the round does not end on a word. -/
def squeezeTail (state : List Nat) (output : List Byte) (offset bytesToOutput : Nat) :
    Option (List Byte) :=
  if bytesToOutput % 8 ≠ 0 then do
    let lastIndex := bytesToOutput / 8
    let buffer := putUint64 (← state[lastIndex]?)
    copyInto output (offset + lastIndex * 8) (offset + bytesToOutput)
      (buffer.take (bytesToOutput % 8))
  else pure output

/-- The loop of `squeeze` with `n` rounds still to go; `min` stands for
`int(math.Min(float64(outputLength), 200))`, which is exact on integers. -/
def squeezeLoop : Nat → List Nat → List Byte → Nat → Nat → Option (List Byte × List Nat)
  | 0, state, output, _, _ => some (output, state)
  | n + 1, state, output, offset, outputLength => do
    let bytesToOutput := min outputLength 200
    let output ← squeezeWords state output offset bytesToOutput
    let output ← squeezeTail state output offset bytesToOutput
    let offset := offset + bytesToOutput
    let outputLength := outputLength - bytesToOutput
    let state ← if outputLength > 0 then keccakF state else pure state
    squeezeLoop n state output offset outputLength

/-- The method `squeeze`: the digest and the lanes it leaves.  A negative length
panics in `make`; the loop `for outputLength > 0`, which takes 200 bytes a
round, runs `ceil(outputLength/200)` times. -/
def squeeze (state : List Nat) (outputLength : Int) : Option (List Byte × List Nat) :=
  if outputLength < 0 then none
  else
    let n := outputLength.toNat
    squeezeLoop ((n + 199) / 200) state (List.replicate n 0) 0 n

/-- The method `Hash`: `none` is a panic, otherwise the returned pair
(digest, error) and the session after the call. -/
def Hash (k : Keccak) (input : List Byte) (outputLengthBits : Int) :
    Option ((List Byte × Option String) × Keccak) :=
  if k.disposed then some (([], some ErrObjectDisposed), k)
  else do
    let state := initializeState k.state
    let rateInBytes := Int.tdiv (1600 - 2 * outputLengthBits) 8
    let paddedMessage ← pad input rateInBytes
    let state ← absorb state paddedMessage rateInBytes
    let (digest, state) ← squeeze state (Int.tdiv outputLengthBits 8)
    pure ((digest, none), { k with state := state })

/-- The method `Dispose`: the lanes are zeroed and dropped, the flag is set;
nothing happens on a session that is already disposed. -/
def Dispose (k : Keccak) : Keccak :=
  if !k.disposed then
    let state := if k.state ≠ [] then ([] : List Nat) else k.state
    { state := state, disposed := true }
  else k

end Keccak

namespace SecureBase

open Go

/-- The text representation chosen at construction. -/
inductive SBEncoding where
  | UNICODE
  | UTF8
deriving DecidableEq

/-- The bytes of an ASCII string literal of the source. -/
def lit (s : String) : List Byte := s.data.map (fun ch => byte ch.toNat)

/-- The constant `defcharset`.  The double quote, the apostrophe, the backslash
and the two braces of the source literal are written as `\x22`, `\x27`, `\x5c`,
`\x7b` and `\x7d`. -/
def defcharset : List Byte :=
  lit "ABCDEFGHIJKLMNOPQRSTUVWXYZabcdefghijklmnopqrstuvwxyz0123456789!\x22#&\x27()*,-.:;<>?@[]\x5c^_\x7b\x7d|~/+="

/-- The constant `base64standart`. -/
def base64standart : List Byte :=
  lit "ABCDEFGHIJKLMNOPQRSTUVWXYZabcdefghijklmnopqrstuvwxyz0123456789+/"

/-- The codec: its alphabet (a Go string), its padding rune and its mode. -/
structure SecureBase where
  globalcharset : List Byte
  padding : Rune
  gencoding : SBEncoding
deriving DecidableEq

/-- The error built by `fmt.Errorf` in the two `recover` handlers, by its message. -/
def errInvalidData : String := "Invalid data or secret key!"

/-- The function `stringToUTF16LE`: the UTF-16 code units of `[]rune(s)`, each
written low byte first. -/
def stringToUTF16LE (s : List Byte) : List Byte :=
  (utf16Encode (stringToRunes s)).flatMap (fun r => [byte r, byte (r >>> 8)])

/-- The function `utf16LEToString`; `i` runs below `len(b)/2`, so both indexed
bytes exist, and the sum is a `uint16`. -/
def utf16LEToString (b : List Byte) : List Byte :=
  let u16s := (List.range (b.length / 2)).map (fun i =>
    ((b.getD (i * 2) 0).val + (((b.getD (i * 2 + 1) 0).val <<< 8) % 65536)) % 65536)
  runesToString (utf16Decode u16s)

/-- The constructor `NewSecureBase`. -/
def NewSecureBase (encoding : SBEncoding) : SecureBase :=
  { globalcharset := base64standart, padding := 61, gencoding := encoding }

/-- The function `fnCharacterSetSecretKey`: `hs` starts from 0 in every
iteration, and the last entry of `arr` keeps its zero. -/
def fnCharacterSetSecretKey (anahtar : List Byte) : Option (List Int) :=
  (List.range (anahtar.length - 1)).foldlM (fun arr i => do
    let ch ← anahtar[i]?
    let hs : Int := 0
    let hs := Int.tmod (hs * 31 + (ch.val : Int)) 2147483647
    store arr i hs) (List.replicate anahtar.length (0 : Int))

/-- The inner loop of `fnSuffleCharset` for one key value, with the loop index
`i` as first argument: `for i; i > 0; i--`. -/
def shuffleInner (key : Int) : Nat → List Rune → Option (List Rune)
  | 0, characters => some characters
  | i + 1, characters => do
    if characters.length = 0 then none
    let x := Int.tmod (wrapInt (((i + 1 : Nat) : Int) * key)) (characters.length : Int)
    let temp ← characters[i + 1]?
    let characters ← store characters (i + 1) (← index characters x)
    let characters ← storeInt characters x temp
    shuffleInner key i characters

/-- The function `fnSuffleCharset`: the key values `keys[0 .. len(keys)-2]`, each
driving one pass from the last position down to position 1. -/
def fnSuffleCharset (data : List Byte) (keys : List Int) : Option (List Byte) := do
  let characters := stringToRunes data
  let characters ← (List.range (keys.length - 1)).foldlM (fun chars j => do
    shuffleInner (← keys[j]?) (chars.length - 1) chars) characters
  pure (runesToString characters)

/-- The two lowercase hexadecimal digits of `fmt.Sprintf("%02x", b)`. -/
def hex02 (b : Byte) : List Byte :=
  let digits := lit "0123456789abcdef"
  [digits.getD (b.val / 16) 0, digits.getD (b.val % 16) 0]

/-- The function `computeHash`. -/
def computeHash (s : List Byte) (key : Int) : Option (List Byte) := do
  let keccak := Keccak.New
  let input := s
  let ((hash, err), keccak) ← Keccak.Hash keccak input key
  if err ≠ none then pure []
  else
    let _ := Keccak.Dispose keccak
    pure (hash.flatMap hex02)

/-- The method `prSuffleCharset`. -/
def prSuffleCharset (sb : SecureBase) (secretkey : List Byte) : Option SecureBase := do
  let secrethash ← computeHash secretkey 512
  let cs ← fnSuffleCharset sb.globalcharset (← fnCharacterSetSecretKey secrethash)
  pure { sb with globalcharset := cs }

/-- The method `SetSecretKey`.  Nothing here recovers from a panic. -/
def SetSecretKey (sb : SecureBase) (secretkey : List Byte) : Option SecureBase :=
  if secretkey.length ≠ 0 then do
    let sb := { sb with globalcharset := defcharset }
    let sb ← prSuffleCharset sb secretkey
    let padding ← (stringToRunes (← subslice sb.globalcharset 64 sb.globalcharset.length))[0]?
    let sb := { sb with padding := padding }
    pure { sb with globalcharset := (← subslice sb.globalcharset 0 64) }
  else
    pure { sb with globalcharset := base64standart, padding := 61 }

/-- The constructor `NewSecureBaseWithKey`. -/
def NewSecureBaseWithKey (encoding : SBEncoding) (secretkey : List Byte) : Option SecureBase :=
  SetSecretKey { globalcharset := [], padding := 0, gencoding := encoding } secretkey

/-- The loop over the full 3-byte groups in `processEncoding`, with `n` groups
still to go; it returns `dataIndex`, `encodedIndex` and `encodedData`. -/
def encodeGroups (baseArray : List Rune) (pdata : List Byte) :
    Nat → Nat → Nat → List Rune → Option (Nat × Nat × List Rune)
  | 0, dataIndex, encodedIndex, encodedData => some (dataIndex, encodedIndex, encodedData)
  | n + 1, dataIndex, encodedIndex, encodedData => do
    let chunk := ((← pdata[dataIndex]?).val <<< 16) ||| ((← pdata[dataIndex + 1]?).val <<< 8)
      ||| (← pdata[dataIndex + 2]?).val
    let dataIndex := dataIndex + 3
    let encodedData ← store encodedData encodedIndex (← baseArray[(chunk >>> 18) &&& 63]?)
    let encodedIndex := encodedIndex + 1
    let encodedData ← store encodedData encodedIndex (← baseArray[(chunk >>> 12) &&& 63]?)
    let encodedIndex := encodedIndex + 1
    let encodedData ← store encodedData encodedIndex (← baseArray[(chunk >>> 6) &&& 63]?)
    let encodedIndex := encodedIndex + 1
    let encodedData ← store encodedData encodedIndex (← baseArray[chunk &&& 63]?)
    let encodedIndex := encodedIndex + 1
    encodeGroups baseArray pdata n dataIndex encodedIndex encodedData

/-- The symbols computed by `processEncoding`, its `encodedData`, before the
conversion to the output representation; `none` is a panic. -/
def encodeSymbols (sb : SecureBase) (input : List Byte) : Option (List Rune) := do
  let baseArray := stringToRunes sb.globalcharset
  let pdata := input
  if pdata.length > 0 then
    let length := pdata.length
    let lengthDiv3 := length / 3
    let remainder := length % 3
    let encodedLength := lengthDiv3 * 4 + (if remainder = 0 then 0 else 4)
    let encodedData : List Rune := List.replicate encodedLength 0
    let (dataIndex, encodedIndex, encodedData) ←
      encodeGroups baseArray pdata lengthDiv3 0 0 encodedData
    if remainder = 1 then
      let lastByte := (← pdata[dataIndex]?).val
      let encodedData ← store encodedData encodedIndex (← baseArray[lastByte >>> 2]?)
      let encodedIndex := encodedIndex + 1
      let encodedData ← store encodedData encodedIndex (← baseArray[(lastByte &&& 3) <<< 4]?)
      let encodedIndex := encodedIndex + 1
      let encodedData ← store encodedData encodedIndex sb.padding
      let encodedIndex := encodedIndex + 1
      store encodedData encodedIndex sb.padding
    else if remainder = 2 then
      let secondLastByte := (← pdata[dataIndex]?).val
      let dataIndex := dataIndex + 1
      let lastByte := (← pdata[dataIndex]?).val
      let encodedData ← store encodedData encodedIndex (← baseArray[secondLastByte >>> 2]?)
      let encodedIndex := encodedIndex + 1
      let encodedData ← store encodedData encodedIndex
        (← baseArray[((secondLastByte &&& 3) <<< 4) ||| (lastByte >>> 4)]?)
      let encodedIndex := encodedIndex + 1
      let encodedData ← store encodedData encodedIndex (← baseArray[(lastByte &&& 15) <<< 2]?)
      let encodedIndex := encodedIndex + 1
      store encodedData encodedIndex sb.padding
    else pure encodedData
  else pure []

/-- The method `processEncoding`: the pair (result, error).  A panic in the
body is recovered into the empty result and the error. -/
def processEncoding (sb : SecureBase) (input : List Byte) : List Byte × Option String :=
  match encodeSymbols sb input with
  | some encodedData =>
    if sb.gencoding = SBEncoding.UNICODE then
      (stringToUTF16LE (runesToString encodedData), none)
    else (runesToString encodedData, none)
  | none => ([], some errInvalidData)

/-- The loop `for encodedIndex < length` of `processDecoding`, which advances
`encodedIndex` by 4, with `n` rounds still to go.  `base64Values` is the map,
a missing key reading as the zero byte. -/
def decodeLoop (base64Values : Rune → Byte) (inputRunes : List Rune) (decodedLength : Nat) :
    Nat → Nat → Nat → List Byte → Option (List Byte)
  | 0, _, _, decodedData => some decodedData
  | n + 1, encodedIndex, decodedIndex, decodedData => do
    let chunk := ((base64Values (← inputRunes[encodedIndex]?)).val <<< 18)
      ||| ((base64Values (← inputRunes[encodedIndex + 1]?)).val <<< 12)
      ||| ((base64Values (← inputRunes[encodedIndex + 2]?)).val <<< 6)
      ||| (base64Values (← inputRunes[encodedIndex + 3]?)).val
    let encodedIndex := encodedIndex + 4
    let decodedData ← store decodedData decodedIndex (byte ((chunk >>> 16) &&& 255))
    let decodedIndex := decodedIndex + 1
    let (decodedIndex, decodedData) ←
      if decodedIndex < decodedLength then do
        let decodedData ← store decodedData decodedIndex (byte ((chunk >>> 8) &&& 255))
        pure (decodedIndex + 1, decodedData)
      else pure (decodedIndex, decodedData)
    let (decodedIndex, decodedData) ←
      if decodedIndex < decodedLength then do
        let decodedData ← store decodedData decodedIndex (byte (chunk &&& 255))
        pure (decodedIndex + 1, decodedData)
      else pure (decodedIndex, decodedData)
    decodeLoop base64Values inputRunes decodedLength n encodedIndex decodedIndex decodedData

/-- The body of `processDecoding`; `none` is a panic.  The loop runs
`ceil(length/4)` times unless it panics; a negative `decodedLength` panics in
`make`. -/
def decodeBody (sb : SecureBase) (input : List Byte) : Option (List Byte) := do
  let baseArray := stringToRunes sb.globalcharset
  if input.length > 0 then
    let base64Values ← (List.range 64).foldlM (fun (m : Rune → Byte) i => do
      let key ← baseArray[i]?
      pure (fun r => if r = key then byte i else m r)) (fun _ => (0 : Byte))
    let length := input.length
    let paddingCount : Nat := 0
    let paddingCount ←
      if length > 0 then do
        if (← input[length - 1]?).val = sb.padding then pure (paddingCount + 1)
        else pure paddingCount
      else pure paddingCount
    let paddingCount ←
      if length > 1 then do
        if (← input[length - 2]?).val = sb.padding then pure (paddingCount + 1)
        else pure paddingCount
      else pure paddingCount
    let decodedLength : Int := ((length * 3 / 4 : Nat) : Int) - (paddingCount : Int)
    if decodedLength < 0 then none
    let decodedData : List Byte := List.replicate decodedLength.toNat 0
    let inputRunes := stringToRunes input
    decodeLoop base64Values inputRunes decodedLength.toNat ((length + 3) / 4) 0 0 decodedData
  else pure []

/-- The method `processDecoding`: the pair (result, error). -/
def processDecoding (sb : SecureBase) (input : List Byte) : List Byte × Option String :=
  match decodeBody sb input with
  | some decodedData => (decodedData, none)
  | none => ([], some errInvalidData)

/-- The method `Encode`. -/
def Encode (sb : SecureBase) (input : List Byte) : List Byte × Option String :=
  if sb.gencoding = SBEncoding.UNICODE then
    let (bytes, err) := processEncoding sb (stringToUTF16LE input)
    if err ≠ none then ([], err) else (utf16LEToString bytes, none)
  else
    let (bytes, err) := processEncoding sb input
    if err ≠ none then ([], err) else (bytes, none)

/-- The method `Decode`. -/
def Decode (sb : SecureBase) (input : List Byte) : List Byte × Option String :=
  if sb.gencoding = SBEncoding.UNICODE then
    let (result, err) := processDecoding sb input
    if err ≠ none then ([], err) else (utf16LEToString result, none)
  else
    let (result, err) := processDecoding sb input
    if err ≠ none then ([], err) else (result, none)

end SecureBase

/-! ## Auxiliary definitions for the statements -/

/-- The invariant of a codec made by a constructor: 64 distinct ASCII symbols
and an ASCII padding rune that is none of them. -/
structure WellFormed (sb : SecureBase.SecureBase) : Prop where
  length : sb.globalcharset.length = 64
  ascii : ∀ b ∈ sb.globalcharset, b.val < 0x80
  nodup : sb.globalcharset.Nodup
  padAscii : sb.padding < 0x80
  padFresh : ∀ b ∈ sb.globalcharset, b.val ≠ sb.padding

/-- The four symbols of a full group of three bytes, read off the alphabet `A`. -/
def groupSymbols (A : List Nat) (b0 b1 b2 : Go.Byte) : List Nat :=
  let chunk := (b0.val <<< 16) ||| (b1.val <<< 8) ||| b2.val
  [A.getD ((chunk >>> 18) &&& 63) 0, A.getD ((chunk >>> 12) &&& 63) 0,
   A.getD ((chunk >>> 6) &&& 63) 0, A.getD (chunk &&& 63) 0]

/-- The symbol sequence of a byte sequence, group by group: the closed form of
what `processEncoding` leaves in `encodedData`. -/
def symbolsOf (A : List Nat) (padding : Nat) : List Go.Byte → List Nat
  | [] => []
  | [b0] => [A.getD (b0.val >>> 2) 0, A.getD ((b0.val &&& 3) <<< 4) 0, padding, padding]
  | [b0, b1] =>
    [A.getD (b0.val >>> 2) 0, A.getD (((b0.val &&& 3) <<< 4) ||| (b1.val >>> 4)) 0,
     A.getD ((b1.val &&& 15) <<< 2) 0, padding]
  | b0 :: b1 :: b2 :: rest => groupSymbols A b0 b1 b2 ++ symbolsOf A padding rest

/-- The number of padding runes `p` at the end of a symbol sequence. -/
def trailingPadding (p : Nat) (symbols : List Nat) : Nat :=
  (symbols.reverse.takeWhile (fun r => decide (r = p))).length

/-- The base 64 alphabet of RFC 4648, table 1: the value `i` is written as the
`i`-th character. -/
def rfc4648Alphabet : List Go.Byte :=
  SecureBase.lit "ABCDEFGHIJKLMNOPQRSTUVWXYZabcdefghijklmnopqrstuvwxyz0123456789+/"

/-- The character of RFC 4648 for a 6-bit value. -/
def rfc4648Char (v : Nat) : Go.Byte := rfc4648Alphabet.getD v 0

/-- The padded base 64 encoding as RFC 4648, section 4, words it, written from
the RFC and not from the program.  A group of 24 input bits is read as four
6-bit values, most significant first.  A final group of 8 bits is completed with
four zero bits to two values and followed by two `=`; a final group of 16 bits is
completed with two zero bits to three values and followed by one `=`. -/
def rfc4648Encode : List Go.Byte → List Go.Byte
  | [] => []
  | [a] =>
    let bits := a.val * 2 ^ 4
    [rfc4648Char (bits / 2 ^ 6), rfc4648Char (bits % 2 ^ 6), 61, 61]
  | [a, b] =>
    let bits := (a.val * 2 ^ 8 + b.val) * 2 ^ 2
    [rfc4648Char (bits / 2 ^ 12), rfc4648Char (bits / 2 ^ 6 % 2 ^ 6), rfc4648Char (bits % 2 ^ 6),
     61]
  | a :: b :: c :: rest =>
    let bits := a.val * 2 ^ 16 + b.val * 2 ^ 8 + c.val
    [rfc4648Char (bits / 2 ^ 18), rfc4648Char (bits / 2 ^ 12 % 2 ^ 6),
     rfc4648Char (bits / 2 ^ 6 % 2 ^ 6), rfc4648Char (bits % 2 ^ 6)] ++ rfc4648Encode rest

/-- A Unicode scalar value: a code point that is no surrogate. -/
def isScalar (r : Nat) : Prop := r ≤ 0x10FFFF ∧ ¬ (0xD800 ≤ r ∧ r ≤ 0xDFFF)

/-- The bytes that `pad` appends when `n` of them are needed, `n ≥ 1`: the
domain byte `0x06`, zeros, and the final bit `0x80`, which share the one byte
when `n = 1`. -/
def paddingBytes (n : Nat) : List Go.Byte :=
  if n ≤ 1 then [0x86] else [0x06] ++ List.replicate (n - 2) 0 ++ [0x80]

/-- The lane index to which the pi step of Keccak-f[1600] moves the lane at
index `x + 5y`, namely the index of the position `(y, 2x + 3y mod 5)`.  Written
from the standard, not from the program. -/
def standardPiIndex (i : Nat) : Nat := i / 5 + 5 * ((2 * (i % 5) + 3 * (i / 5)) % 5)

/-- Rho and pi of the standard round: lane `i`, rotated left by its offset, is
stored at the index `standardPiIndex i`.  Written from the standard, not from
the program. -/
def standardRhoPi (state : List Nat) : List Nat :=
  (List.range 25).foldl (fun bs i =>
    bs.set (standardPiIndex i) (Keccak.rol (state.getD i 0) (Keccak.rhoOffsets.getD i 0)))
    (List.replicate 25 0)

/-- A round in the order theta, rho, pi, chi, iota of the standard: the steps
theta, chi and iota of the program around `standardRhoPi`. -/
def standardRound (state : List Nat) (round : Nat) : Option (List Nat) := do
  let cs ← Keccak.thetaC state
  let ds ← Keccak.thetaD cs
  let state ← Keccak.thetaXor state ds
  let state ← Keccak.chi state (standardRhoPi state)
  Keccak.iota state round

open Go Keccak SecureBase

/-! ## General facts about the panic monad -/

section Panic

theorem getElem?_total {α : Type} (l : List α) (i : Nat) (h : i < l.length) :
    ∃ v, l[i]? = some v := ⟨l[i], List.getElem?_eq_getElem h⟩

theorem mapM_option_total {α β : Type} (f : α → Option β) (l : List α)
    (h : ∀ a ∈ l, ∃ b, f a = some b) : ∃ bs, l.mapM f = some bs ∧ bs.length = l.length := by
  induction l with
  | nil => exact ⟨[], rfl, rfl⟩
  | cons a l ih =>
    obtain ⟨b, hb⟩ := h a (List.mem_cons_self a l)
    obtain ⟨bs, hbs, hl⟩ := ih (fun x hx => h x (List.mem_cons_of_mem a hx))
    refine ⟨b :: bs, ?_, by simp [hl]⟩
    rw [List.mapM_cons, hb, hbs]; rfl

theorem foldlM_option_inv {σ α : Type} (P : σ → Prop) (f : σ → α → Option σ) (l : List α)
    (s : σ) (hs : P s) (hf : ∀ s a, P s → a ∈ l → ∃ s', f s a = some s' ∧ P s') :
    ∃ s', l.foldlM f s = some s' ∧ P s' := by
  induction l generalizing s with
  | nil => exact ⟨s, rfl, hs⟩
  | cons a l ih =>
    obtain ⟨s1, h1, hp1⟩ := hf s a hs (List.mem_cons_self a l)
    obtain ⟨s2, h2, hp2⟩ := ih s1 hp1 (fun s x hp hx => hf s x hp (List.mem_cons_of_mem a hx))
    exact ⟨s2, by simp [List.foldlM_cons, h1, h2], hp2⟩

theorem store_total {α : Type} (s : List α) (i : Nat) (v : α) (h : i < s.length) :
    ∃ s', store s i v = some s' ∧ s'.length = s.length :=
  ⟨s.set i v, by simp [store, h], by simp⟩

theorem copyInto_total {α : Type} (dst : List α) (lo hi : Nat) (src : List α)
    (h1 : lo ≤ hi) (h2 : hi ≤ dst.length) :
    ∃ d, copyInto dst lo hi src = some d ∧ d.length = dst.length := by
  unfold copyInto
  rw [if_pos ⟨h1, h2⟩]
  refine ⟨_, rfl, ?_⟩
  simp only [List.length_append, List.length_take, List.length_drop]
  omega

end Panic

/-! ## Keccak: no call faults on 25 lanes -/

section KeccakTotal

theorem thetaC_total (state : List Nat) (h : state.length = 25) :
    ∃ cs, thetaC state = some cs ∧ cs.length = 5 := by
  obtain ⟨cs, hcs, hl⟩ := mapM_option_total (fun i => do
    pure ((← state[i]?) ^^^ (← state[i + 5]?) ^^^ (← state[i + 10]?)
            ^^^ (← state[i + 15]?) ^^^ (← state[i + 20]?))) (List.range 5) (by
      intro i hi
      have hi : i < 5 := List.mem_range.mp hi
      obtain ⟨v0, h0⟩ := getElem?_total state i (by omega)
      obtain ⟨v1, h1⟩ := getElem?_total state (i + 5) (by omega)
      obtain ⟨v2, h2⟩ := getElem?_total state (i + 10) (by omega)
      obtain ⟨v3, h3⟩ := getElem?_total state (i + 15) (by omega)
      obtain ⟨v4, h4⟩ := getElem?_total state (i + 20) (by omega)
      exact ⟨_, by simp [h0, h1, h2, h3, h4]; rfl⟩)
  exact ⟨cs, hcs, by simpa using hl⟩

theorem thetaD_total (cs : List Nat) (h : cs.length = 5) :
    ∃ ds, thetaD cs = some ds ∧ ds.length = 5 := by
  obtain ⟨ds, hds, hl⟩ := mapM_option_total (fun i => do
    pure ((← cs[(i + 4) % 5]?) ^^^ rol (← cs[(i + 1) % 5]?) 1)) (List.range 5) (by
      intro i _
      obtain ⟨v0, h0⟩ := getElem?_total cs ((i + 4) % 5) (by omega)
      obtain ⟨v1, h1⟩ := getElem?_total cs ((i + 1) % 5) (by omega)
      exact ⟨_, by simp [h0, h1]; rfl⟩)
  exact ⟨ds, hds, by simpa using hl⟩

theorem thetaXor_total (state ds : List Nat) (h : state.length = 25) (hd : ds.length = 5) :
    ∃ st, thetaXor state ds = some st ∧ st.length = 25 := by
  unfold thetaXor
  refine foldlM_option_inv (fun st : List Nat => st.length = 25) _ _ _ h ?_
  intro st i hst hi
  refine foldlM_option_inv (fun st : List Nat => st.length = 25) _ _ _ hst ?_
  intro st j hst hj
  have hj : j < 5 := List.mem_range.mp hj
  have hi : i ≤ 20 := by
    simp only [List.mem_cons, List.mem_singleton, List.not_mem_nil, or_false] at hi
    omega
  obtain ⟨v0, h0⟩ := getElem?_total st (i + j) (by omega)
  obtain ⟨v1, h1⟩ := getElem?_total ds j (by omega)
  obtain ⟨s', hs', hl⟩ := store_total st (i + j) (v0 ^^^ v1) (by omega)
  exact ⟨s', by simp [h0, h1, hs'], by omega⟩

theorem rhoB_total (state : List Nat) (h : state.length = 25) :
    ∃ bs, rhoB state = some bs ∧ bs.length = 25 := by
  obtain ⟨bs, hbs, hl⟩ := mapM_option_total (fun i => do
    pure (rol (← state[i]?) (← rhoOffsets[i]?))) (List.range 25) (by
      intro i hi
      have hi : i < 25 := List.mem_range.mp hi
      obtain ⟨v0, h0⟩ := getElem?_total state i (by omega)
      obtain ⟨v1, h1⟩ := getElem?_total rhoOffsets i (by simpa [rhoOffsets] using hi)
      exact ⟨_, by simp [h0, h1]; rfl⟩)
  exact ⟨bs, hbs, by simpa using hl⟩

theorem chi_total (state bs : List Nat) (h : state.length = 25) (hb : bs.length = 25) :
    ∃ st, chi state bs = some st ∧ st.length = 25 := by
  unfold chi
  refine foldlM_option_inv (fun st : List Nat => st.length = 25) _ _ _ h ?_
  intro st i hst hi
  refine foldlM_option_inv (fun st : List Nat => st.length = 25) _ _ _ hst ?_
  intro st j hst hj
  have hj : j < 5 := List.mem_range.mp hj
  have hi : i ≤ 20 := by
    simp only [List.mem_cons, List.mem_singleton, List.not_mem_nil, or_false] at hi
    omega
  obtain ⟨v0, h0⟩ := getElem?_total bs (i + j) (by omega)
  obtain ⟨v1, h1⟩ := getElem?_total bs (i + (j + 1) % 5) (by omega)
  obtain ⟨v2, h2⟩ := getElem?_total bs (i + (j + 2) % 5) (by omega)
  obtain ⟨s', hs', hl⟩ := store_total st (i + j) (v0 ^^^ (not64 v1 &&& v2)) (by omega)
  exact ⟨s', by simp [h0, h1, h2, hs'], by omega⟩

theorem iota_total (state : List Nat) (round : Nat) (h : state.length = 25) (hr : round < 24) :
    ∃ st, iota state round = some st ∧ st.length = 25 := by
  obtain ⟨v0, h0⟩ := getElem?_total state 0 (by omega)
  obtain ⟨v1, h1⟩ := getElem?_total roundConstants round (by simpa [roundConstants] using hr)
  obtain ⟨s', hs', hl⟩ := store_total state 0 (v0 ^^^ v1) (by omega)
  exact ⟨s', by simp [iota, h0, h1, hs'], by omega⟩

theorem keccakRound_total (state : List Nat) (round : Nat) (h : state.length = 25)
    (hr : round < 24) : ∃ st, keccakRound state round = some st ∧ st.length = 25 := by
  obtain ⟨cs, hcs, hcl⟩ := thetaC_total state h
  obtain ⟨ds, hds, hdl⟩ := thetaD_total cs hcl
  obtain ⟨s1, hs1, hl1⟩ := thetaXor_total state ds h hdl
  obtain ⟨bs, hbs, hbl⟩ := rhoB_total s1 hl1
  obtain ⟨s2, hs2, hl2⟩ := chi_total s1 bs hl1 hbl
  obtain ⟨s3, hs3, hl3⟩ := iota_total s2 round hl2 hr
  exact ⟨s3, by simp [keccakRound, hcs, hds, hs1, hbs, hs2, hs3], hl3⟩

theorem keccakF_total (state : List Nat) (h : state.length = 25) :
    ∃ st, keccakF state = some st ∧ st.length = 25 := by
  unfold keccakF
  refine foldlM_option_inv (fun st : List Nat => st.length = 25) _ _ _ h ?_
  intro st r hst hr
  exact keccakRound_total st r hst (by simpa [keccakRounds] using hr)

end KeccakTotal

section KeccakSponge

theorem pad_total (input : List Byte) (rateInBytes : Int) (hr : 0 < rateInBytes) :
    ∃ p, pad input rateInBytes = some p ∧
      (p.length : Int) = input.length + (rateInBytes - (input.length : Int) % rateInBytes) ∧
      input.length < p.length := by
  have hmod : Int.tmod (input.length : Int) rateInBytes = (input.length : Int) % rateInBytes :=
    Int.tmod_eq_emod (Int.ofNat_nonneg _) (le_of_lt hr)
  have hlt : (input.length : Int) % rateInBytes < rateInBytes := Int.emod_lt_of_pos _ hr
  have hge : 0 ≤ (input.length : Int) % rateInBytes := Int.emod_nonneg _ (ne_of_gt hr)
  unfold pad
  rw [if_neg (ne_of_gt hr), hmod]
  simp only
  rw [if_neg (by omega)]
  generalize htot : ((input.length : Int) + (rateInBytes - (input.length : Int) % rateInBytes)).toNat
    = total
  have htl : input.length < total := by omega
  obtain ⟨p1, hp1, hl1⟩ := copyInto_total (List.replicate total (0 : Byte)) 0
    (List.replicate total (0 : Byte)).length input (Nat.zero_le _) (le_refl _)
  rw [List.length_replicate] at hl1 hp1
  obtain ⟨p2, hp2, hl2⟩ := store_total p1 input.length (byte 0x06) (by omega)
  obtain ⟨v, hv⟩ := getElem?_total p2 (p2.length - 1) (by omega)
  obtain ⟨p3, hp3, hl3⟩ := store_total p2 (p2.length - 1) (byte (v.val ||| 0x80)) (by omega)
  refine ⟨p3, by simp [hp1, hp2, hv, hp3], ?_, by omega⟩
  omega

theorem uint64LE_total (b : List Byte) (h : b.length = 8) : ∃ v, uint64LE b = some v := by
  match b, h with
  | [_, _, _, _, _, _, _, _], _ => exact ⟨_, rfl⟩

theorem subslice_total {α : Type} (s : List α) (lo hi : Nat) (h1 : lo ≤ hi) (h2 : hi ≤ s.length) :
    ∃ t, subslice s lo hi = some t ∧ t.length = hi - lo := by
  unfold subslice
  rw [if_pos ⟨h1, h2⟩]
  refine ⟨_, rfl, ?_⟩
  simp only [List.length_take, List.length_drop]
  omega

theorem absorbBlock_total (message : List Byte) (offset words : Nat) (state : List Nat)
    (h : state.length = 25) (hw : words ≤ 25) :
    ∃ st, absorbBlock message offset words state = some st ∧ st.length = 25 := by
  unfold absorbBlock
  refine foldlM_option_inv (fun st : List Nat => st.length = 25) _ _ _ h ?_
  intro st i hst hi
  have hi : i < words := List.mem_range.mp hi
  by_cases hg : offset + i * 8 + 8 ≤ message.length
  · obtain ⟨t, ht, htl⟩ := subslice_total message (offset + i * 8) (offset + i * 8 + 8) (by omega) hg
    obtain ⟨w, hw'⟩ := uint64LE_total t (by omega)
    obtain ⟨v, hv⟩ := getElem?_total st i (by omega)
    obtain ⟨s', hs', hl⟩ := store_total st i (v ^^^ w) (by omega)
    exact ⟨s', by simp [hg, ht, hw', hv, hs'], by omega⟩
  · exact ⟨st, by simp [hg], hst⟩

theorem absorbLoop_total (message : List Byte) (blockSize : Nat) (hb : blockSize / 8 ≤ 25)
    (n offset : Nat) (state : List Nat) (h : state.length = 25) :
    ∃ st, absorbLoop message blockSize n offset state = some st ∧ st.length = 25 := by
  induction n generalizing offset state with
  | zero => exact ⟨state, rfl, h⟩
  | succ n ih =>
    obtain ⟨s1, hs1, hl1⟩ := absorbBlock_total message offset (blockSize / 8) state h hb
    obtain ⟨s2, hs2, hl2⟩ := keccakF_total s1 hl1
    obtain ⟨s3, hs3, hl3⟩ := ih (offset + blockSize) s2 hl2
    exact ⟨s3, by simp [absorbLoop, hs1, hs2, hs3], hl3⟩

theorem absorb_total (state : List Nat) (message : List Byte) (rateInBytes : Int)
    (h : state.length = 25) (h0 : 0 < rateInBytes) (h1 : rateInBytes ≤ 207) :
    ∃ st, absorb state message rateInBytes = some st ∧ st.length = 25 := by
  unfold absorb
  by_cases hm : message.length = 0
  · exact ⟨state, by simp [hm], h⟩
  · rw [if_neg hm, if_neg (by omega)]
    exact absorbLoop_total message _ (by omega) _ _ state h

theorem squeezeWords_total (state : List Nat) (output : List Byte) (offset bto : Nat)
    (h : state.length = 25) (hb : bto ≤ 200) (hlen : offset + bto ≤ output.length) :
    ∃ out, squeezeWords state output offset bto = some out ∧ out.length = output.length := by
  unfold squeezeWords
  refine foldlM_option_inv (fun o : List Byte => o.length = output.length) _ _ _ rfl ?_
  intro o i ho hi
  have hi : i < bto / 8 := List.mem_range.mp hi
  obtain ⟨v, hv⟩ := getElem?_total state i (by omega)
  obtain ⟨o', ho', hl'⟩ := copyInto_total o (offset + i * 8) o.length (putUint64 v)
    (by omega) (le_refl _)
  exact ⟨o', by simp [hv, ho'], by omega⟩

theorem squeezeTail_total (state : List Nat) (output : List Byte) (offset bto : Nat)
    (h : state.length = 25) (hb : bto ≤ 200) (hlen : offset + bto ≤ output.length) :
    ∃ out, squeezeTail state output offset bto = some out ∧ out.length = output.length := by
  unfold squeezeTail
  by_cases hrem : bto % 8 ≠ 0
  · obtain ⟨v, hv⟩ := getElem?_total state (bto / 8) (by omega)
    obtain ⟨o', ho', hl'⟩ := copyInto_total output (offset + bto / 8 * 8)
      (offset + bto) ((putUint64 v).take (bto % 8)) (by omega) (by omega)
    exact ⟨o', by simp [hrem, hv, ho'], by omega⟩
  · exact ⟨output, by simp [hrem], rfl⟩

theorem squeezeLoop_total (n : Nat) (state : List Nat) (output : List Byte)
    (offset outputLength : Nat) (h : state.length = 25)
    (hlen : offset + outputLength = output.length) :
    ∃ out st, squeezeLoop n state output offset outputLength = some (out, st) ∧
      out.length = output.length ∧ st.length = 25 := by
  induction n generalizing state output offset outputLength with
  | zero => exact ⟨output, state, rfl, rfl, h⟩
  | succ n ih =>
    obtain ⟨o1, ho1, hl1⟩ := squeezeWords_total state output offset (min outputLength 200) h
      (by omega) (by omega)
    obtain ⟨o2, ho2, hl2⟩ := squeezeTail_total state o1 offset (min outputLength 200) h
      (by omega) (by omega)
    by_cases hmore : outputLength - min outputLength 200 > 0
    · obtain ⟨s1, hs1, hsl⟩ := keccakF_total state h
      obtain ⟨out, st, hrec, hol, hstl⟩ := ih s1 o2 (offset + min outputLength 200)
        (outputLength - min outputLength 200) hsl (by omega)
      refine ⟨out, st, ?_, by omega, hstl⟩
      unfold squeezeLoop
      simp only [Option.bind_eq_bind]
      rw [ho1, Option.some_bind, ho2, Option.some_bind, if_pos hmore, hs1, Option.some_bind]
      exact hrec
    · obtain ⟨out, st, hrec, hol, hstl⟩ := ih state o2 (offset + min outputLength 200)
        (outputLength - min outputLength 200) h (by omega)
      refine ⟨out, st, ?_, by omega, hstl⟩
      unfold squeezeLoop
      simp only [Option.bind_eq_bind]
      rw [ho1, Option.some_bind, ho2, Option.some_bind, if_neg hmore, Option.pure_def,
        Option.some_bind]
      exact hrec

theorem squeeze_total (state : List Nat) (outputLength : Int) (h : state.length = 25)
    (h0 : 0 ≤ outputLength) :
    ∃ out st, squeeze state outputLength = some (out, st) ∧
      out.length = outputLength.toNat ∧ st.length = 25 := by
  unfold squeeze
  rw [if_neg (by omega)]
  obtain ⟨out, st, hs, hol, hsl⟩ := squeezeLoop_total ((outputLength.toNat + 199) / 200) state
    (List.replicate outputLength.toNat 0) 0 outputLength.toNat h (by simp)
  exact ⟨out, st, hs, by simpa using hol, hsl⟩

theorem initializeState_length (state : List Nat) (h : state.length = 25) :
    initializeState state = List.replicate 25 0 := by
  unfold initializeState
  rw [← h]
  exact List.map_const' state 0

/-- The heart of the totality of `Hash`: from 25 lanes, with a rate between 1
and 207 bytes and a non-negative digest length, no step panics. -/
theorem Hash_total (k : Keccak) (input : List Byte) (outputLengthBits : Int)
    (hd : k.disposed = false) (hl : k.state.length = 25)
    (hrate : 0 < Int.tdiv (1600 - 2 * outputLengthBits) 8)
    (hrate2 : Int.tdiv (1600 - 2 * outputLengthBits) 8 ≤ 207)
    (hout : 0 ≤ Int.tdiv outputLengthBits 8) :
    ∃ digest st, Hash k input outputLengthBits
        = some ((digest, none), { state := st, disposed := false }) ∧
      digest.length = (Int.tdiv outputLengthBits 8).toNat ∧ st.length = 25 := by
  obtain ⟨p, hp, -, -⟩ := pad_total input _ hrate
  obtain ⟨s1, hs1, hl1⟩ := absorb_total (initializeState k.state) p _
    (by rw [initializeState_length _ hl]; simp) hrate hrate2
  obtain ⟨out, s2, hs2, hol, hl2⟩ := squeeze_total s1 _ hl1 hout
  refine ⟨out, s2, ?_, hol, hl2⟩
  cases k with
  | mk state disposed =>
    simp only at hd hl hs1
    subst hd
    simp [Hash, hp, hs1, hs2]

end KeccakSponge

/-! ## The hash service: disposal, totality, reuse -/

section HashService

theorem Hash_disposed (k : Keccak) (input : List Byte) (outputLengthBits : Int)
    (hd : k.disposed = true) :
    Hash k input outputLengthBits = some (([], some ErrObjectDisposed), k) := by
  simp [Hash, hd]

theorem Dispose_disposed (k : Keccak) : (Dispose k).disposed = true := by
  unfold Dispose
  cases hd : k.disposed <;> simp [hd]

/-- C8.  After `Dispose`, a `Hash` call with any input and any output length
does not panic, returns no digest together with `ErrObjectDisposed`, and leaves
the session exactly as it was, still disposed, so that the same holds for every
later call; a second `Dispose` leaves the session equal to the one after the
first. -/
theorem Hash_after_Dispose (k : Keccak) (input : List Byte) (outputLengthBits : Int) :
    Hash (Dispose k) input outputLengthBits
        = some (([], some ErrObjectDisposed), Dispose k) ∧
      (Dispose k).disposed = true ∧
      Dispose (Dispose k) = Dispose k := by
  refine ⟨Hash_disposed _ _ _ (Dispose_disposed k), Dispose_disposed k, ?_⟩
  unfold Dispose
  cases hd : k.disposed <;> simp [hd]

/-- C9.  On a session that is not disposed and has its 25 lanes, for every
input and every output length in bits that is a positive multiple of 8 below
800, `Hash` does not panic, the rate is positive, the error is nil and the
digest has exactly `outputLengthBits / 8` bytes; the session stays usable. -/
theorem Hash_no_fault (k : Keccak) (input : List Byte) (outputLengthBits : Int)
    (hd : k.disposed = false) (hl : k.state.length = 25)
    (hpos : 0 < outputLengthBits) (h8 : outputLengthBits % 8 = 0)
    (hlt : outputLengthBits < 800) :
    0 < Int.tdiv (1600 - 2 * outputLengthBits) 8 ∧
    ∃ digest k', Hash k input outputLengthBits = some ((digest, none), k') ∧
      (digest.length : Int) = Int.tdiv outputLengthBits 8 ∧
      (digest.length : Int) * 8 = outputLengthBits ∧
      k'.disposed = false ∧ k'.state.length = 25 := by
  have hr : Int.tdiv (1600 - 2 * outputLengthBits) 8 = (1600 - 2 * outputLengthBits) / 8 :=
    Int.tdiv_eq_ediv (by omega) (by decide)
  have ho : Int.tdiv outputLengthBits 8 = outputLengthBits / 8 :=
    Int.tdiv_eq_ediv (by omega) (by decide)
  have hrate : 0 < Int.tdiv (1600 - 2 * outputLengthBits) 8 := by rw [hr]; omega
  refine ⟨hrate, ?_⟩
  obtain ⟨digest, st, hh, hdl, hsl⟩ := Hash_total k input outputLengthBits hd hl hrate
    (by rw [hr]; omega) (by rw [ho]; omega)
  refine ⟨digest, _, hh, ?_, ?_, rfl, hsl⟩
  · rw [hdl, ho]; omega
  · rw [hdl, ho]; omega

/-- The witness of C9: the empty input at 256 bits on a fresh session, where the
rate is 136 bytes and the digest has 32 bytes. -/
theorem Hash_no_fault_witness :
    Int.tdiv (1600 - 2 * 256) 8 = 136 ∧
    0 < Int.tdiv (1600 - 2 * 256) 8 ∧
    ∃ digest k', Hash New [] 256 = some ((digest, none), k') ∧
      (digest.length : Int) = Int.tdiv 256 8 ∧
      (digest.length : Int) * 8 = 256 ∧
      k'.disposed = false ∧ k'.state.length = 25 :=
  ⟨by decide, Hash_no_fault New [] 256 rfl rfl (by decide) (by decide) (by decide)⟩

/-- C10.  A session that is not disposed and holds arbitrary values in its 25
lanes behaves in `Hash` exactly as a freshly created one: same outcome, same
digest, same error and same lanes afterwards, for every input and every output
length. -/
theorem Hash_reusable (k : Keccak) (input : List Byte) (outputLengthBits : Int)
    (hd : k.disposed = false) (hl : k.state.length = 25) :
    Hash k input outputLengthBits = Hash New input outputLengthBits := by
  cases k with
  | mk state disposed =>
    simp only at hd hl
    subst hd
    simp only [Hash, New, initializeState_length state hl,
      initializeState_length (List.replicate 25 0) (by simp), Bool.false_eq_true, if_false]

/-- The witness of C10: a session whose lanes hold 1 .. 25. -/
theorem Hash_reusable_witness :
    Hash { state := (List.range 25).map (fun i => i + 1), disposed := false } [1, 2, 3] 256
      = Hash New [1, 2, 3] 256 :=
  Hash_reusable _ [1, 2, 3] 256 rfl rfl

end HashService

/-! ## Strings and runes -/

section Runes

theorem decoderune_width_pos (s : List Byte) : 1 ≤ (decoderune s).2 := by
  unfold decoderune
  repeat' split
  all_goals (try simp only [apply_ite Prod.snd])
  all_goals first | (split <;> decide) | decide

theorem stringToRunesAux_length_le (fuel : Nat) (s : List Byte) :
    (stringToRunesAux fuel s).length ≤ s.length := by
  induction fuel generalizing s with
  | zero => simp [stringToRunesAux]
  | succ fuel ih =>
    cases s with
    | nil => simp [stringToRunesAux]
    | cons s0 rest =>
      unfold stringToRunesAux
      by_cases h : s0.val < 0x80
      · simp only [h, if_true, List.length_cons]
        exact Nat.succ_le_succ (ih rest)
      · simp only [h, if_false, List.length_cons]
        have hw := decoderune_width_pos (s0 :: rest)
        have := ih ((s0 :: rest).drop (decoderune (s0 :: rest)).2)
        have hd : ((s0 :: rest).drop (decoderune (s0 :: rest)).2).length ≤ rest.length := by
          simp only [List.length_drop, List.length_cons]
          omega
        omega

/-- The conversion `[]rune(s)` never yields more runes than `s` has bytes. -/
theorem stringToRunes_length_le (s : List Byte) : (stringToRunes s).length ≤ s.length :=
  stringToRunesAux_length_le _ s

theorem stringToRunesAux_ascii (fuel : Nat) (s : List Byte) (hf : s.length ≤ fuel)
    (h : ∀ b ∈ s, b.val < 0x80) : stringToRunesAux fuel s = s.map (fun b => b.val) := by
  induction s generalizing fuel with
  | nil => cases fuel <;> simp [stringToRunesAux]
  | cons s0 rest ih =>
    cases fuel with
    | zero => simp at hf
    | succ fuel =>
      have h0 : s0.val < 0x80 := h s0 (List.mem_cons_self _ _)
      simp only [stringToRunesAux, h0, if_true, List.map_cons]
      rw [ih fuel (by simpa using hf) (fun b hb => h b (List.mem_cons_of_mem _ hb))]

/-- On a string of ASCII bytes `[]rune(s)` is the sequence of the byte values. -/
theorem stringToRunes_ascii (s : List Byte) (h : ∀ b ∈ s, b.val < 0x80) :
    stringToRunes s = s.map (fun b => b.val) :=
  stringToRunesAux_ascii _ s (le_refl _) h

/-- On ASCII runes `string(runes)` has one byte a rune. -/
theorem runesToString_ascii (rs : List Nat) (h : ∀ r ∈ rs, r < 0x80) :
    runesToString rs = rs.map byte := by
  induction rs with
  | nil => rfl
  | cons r rs ih =>
    have h0 : r < 0x80 := h r (List.mem_cons_self _ _)
    have : encoderune r = [byte r] := by
      unfold encoderune
      rw [if_pos (show r ≤ 0x7F by omega)]
    simp only [runesToString, List.flatMap_cons, this, List.map_cons, List.singleton_append]
    rw [← ih (fun x hx => h x (List.mem_cons_of_mem _ hx))]
    rfl

theorem byte_val_of_lt (x : Nat) (h : x < 256) : (byte x).val = x := by
  simp [byte, Nat.mod_eq_of_lt h]

theorem byte_val (b : Byte) : byte b.val = b := by
  apply Fin.ext
  simp [byte, Nat.mod_eq_of_lt b.isLt]

/-- ASCII runes survive the trip through a string. -/
theorem stringToRunes_runesToString_ascii (rs : List Nat) (h : ∀ r ∈ rs, r < 0x80) :
    stringToRunes (runesToString rs) = rs := by
  rw [runesToString_ascii rs h, stringToRunes_ascii]
  · rw [List.map_map]
    conv_rhs => rw [← List.map_id rs]
    apply List.map_congr_left
    intro r hr
    exact byte_val_of_lt r (by have := h r hr; omega)
  · intro b hb
    obtain ⟨r, hr, rfl⟩ := List.mem_map.mp hb
    rw [byte_val_of_lt r (by have := h r hr; omega)]
    exact h r hr

/-- ASCII bytes survive the trip through runes. -/
theorem runesToString_stringToRunes_ascii (s : List Byte) (h : ∀ b ∈ s, b.val < 0x80) :
    runesToString (stringToRunes s) = s := by
  rw [stringToRunes_ascii s h, runesToString_ascii]
  · rw [List.map_map]
    conv_rhs => rw [← List.map_id s]
    apply List.map_congr_left
    intro b _
    exact byte_val b
  · intro r hr
    obtain ⟨b, hb, rfl⟩ := List.mem_map.mp hr
    exact h b hb

end Runes

/-! ## The shuffle is a permutation -/

section Shuffle

theorem count_set_add (l : List Nat) (i a x : Nat) (h : i < l.length) :
    (l.set i a).count x + (if l[i] = x then 1 else 0)
      = l.count x + (if a = x then 1 else 0) := by
  induction l generalizing i with
  | nil => simp at h
  | cons y l ih =>
    cases i with
    | zero =>
      simp only [List.set_cons_zero, List.count_cons, List.getElem_cons_zero, beq_iff_eq]
      omega
    | succ i =>
      have := ih i (by simpa using h)
      simp only [List.set_cons_succ, List.count_cons, List.getElem_cons_succ, beq_iff_eq]
      omega

/-- Exchanging two positions of a list gives a permutation of it. -/
theorem swap_perm (l : List Nat) (i x : Nat) (hi : i < l.length) (hx : x < l.length) :
    ((l.set i l[x]).set x l[i]).Perm l := by
  rw [List.perm_iff_count]
  intro c
  have h1 := count_set_add l i l[x] c hi
  have hx' : x < (l.set i l[x]).length := by simpa using hx
  have h2 := count_set_add (l.set i l[x]) x l[i] c hx'
  have h3 : (l.set i l[x])[x] = l[x] := by
    rw [List.getElem_set]
    split
    · rfl
    · rfl
  rw [h3] at h2
  omega

theorem wrapInt_eq (y : Int) (h0 : 0 ≤ y) (h1 : y < 2 ^ 63) : wrapInt y = y := by
  unfold wrapInt
  norm_num at h1 ⊢
  omega

theorem shuffleInner_perm (key : Int) (hk0 : 0 ≤ key) (hk1 : key < 2147483647)
    (i : Nat) (characters : List Nat) (hi : i ≤ characters.length - 1)
    (hlen : characters.length ≤ 2147483647) :
    ∃ r, shuffleInner key i characters = some r ∧ r.Perm characters := by
  induction i generalizing characters with
  | zero => exact ⟨characters, rfl, List.Perm.refl _⟩
  | succ i ih =>
    have hn : characters.length ≠ 0 := by omega
    have hprod0 : 0 ≤ ((i + 1 : Nat) : Int) * key := Int.mul_nonneg (Int.ofNat_nonneg _) hk0
    have hprod1 : ((i + 1 : Nat) : Int) * key < 2 ^ 63 := by
      have h1 : ((i + 1 : Nat) : Int) ≤ 2147483647 := by omega
      have : ((i + 1 : Nat) : Int) * key ≤ 2147483647 * 2147483647 :=
        Int.mul_le_mul h1 (le_of_lt hk1) hk0 (by decide)
      have h2 : (2147483647 : Int) * 2147483647 < 2 ^ 63 := by norm_num
      omega
    have hx : Int.tmod (wrapInt (((i + 1 : Nat) : Int) * key)) (characters.length : Int)
        = (((i + 1 : Nat) : Int) * key) % (characters.length : Int) := by
      rw [wrapInt_eq _ hprod0 hprod1]
      exact Int.tmod_eq_emod hprod0 (Int.ofNat_nonneg _)
    have hx0 : 0 ≤ (((i + 1 : Nat) : Int) * key) % (characters.length : Int) :=
      Int.emod_nonneg _ (by omega)
    have hx1 : (((i + 1 : Nat) : Int) * key) % (characters.length : Int) < characters.length :=
      Int.emod_lt_of_pos _ (by omega)
    generalize hxe : (((i + 1 : Nat) : Int) * key) % (characters.length : Int) = x at hx hx0 hx1
    have hxn : x.toNat < characters.length := by omega
    have hi1 : i + 1 < characters.length := by omega
    obtain ⟨r, hr, hp⟩ := ih ((characters.set (i + 1) characters[x.toNat]).set x.toNat
      characters[i + 1]) (by simp; omega) (by simpa using hlen)
    refine ⟨r, ?_, hp.trans (swap_perm characters (i + 1) x.toNat hi1 hxn)⟩
    unfold shuffleInner
    simp only [hn, hx, index, hx0, storeInt, store, if_true, if_false,
      List.getElem?_eq_getElem hi1, List.getElem?_eq_getElem hxn, hi1,
      List.length_set, hxn, Option.bind_eq_bind, Option.some_bind, Option.pure_def]
    exact hr

end Shuffle

/-! ## The alphabet of a constructed codec -/

section Alphabet

theorem defcharset_length : defcharset.length = 91 := by decide

theorem defcharset_nodup : defcharset.Nodup := by decide

theorem defcharset_ascii : ∀ b ∈ defcharset, b.val < 0x80 := by decide

theorem map_byte_val (s : List Byte) : (s.map (fun b => b.val)).map byte = s := by
  rw [List.map_map]
  conv_rhs => rw [← List.map_id s]
  exact List.map_congr_left (fun b _ => byte_val b)

/-- The function `fnSuffleCharset` on an ASCII string and key values in the
range of the derivation, `0 ≤ k < 2^31 - 1`: it does not panic and returns a
permutation of its input. -/
theorem fnSuffleCharset_perm (data : List Byte) (keys : List Int)
    (hascii : ∀ b ∈ data, b.val < 0x80) (hlen : data.length ≤ 2147483647)
    (hkeys : ∀ k ∈ keys, 0 ≤ k ∧ k < 2147483647) :
    ∃ s, fnSuffleCharset data keys = some s ∧ s.Perm data := by
  obtain ⟨chars, hchars, hperm⟩ := foldlM_option_inv
    (fun cs : List Nat => cs.Perm (stringToRunes data))
    (fun chars j => do shuffleInner (← keys[j]?) (chars.length - 1) chars)
    (List.range (keys.length - 1)) (stringToRunes data) (List.Perm.refl _) (by
      intro cs j hcs hj
      have hj : j < keys.length - 1 := List.mem_range.mp hj
      have hjl : j < keys.length := by omega
      have hk := hkeys keys[j] (List.getElem_mem hjl)
      have hcl : cs.length ≤ 2147483647 := by
        rw [hcs.length_eq]
        exact le_trans (stringToRunes_length_le data) hlen
      obtain ⟨r, hr, hp⟩ := shuffleInner_perm keys[j] hk.1 hk.2 (cs.length - 1) cs (le_refl _) hcl
      exact ⟨r, by simp [List.getElem?_eq_getElem hjl, hr], hp.trans hcs⟩)
  rw [stringToRunes_ascii data hascii] at hperm
  have hca : ∀ r ∈ chars, r < 0x80 := by
    intro r hr
    obtain ⟨b, hb, rfl⟩ := List.mem_map.mp (hperm.mem_iff.mp hr)
    exact hascii b hb
  refine ⟨runesToString chars, ?_, ?_⟩
  · unfold fnSuffleCharset
    simp only [Option.bind_eq_bind] at hchars ⊢
    rw [hchars]
    rfl
  · rw [runesToString_ascii chars hca]
    have := hperm.map byte
    rwa [map_byte_val] at this

theorem fnCharacterSetSecretKey_total (anahtar : List Byte) :
    ∃ keys, fnCharacterSetSecretKey anahtar = some keys ∧ keys.length = anahtar.length ∧
      ∀ k ∈ keys, 0 ≤ k ∧ k < 2147483647 := by
  unfold fnCharacterSetSecretKey
  refine foldlM_option_inv
    (fun arr : List Int => arr.length = anahtar.length ∧ ∀ k ∈ arr, 0 ≤ k ∧ k < 2147483647)
    _ _ _ ⟨by simp, ?_⟩ ?_
  · intro k hk
    rw [List.eq_of_mem_replicate hk]
    decide
  · intro arr i ⟨hl, hb⟩ hi
    have hi : i < anahtar.length - 1 := List.mem_range.mp hi
    have hil : i < anahtar.length := by omega
    have hv : Int.tmod (anahtar[i].val : Int) 2147483647 = (anahtar[i].val : Int) := by
      have := anahtar[i].isLt
      rw [Int.tmod_eq_emod (by omega) (by decide)]
      omega
    refine ⟨arr.set i (anahtar[i].val : Int), ?_, by simpa using hl, ?_⟩
    · simp [List.getElem?_eq_getElem hil, hv, store, hl, hil]
    · intro k hk
      rcases List.mem_or_eq_of_mem_set hk with h | h
      · exact hb k h
      · have := anahtar[i].isLt
        omega

theorem computeHash_total (s : List Byte) : ∃ h, computeHash s 512 = some h := by
  obtain ⟨digest, st, hh, -, -⟩ := Hash_total Keccak.New s 512 rfl rfl (by decide) (by decide)
    (by decide)
  refine ⟨digest.flatMap hex02, ?_⟩
  simp [computeHash, hh]

end Alphabet

section Constructed

/-- With a non-empty key `SetSecretKey` does not panic; the codec then holds the
first 64 characters of a permutation of `defcharset` as its alphabet and the
65th as its padding. -/
theorem SetSecretKey_shuffled (sb : SecureBase) (secretkey : List Byte)
    (hkey : secretkey ≠ []) :
    ∃ s : List Byte, s.Perm defcharset ∧
      SetSecretKey sb secretkey = some
        { globalcharset := s.take 64, padding := (s.getD 64 0).val, gencoding := sb.gencoding } := by
  obtain ⟨hash, hhash⟩ := computeHash_total secretkey
  obtain ⟨keys, hkeys, -, hkb⟩ := fnCharacterSetSecretKey_total hash
  obtain ⟨s, hs, hperm⟩ := fnSuffleCharset_perm defcharset keys defcharset_ascii
    (by rw [defcharset_length]; decide) hkb
  have hlen : s.length = 91 := by rw [hperm.length_eq, defcharset_length]
  have hascii : ∀ b ∈ s, b.val < 0x80 := fun b hb => defcharset_ascii b (hperm.mem_iff.mp hb)
  refine ⟨s, hperm, ?_⟩
  have hne : secretkey.length ≠ 0 := by
    intro h
    exact hkey (List.length_eq_zero.mp h)
  have htail : subslice s 64 s.length = some (s.drop 64) := by
    unfold subslice
    rw [if_pos ⟨by omega, le_refl _⟩]
    congr 1
    apply List.take_of_length_le
    simp
  have hhead : subslice s 0 64 = some (s.take 64) := by
    unfold subslice
    rw [if_pos ⟨by omega, by omega⟩]
    rfl
  have hrunes : (stringToRunes (s.drop 64))[0]? = some (s.getD 64 0).val := by
    rw [stringToRunes_ascii _ (fun b hb => hascii b (List.mem_of_mem_drop hb))]
    rw [List.getElem?_map, List.getElem?_drop]
    simp [List.getD_eq_getElem?_getD, List.getElem?_eq_getElem (show 64 < s.length by omega)]
  simp only [SetSecretKey, hne, ne_eq, not_false_eq_true, if_true, prSuffleCharset, hhash, hkeys,
    hs, Option.bind_eq_bind, Option.some_bind, Option.pure_def, htail, hrunes, hhead]

/-- With the empty key `SetSecretKey` installs the standard table and `=`. -/
theorem SetSecretKey_empty (sb : SecureBase) :
    SetSecretKey sb [] = some
      { globalcharset := base64standart, padding := 61, gencoding := sb.gencoding } := by
  simp [SetSecretKey]

theorem wellFormed_standard (enc : SBEncoding) :
    WellFormed { globalcharset := base64standart, padding := 61, gencoding := enc } where
  length := show base64standart.length = 64 by decide
  ascii := show ∀ b ∈ base64standart, b.val < 0x80 by decide
  nodup := show base64standart.Nodup by decide
  padAscii := show (61 : Nat) < 0x80 by decide
  padFresh := show ∀ b ∈ base64standart, b.val ≠ 61 by decide

theorem wellFormed_shuffled (s : List Byte) (hperm : s.Perm defcharset) (enc : SBEncoding) :
    WellFormed
      { globalcharset := s.take 64, padding := (s.getD 64 0).val, gencoding := enc } := by
  have hlen : s.length = 91 := by rw [hperm.length_eq, defcharset_length]
  have hascii : ∀ b ∈ s, b.val < 0x80 := fun b hb => defcharset_ascii b (hperm.mem_iff.mp hb)
  have hnd : s.Nodup := hperm.nodup_iff.mpr defcharset_nodup
  have h64 : s.getD 64 0 = s[64] := by
    simp [List.getD_eq_getElem?_getD, List.getElem?_eq_getElem (show 64 < s.length by omega)]
  refine ⟨by simp [hlen], fun b hb => hascii b (List.mem_of_mem_take hb),
    hnd.sublist (List.take_sublist 64 s), ?_, ?_⟩
  · simp only [h64]
    exact hascii _ (List.getElem_mem _)
  · intro b hb heq
    simp only [h64] at heq
    have hbe : b = s[64] := Fin.ext heq
    rw [← List.take_append_drop 64 s] at hnd
    have hdis := (List.nodup_append.mp hnd).2.2
    refine hdis hb ?_
    rw [hbe, List.mem_iff_getElem]
    exact ⟨0, by simp [hlen], by simp⟩

/-- Every codec that a constructor returns is well formed, and the constructors
do not panic. -/
theorem SetSecretKey_wellFormed (sb : SecureBase) (secretkey : List Byte) :
    ∃ sb', SetSecretKey sb secretkey = some sb' ∧ WellFormed sb' ∧
      sb'.gencoding = sb.gencoding := by
  by_cases hkey : secretkey = []
  · subst hkey
    exact ⟨_, SetSecretKey_empty sb, wellFormed_standard _, rfl⟩
  · obtain ⟨s, hperm, hs⟩ := SetSecretKey_shuffled sb secretkey hkey
    exact ⟨_, hs, wellFormed_shuffled s hperm _, rfl⟩

/-- The constructor with the empty key returns the codec of `NewSecureBase`. -/
theorem NewSecureBaseWithKey_empty (enc : SBEncoding) :
    NewSecureBaseWithKey enc [] = some (NewSecureBase enc) :=
  SetSecretKey_empty _

theorem NewSecureBase_wellFormed (enc : SBEncoding) : WellFormed (NewSecureBase enc) :=
  wellFormed_standard enc

end Constructed

/-! ## Encoding: the closed form of `processEncoding` -/

section Encoding

theorem and_63 (x : Nat) : x &&& 63 = x % 64 := Nat.and_pow_two_sub_one_eq_mod x 6
theorem and_3 (x : Nat) : x &&& 3 = x % 4 := Nat.and_pow_two_sub_one_eq_mod x 2
theorem and_15 (x : Nat) : x &&& 15 = x % 16 := Nat.and_pow_two_sub_one_eq_mod x 4
theorem and_255 (x : Nat) : x &&& 255 = x % 256 := Nat.and_pow_two_sub_one_eq_mod x 8

/-- A bitwise or of a multiple of `2^k` with a value below `2^k` is their sum. -/
theorem or_eq_add (a b k : Nat) (ha : a % 2 ^ k = 0) (hb : b < 2 ^ k) : a ||| b = a + b := by
  have h := Nat.mul_add_lt_is_or hb (a / 2 ^ k)
  have hd : 2 ^ k * (a / 2 ^ k) = a := by
    have := Nat.div_add_mod a (2 ^ k)
    omega
  rw [hd] at h
  exact h.symm

theorem getElem?_getD {α : Type} (l : List α) (i : Nat) (d : α) (h : i < l.length) :
    l[i]? = some (l.getD i d) := by
  simp [List.getD_eq_getElem?_getD, List.getElem?_eq_getElem h]

theorem store_append {α : Type} (xs ys : List α) (t v : α) (i : Nat) (hi : i = xs.length) :
    store (xs ++ t :: ys) i v = some (xs ++ v :: ys) := by
  subst hi
  simp [store]

theorem store_append1 {α : Type} (xs ys : List α) (a t v : α) :
    store (xs ++ a :: t :: ys) (xs.length + 1) v = some (xs ++ a :: v :: ys) := by
  have := store_append (xs ++ [a]) ys t v (xs.length + 1) (by simp)
  simpa using this

theorem store_append2 {α : Type} (xs ys : List α) (a b t v : α) :
    store (xs ++ a :: b :: t :: ys) (xs.length + 1 + 1) v = some (xs ++ a :: b :: v :: ys) := by
  have := store_append (xs ++ [a, b]) ys t v (xs.length + 1 + 1) (by simp)
  simpa using this

theorem store_append3 {α : Type} (xs ys : List α) (a b c t v : α) :
    store (xs ++ a :: b :: c :: t :: ys) (xs.length + 1 + 1 + 1) v
      = some (xs ++ a :: b :: c :: v :: ys) := by
  have := store_append (xs ++ [a, b, c]) ys t v (xs.length + 1 + 1 + 1) (by simp)
  simpa using this

theorem getElem?_append_cons {α : Type} (xs ys : List α) (t : α) (i : Nat)
    (hi : i = xs.length) : (xs ++ t :: ys)[i]? = some t := by
  subst hi
  rw [List.getElem?_append_right (le_refl _)]
  simp

/-- The index expressions of the last, incomplete group stay below 64. -/
theorem tail_index_bounds (a b : Byte) :
    a.val >>> 2 < 64 ∧ (a.val &&& 3) <<< 4 < 64 ∧
      ((a.val &&& 3) <<< 4) ||| (b.val >>> 4) < 64 ∧ (b.val &&& 15) <<< 2 < 64 := by
  have h1 : ∀ x : Byte, x.val >>> 2 < 64 ∧ (x.val &&& 3) <<< 4 < 64 ∧ x.val >>> 4 < 64 ∧
      (x.val &&& 15) <<< 2 < 64 := by decide
  exact ⟨(h1 a).1, (h1 a).2.1, Nat.or_lt_two_pow (n := 6) (h1 a).2.1 (h1 b).2.2.1, (h1 b).2.2.2⟩

theorem encodeGroups_spec (A : List Nat) (hA : A.length = 64) (padding : Nat) (n : Nat) :
    ∀ (pre l : List Byte) (done todo : List Nat), 3 * n ≤ l.length → 4 * n ≤ todo.length →
      encodeGroups A (pre ++ l) n pre.length done.length (done ++ todo)
        = some (pre.length + 3 * n, done.length + 4 * n,
            done ++ symbolsOf A padding (l.take (3 * n)) ++ todo.drop (4 * n)) := by
  induction n with
  | zero =>
    intro pre l done todo _ _
    simp [encodeGroups, symbolsOf]
  | succ n ih =>
    intro pre l done todo hl ht
    match l, hl with
    | b0 :: b1 :: b2 :: l', hl =>
      match todo, ht with
      | t0 :: t1 :: t2 :: t3 :: todo', ht =>
        have hl' : 3 * n ≤ l'.length := by simp at hl; omega
        have ht' : 4 * n ≤ todo'.length := by simp at ht; omega
        have e0 : (pre ++ b0 :: b1 :: b2 :: l')[pre.length]? = some b0 :=
          getElem?_append_cons _ _ _ _ rfl
        have e1 : (pre ++ b0 :: b1 :: b2 :: l')[pre.length + 1]? = some b1 := by
          have := getElem?_append_cons (pre ++ [b0]) (b2 :: l') b1 (pre.length + 1) (by simp)
          simpa using this
        have e2 : (pre ++ b0 :: b1 :: b2 :: l')[pre.length + 2]? = some b2 := by
          have := getElem?_append_cons (pre ++ [b0, b1]) l' b2 (pre.length + 2) (by simp)
          simpa using this
        have hih := ih (pre ++ [b0, b1, b2]) l' (done ++ groupSymbols A b0 b1 b2) todo' hl' ht'
        have hpre : pre ++ [b0, b1, b2] ++ l' = pre ++ b0 :: b1 :: b2 :: l' := by simp
        rw [hpre] at hih
        unfold encodeGroups
        simp only [e0, e1, e2, Option.bind_eq_bind, Option.some_bind]
        generalize hc : (b0.val <<< 16) ||| (b1.val <<< 8) ||| b2.val = chunk at *
        have g0 := getElem?_getD A ((chunk >>> 18) &&& 63) 0 (by rw [and_63, hA]; omega)
        have g1 := getElem?_getD A ((chunk >>> 12) &&& 63) 0 (by rw [and_63, hA]; omega)
        have g2 := getElem?_getD A ((chunk >>> 6) &&& 63) 0 (by rw [and_63, hA]; omega)
        have g3 := getElem?_getD A (chunk &&& 63) 0 (by rw [and_63, hA]; omega)
        rw [g0, Option.some_bind, store_append done _ t0 _ _ rfl, Option.some_bind]
        rw [g1, Option.some_bind, store_append1, Option.some_bind]
        rw [g2, Option.some_bind, store_append2, Option.some_bind]
        rw [g3, Option.some_bind, store_append3, Option.some_bind]
        have hsym : groupSymbols A b0 b1 b2 = [A.getD ((chunk >>> 18) &&& 63) 0,
            A.getD ((chunk >>> 12) &&& 63) 0, A.getD ((chunk >>> 6) &&& 63) 0,
            A.getD (chunk &&& 63) 0] := by
          simp only [groupSymbols, hc]
        rw [hsym] at hih
        have htake : List.take (3 * (n + 1)) (b0 :: b1 :: b2 :: l')
            = b0 :: b1 :: b2 :: List.take (3 * n) l' := by
          rw [show 3 * (n + 1) = 3 * n + 1 + 1 + 1 by omega]
          rfl
        have hdrop : List.drop (4 * (n + 1)) (t0 :: t1 :: t2 :: t3 :: todo')
            = List.drop (4 * n) todo' := by
          rw [show 4 * (n + 1) = 4 * n + 1 + 1 + 1 + 1 by omega]
          rfl
        rw [htake, hdrop]
        simp only [symbolsOf, hsym, groupSymbols, hc]
        simp only [List.length_append, List.length_cons, List.length_nil, List.append_assoc,
          List.cons_append, List.nil_append] at hih ⊢
        rw [show done.length + 1 + 1 + 1 + 1 = done.length + (0 + 1 + 1 + 1 + 1) by omega,
          show pre.length + 3 = pre.length + (0 + 1 + 1 + 1) by omega, hih]
        rw [show pre.length + (0 + 1 + 1 + 1) + 3 * n = pre.length + 3 * (n + 1) by omega,
          show done.length + (0 + 1 + 1 + 1 + 1) + 4 * n = done.length + 4 * (n + 1) by omega]

theorem symbolsOf_length (A : List Nat) (p : Nat) :
    ∀ l : List Byte, (symbolsOf A p l).length = 4 * ((l.length + 2) / 3)
  | [] => by simp [symbolsOf]
  | [_] => by simp [symbolsOf]
  | [_, _] => by simp [symbolsOf]
  | _ :: _ :: _ :: rest => by
    simp only [symbolsOf, groupSymbols, List.length_append, List.length_cons, List.length_nil,
      symbolsOf_length A p rest]
    omega

theorem symbolsOf_append (A : List Nat) (p : Nat) (n : Nat) :
    ∀ l1 l2 : List Byte, l1.length = 3 * n →
      symbolsOf A p (l1 ++ l2) = symbolsOf A p l1 ++ symbolsOf A p l2 := by
  induction n with
  | zero =>
    intro l1 l2 h
    have : l1 = [] := List.length_eq_zero.mp (by omega)
    subst this
    simp [symbolsOf]
  | succ n ih =>
    intro l1 l2 h
    match l1, h with
    | b0 :: b1 :: b2 :: l1', h =>
      have h' : l1'.length = 3 * n := by simp at h; omega
      show symbolsOf A p (b0 :: b1 :: b2 :: (l1' ++ l2)) = _
      rw [symbolsOf, symbolsOf, ih l1' l2 h', List.append_assoc]

/-- The closed form of the symbols of `processEncoding`, for an alphabet of 64
runes: no index leaves its slice, and `encodedData` ends as `symbolsOf`. -/
theorem encodeSymbols_eq (sb : SecureBase) (input : List Byte)
    (hA : (stringToRunes sb.globalcharset).length = 64) :
    encodeSymbols sb input
      = some (symbolsOf (stringToRunes sb.globalcharset) sb.padding input) := by
  generalize hAe : stringToRunes sb.globalcharset = A at hA
  by_cases hempty : input.length = 0
  · have : input = [] := List.length_eq_zero.mp hempty
    subst this
    simp [encodeSymbols, symbolsOf]
  have hpos : input.length > 0 := by omega
  have hsplit : input = input.take (3 * (input.length / 3)) ++ input.drop (3 * (input.length / 3)) :=
    (List.take_append_drop _ _).symm
  have htl : (input.take (3 * (input.length / 3))).length = 3 * (input.length / 3) := by
    rw [List.length_take]; omega
  have hdl : (input.drop (3 * (input.length / 3))).length = input.length % 3 := by
    rw [List.length_drop]; omega
  have hdone : (symbolsOf A sb.padding (input.take (3 * (input.length / 3)))).length
      = 4 * (input.length / 3) := by
    rw [symbolsOf_length, htl]; omega
  have hsym := symbolsOf_append A sb.padding (input.length / 3) _
    (input.drop (3 * (input.length / 3))) htl
  rw [← hsplit] at hsym
  have hg := encodeGroups_spec A hA sb.padding (input.length / 3) [] input []
    (List.replicate (input.length / 3 * 4 + (if input.length % 3 = 0 then 0 else 4)) 0)
    (by omega) (by simp; omega)
  simp only [List.nil_append, List.length_nil, Nat.zero_add] at hg
  unfold encodeSymbols
  simp only [hAe, hpos, if_true, Option.bind_eq_bind, Option.pure_def, hg, Option.some_bind]
  generalize hdn : symbolsOf A sb.padding (input.take (3 * (input.length / 3))) = done
    at hdone hsym ⊢
  rw [hsym]
  have hget : ∀ k, input[3 * (input.length / 3) + k]?
      = (input.drop (3 * (input.length / 3)))[k]? := by
    intro k
    rw [List.getElem?_drop]
  generalize hrest : input.drop (3 * (input.length / 3)) = tl at hdl hget
  have hr3 : input.length % 3 < 3 := Nat.mod_lt _ (by decide)
  match tl, hdl with
  | [], hdl =>
    have h0 : input.length % 3 = 0 := by simpa using hdl.symm
    simp only [h0, if_true, symbolsOf, List.append_nil, Nat.add_zero, zero_ne_one, if_false,
      OfNat.zero_ne_ofNat]
    rw [List.drop_replicate, show input.length / 3 * 4 - 4 * (input.length / 3) = 0 by omega]
    simp
  | [b], hdl =>
    have h1 : input.length % 3 = 1 := by simpa using hdl.symm
    have hb := tail_index_bounds b b
    have e0 : input[3 * (input.length / 3)]? = some b := by simpa using hget 0
    have g0 := getElem?_getD A (b.val >>> 2) 0 (by rw [hA]; exact hb.1)
    have g1 := getElem?_getD A ((b.val &&& 3) <<< 4) 0 (by rw [hA]; exact hb.2.1)
    have hrep : List.drop (4 * (input.length / 3))
        (List.replicate (input.length / 3 * 4 + 4) (0 : Nat)) = [0, 0, 0, 0] := by
      rw [List.drop_replicate, show input.length / 3 * 4 + 4 - 4 * (input.length / 3) = 4 by omega]
      rfl
    simp only [h1, if_true, one_ne_zero, if_false, hrep, e0, Option.some_bind, g0, g1]
    rw [← hdone]
    simp only [store_append done _ _ _ _ rfl, store_append1, store_append2, store_append3,
      symbolsOf, Option.some_bind]
  | [b, c], hdl =>
    have h2 : input.length % 3 = 2 := by simpa using hdl.symm
    have hb := tail_index_bounds b c
    have e0 : input[3 * (input.length / 3)]? = some b := by simpa using hget 0
    have e1 : input[3 * (input.length / 3) + 1]? = some c := by simpa using hget 1
    have g0 := getElem?_getD A (b.val >>> 2) 0 (by rw [hA]; exact hb.1)
    have g1 := getElem?_getD A (((b.val &&& 3) <<< 4) ||| (c.val >>> 4)) 0
      (by rw [hA]; exact hb.2.2.1)
    have g2 := getElem?_getD A ((c.val &&& 15) <<< 2) 0 (by rw [hA]; exact hb.2.2.2)
    have hrep : List.drop (4 * (input.length / 3))
        (List.replicate (input.length / 3 * 4 + 4) (0 : Nat)) = [0, 0, 0, 0] := by
      rw [List.drop_replicate, show input.length / 3 * 4 + 4 - 4 * (input.length / 3) = 4 by omega]
      rfl
    simp only [h2, if_true, if_false, hrep, e0, e1, Option.some_bind, g0, g1, g2,
      OfNat.ofNat_ne_zero, OfNat.ofNat_ne_one]
    rw [← hdone]
    simp only [store_append done _ _ _ _ rfl, store_append1, store_append2, store_append3,
      symbolsOf, Option.some_bind]
  | _ :: _ :: _ :: _, hdl => simp at hdl; omega

end Encoding

/-! ## Decoding what was encoded -/

section Decoding

theorem chunk3_eq (a b c : Nat) (hb : b < 256) (hc : c < 256) :
    (a <<< 16) ||| (b <<< 8) ||| c = a * 65536 + b * 256 + c := by
  rw [Nat.shiftLeft_eq, Nat.shiftLeft_eq]
  rw [or_eq_add (a * 2 ^ 16) (b * 2 ^ 8) 16 (by omega) (by omega)]
  rw [or_eq_add (a * 2 ^ 16 + b * 2 ^ 8) c 8 (by omega) (by omega)]

theorem chunk4_eq (w x y z : Nat) (hx : x < 64) (hy : y < 64) (hz : z < 64) :
    (w <<< 18) ||| (x <<< 12) ||| (y <<< 6) ||| z = w * 262144 + x * 4096 + y * 64 + z := by
  rw [Nat.shiftLeft_eq, Nat.shiftLeft_eq, Nat.shiftLeft_eq]
  rw [or_eq_add (w * 2 ^ 18) (x * 2 ^ 12) 18 (by omega) (by omega)]
  rw [or_eq_add (w * 2 ^ 18 + x * 2 ^ 12) (y * 2 ^ 6) 12 (by omega)
    (by omega)]
  rw [or_eq_add (w * 2 ^ 18 + x * 2 ^ 12 + y * 2 ^ 6) z 6 (by omega)
    (by omega)]

/-- A full group: the three bytes come back from the four 6-bit values. -/
theorem group_roundtrip (b0 b1 b2 : Byte) :
    let chunk := (b0.val <<< 16) ||| (b1.val <<< 8) ||| b2.val
    let back := ((byte ((chunk >>> 18) &&& 63)).val <<< 18)
      ||| ((byte ((chunk >>> 12) &&& 63)).val <<< 12)
      ||| ((byte ((chunk >>> 6) &&& 63)).val <<< 6) ||| (byte (chunk &&& 63)).val
    byte ((back >>> 16) &&& 255) = b0 ∧ byte ((back >>> 8) &&& 255) = b1 ∧
      byte (back &&& 255) = b2 := by
  intro chunk back
  have h0 := b0.isLt
  have h1 := b1.isLt
  have h2 := b2.isLt
  have hc : chunk = b0.val * 65536 + b1.val * 256 + b2.val := chunk3_eq _ _ _ h1 h2
  have hv : ∀ x : Nat, (byte (x &&& 63)).val = x % 64 := by
    intro x
    rw [and_63, byte_val_of_lt _ (by omega)]
  have hb : back = (chunk >>> 18 % 64) * 262144 + (chunk >>> 12 % 64) * 4096
      + (chunk >>> 6 % 64) * 64 + chunk % 64 := by
    show ((byte ((chunk >>> 18) &&& 63)).val <<< 18)
      ||| ((byte ((chunk >>> 12) &&& 63)).val <<< 12)
      ||| ((byte ((chunk >>> 6) &&& 63)).val <<< 6) ||| (byte (chunk &&& 63)).val = _
    rw [hv, hv, hv, hv]
    exact chunk4_eq _ _ _ _ (Nat.mod_lt _ (by decide)) (Nat.mod_lt _ (by decide))
      (Nat.mod_lt _ (by decide))
  simp only [Nat.shiftRight_eq_div_pow] at hb
  norm_num at hb
  have hback : back = chunk := by omega
  refine ⟨?_, ?_, ?_⟩ <;> apply Fin.ext <;>
    simp only [byte, and_255, Nat.shiftRight_eq_div_pow, hback, hc] <;> norm_num <;> omega

/-- A last group of one byte: it comes back from the two 6-bit values. -/
theorem tail1_roundtrip (b0 : Byte) :
    byte (((((byte (b0.val >>> 2)).val <<< 18) ||| ((byte ((b0.val &&& 3) <<< 4)).val <<< 12)
      ||| ((0 : Byte).val <<< 6) ||| (0 : Byte).val) >>> 16) &&& 255) = b0 := by
  revert b0
  decide

/-- A last group of two bytes: they come back from the three 6-bit values. -/
theorem tail2_roundtrip (b0 b1 : Byte) :
    let back := ((byte (b0.val >>> 2)).val <<< 18)
      ||| ((byte (((b0.val &&& 3) <<< 4) ||| (b1.val >>> 4))).val <<< 12)
      ||| ((byte ((b1.val &&& 15) <<< 2)).val <<< 6) ||| (0 : Byte).val
    byte ((back >>> 16) &&& 255) = b0 ∧ byte ((back >>> 8) &&& 255) = b1 := by
  intro back
  have h0 := b0.isLt
  have h1 := b1.isLt
  have hv0 : (byte (b0.val >>> 2)).val = b0.val / 4 := by
    rw [Nat.shiftRight_eq_div_pow, byte_val_of_lt _ (by omega)]
  have hv1 : (byte (((b0.val &&& 3) <<< 4) ||| (b1.val >>> 4))).val
      = (b0.val % 4) * 16 + b1.val / 16 := by
    rw [and_3, Nat.shiftLeft_eq, Nat.shiftRight_eq_div_pow,
      or_eq_add _ _ 4 (by omega) (by omega), byte_val_of_lt _ (by omega)]
  have hv2 : (byte ((b1.val &&& 15) <<< 2)).val = (b1.val % 16) * 4 := by
    rw [and_15, Nat.shiftLeft_eq, byte_val_of_lt _ (by omega)]
  have hz : (0 : Byte).val = 0 := rfl
  have hb : back = (b0.val / 4) * 262144 + ((b0.val % 4) * 16 + b1.val / 16) * 4096
      + ((b1.val % 16) * 4) * 64 + 0 := by
    show ((byte (b0.val >>> 2)).val <<< 18)
      ||| ((byte (((b0.val &&& 3) <<< 4) ||| (b1.val >>> 4))).val <<< 12)
      ||| ((byte ((b1.val &&& 15) <<< 2)).val <<< 6) ||| (0 : Byte).val = _
    rw [hv0, hv1, hv2, hz]
    exact chunk4_eq _ _ _ _ (by omega) (by omega) (by omega)
  have e16 : back / 65536 % 256 = b0.val := by omega
  have e8 : back / 256 % 256 = b1.val := by omega
  refine ⟨?_, ?_⟩
  · apply Fin.ext
    simp only [byte, and_255, Nat.shiftRight_eq_div_pow]
    norm_num
    exact e16
  · apply Fin.ext
    simp only [byte, and_255, Nat.shiftRight_eq_div_pow]
    norm_num
    exact e8


/-- The map `base64Values` of `processDecoding`, built from an alphabet of at
least `n` distinct runes: position `i` is the value of rune `A[i]`, and a rune
that is not among the first `n` reads as 0. -/
theorem base64Values_spec (A : List Nat) (hnd : A.Nodup) (n : Nat) (hn : n ≤ A.length) :
    ∃ m : Nat → Byte,
      (List.range n).foldlM (fun (m : Nat → Byte) i => do
        let key ← A[i]?
        pure (fun r => if r = key then byte i else m r)) (fun _ => (0 : Byte)) = some m ∧
      (∀ i, i < n → m (A.getD i 0) = byte i) ∧ (∀ r, r ∉ A.take n → m r = 0) := by
  induction n with
  | zero => exact ⟨fun _ => 0, rfl, fun i hi => by omega, fun _ _ => rfl⟩
  | succ n ih =>
    obtain ⟨m, hm, h1, h2⟩ := ih (by omega)
    have hn' : n < A.length := by omega
    refine ⟨fun r => if r = A[n] then byte n else m r, ?_, ?_, ?_⟩
    · rw [List.range_succ, List.foldlM_append, hm]
      simp [List.getElem?_eq_getElem hn']
    · intro i hi
      have hil : i < A.length := by omega
      have hgi : A.getD i 0 = A[i] := by
        simp [List.getD_eq_getElem?_getD, List.getElem?_eq_getElem hil]
      by_cases hin : i = n
      · subst hin
        simp only [hgi, if_true]
      · have hne : A[i] ≠ A[n] := by
          intro h
          exact hin ((hnd.getElem_inj_iff).mp h)
        simp only [hgi, hne, if_false]
        rw [← hgi]
        exact h1 i (by omega)
    · intro r hr
      have hr1 : r ≠ A[n] := by
        intro h
        apply hr
        rw [h, List.mem_iff_getElem]
        exact ⟨n, by simp [hn'], by simp⟩
      have hr2 : r ∉ A.take n := by
        intro h
        apply hr
        rw [List.mem_iff_getElem] at h ⊢
        obtain ⟨k, hk, hke⟩ := h
        simp only [List.length_take] at hk
        refine ⟨k, by simp only [List.length_take]; omega, ?_⟩
        simp only [List.getElem_take] at hke ⊢
        exact hke
      simp only [hr1, if_false]
      exact h2 r hr2

theorem getElem?_append_at {α : Type} (xs ys : List α) (k : Nat) :
    (xs ++ ys)[xs.length + k]? = ys[k]? := by
  rw [List.getElem?_append_right (by omega)]
  congr 1
  omega

/-- The loop of `processDecoding` on the symbols of `input`: it fills the
remaining `len(input)` bytes of `decodedData` with `input`. -/
theorem decodeLoop_spec (A : List Nat) (p : Nat) (m : Nat → Byte)
    (hm : ∀ i, i < 64 → m (A.getD i 0) = byte i) (hp : m p = 0) :
    ∀ (input : List Byte) (preR : List Nat) (done todo : List Byte),
      todo.length = input.length →
      decodeLoop m (preR ++ symbolsOf A p input) (done.length + input.length)
        ((input.length + 2) / 3) preR.length done.length (done ++ todo) = some (done ++ input)
  | [], preR, done, todo, ht => by
    have : todo = [] := List.length_eq_zero.mp ht
    subst this
    simp [decodeLoop]
  | [b0], preR, done, todo, ht => by
    match todo, ht with
    | [t0], _ =>
      have hb := tail_index_bounds b0 b0
      have r0 : (preR ++ symbolsOf A p [b0])[preR.length]? = some (A.getD (b0.val >>> 2) 0) :=
        getElem?_append_at preR _ 0
      have r1 : (preR ++ symbolsOf A p [b0])[preR.length + 1]?
          = some (A.getD ((b0.val &&& 3) <<< 4) 0) := getElem?_append_at preR _ 1
      have r2 : (preR ++ symbolsOf A p [b0])[preR.length + 2]? = some p :=
        getElem?_append_at preR _ 2
      have r3 : (preR ++ symbolsOf A p [b0])[preR.length + 3]? = some p :=
        getElem?_append_at preR _ 3
      have hn : ([b0].length + 2) / 3 = 0 + 1 := by simp
      rw [hn, decodeLoop]
      simp only [r0, r1, r2, r3, Option.bind_eq_bind, Option.some_bind, hm _ hb.1, hm _ hb.2.1,
        hp, tail1_roundtrip b0, store_append done [] t0 _ _ rfl, List.length_singleton,
        lt_irrefl, if_false, Option.pure_def, decodeLoop]
  | [b0, b1], preR, done, todo, ht => by
    match todo, ht with
    | [t0, t1], _ =>
      have hb := tail_index_bounds b0 b1
      have r0 : (preR ++ symbolsOf A p [b0, b1])[preR.length]?
          = some (A.getD (b0.val >>> 2) 0) := getElem?_append_at preR _ 0
      have r1 : (preR ++ symbolsOf A p [b0, b1])[preR.length + 1]?
          = some (A.getD (((b0.val &&& 3) <<< 4) ||| (b1.val >>> 4)) 0) :=
        getElem?_append_at preR _ 1
      have r2 : (preR ++ symbolsOf A p [b0, b1])[preR.length + 2]?
          = some (A.getD ((b1.val &&& 15) <<< 2) 0) := getElem?_append_at preR _ 2
      have r3 : (preR ++ symbolsOf A p [b0, b1])[preR.length + 3]? = some p :=
        getElem?_append_at preR _ 3
      have hrt := tail2_roundtrip b0 b1
      simp only at hrt
      have hn : ([b0, b1].length + 2) / 3 = 0 + 1 := by simp
      rw [hn, decodeLoop]
      simp only [r0, r1, r2, r3, Option.bind_eq_bind, Option.some_bind, hm _ hb.1,
        hm _ hb.2.2.1, hm _ hb.2.2.2, hp, hrt.1, hrt.2, store_append done _ t0 _ _ rfl,
        store_append1, List.length_cons, List.length_nil, Option.pure_def, decodeLoop]
      simp
  | b0 :: b1 :: b2 :: rest, preR, done, todo, ht => by
    match todo, ht with
    | t0 :: t1 :: t2 :: todo', ht =>
      have ht' : todo'.length = rest.length := by simpa using ht
      have hsym : symbolsOf A p (b0 :: b1 :: b2 :: rest)
          = groupSymbols A b0 b1 b2 ++ symbolsOf A p rest := by rw [symbolsOf]
      have ih := decodeLoop_spec A p m hm hp rest (preR ++ groupSymbols A b0 b1 b2)
        (done ++ [b0, b1, b2]) todo' ht'
      have hrt := group_roundtrip b0 b1 b2
      simp only at hrt
      rw [hsym]
      generalize hc : (b0.val <<< 16) ||| (b1.val <<< 8) ||| b2.val = chunk at hrt
      have hgs : groupSymbols A b0 b1 b2 = [A.getD ((chunk >>> 18) &&& 63) 0,
          A.getD ((chunk >>> 12) &&& 63) 0, A.getD ((chunk >>> 6) &&& 63) 0,
          A.getD (chunk &&& 63) 0] := by
        simp only [groupSymbols, hc]
      rw [hgs] at ih ⊢
      have r0 := getElem?_append_at preR ([A.getD ((chunk >>> 18) &&& 63) 0,
          A.getD ((chunk >>> 12) &&& 63) 0, A.getD ((chunk >>> 6) &&& 63) 0,
          A.getD (chunk &&& 63) 0] ++ symbolsOf A p rest) 0
      have r1 := getElem?_append_at preR ([A.getD ((chunk >>> 18) &&& 63) 0,
          A.getD ((chunk >>> 12) &&& 63) 0, A.getD ((chunk >>> 6) &&& 63) 0,
          A.getD (chunk &&& 63) 0] ++ symbolsOf A p rest) 1
      have r2 := getElem?_append_at preR ([A.getD ((chunk >>> 18) &&& 63) 0,
          A.getD ((chunk >>> 12) &&& 63) 0, A.getD ((chunk >>> 6) &&& 63) 0,
          A.getD (chunk &&& 63) 0] ++ symbolsOf A p rest) 2
      have r3 := getElem?_append_at preR ([A.getD ((chunk >>> 18) &&& 63) 0,
          A.getD ((chunk >>> 12) &&& 63) 0, A.getD ((chunk >>> 6) &&& 63) 0,
          A.getD (chunk &&& 63) 0] ++ symbolsOf A p rest) 3
      simp only [List.cons_append, List.nil_append, List.getElem?_cons_zero,
        List.getElem?_cons_succ, Nat.add_zero] at r0 r1 r2 r3
      have hm0 := hm ((chunk >>> 18) &&& 63) (by rw [and_63]; omega)
      have hm1 := hm ((chunk >>> 12) &&& 63) (by rw [and_63]; omega)
      have hm2 := hm ((chunk >>> 6) &&& 63) (by rw [and_63]; omega)
      have hm3 := hm (chunk &&& 63) (by rw [and_63]; omega)
      have hn : ((b0 :: b1 :: b2 :: rest).length + 2) / 3 = (rest.length + 2) / 3 + 1 := by
        simp only [List.length_cons]; omega
      have hlt1 : done.length + 1 < done.length + (b0 :: b1 :: b2 :: rest).length := by
        simp only [List.length_cons]; omega
      have hlt2 : done.length + 1 + 1 < done.length + (b0 :: b1 :: b2 :: rest).length := by
        simp only [List.length_cons]; omega
      rw [hn, decodeLoop]
      simp only [r0, r1, r2, r3, Option.bind_eq_bind, Option.some_bind, hm0, hm1, hm2, hm3,
        hrt.1, hrt.2.1, hrt.2.2, store_append done _ t0 _ _ rfl, store_append1, store_append2,
        hlt1, hlt2, if_true, Option.pure_def, List.cons_append, List.nil_append]
      simp only [List.length_append, List.length_cons, List.length_nil, List.append_assoc,
        List.cons_append, List.nil_append] at ih ⊢
      rw [show preR.length + 4 = preR.length + (0 + 1 + 1 + 1 + 1) by omega,
        show done.length + 1 + 1 + 1 = done.length + (0 + 1 + 1 + 1) by omega,
        show done.length + (rest.length + 1 + 1 + 1)
          = done.length + (0 + 1 + 1 + 1) + rest.length by omega]
      exact ih

/-- The last four symbols of a non-empty encoding, by the length of the input
modulo 3: which of them are alphabet symbols and which are padding. -/
theorem symbolsOf_last_group (A : List Nat) (p : Nat) :
    ∀ input : List Byte, input ≠ [] →
      ∃ F s0 s1 s2 s3, symbolsOf A p input = F ++ [s0, s1, s2, s3] ∧
        (input.length % 3 = 0 → (∃ i, i < 64 ∧ s2 = A.getD i 0) ∧ ∃ i, i < 64 ∧ s3 = A.getD i 0) ∧
        (input.length % 3 = 1 → (∃ i, i < 64 ∧ s1 = A.getD i 0) ∧ s2 = p ∧ s3 = p) ∧
        (input.length % 3 = 2 → (∃ i, i < 64 ∧ s2 = A.getD i 0) ∧ s3 = p)
  | [], h => absurd rfl h
  | [b0], _ =>
    ⟨[], _, _, _, _, rfl, by simp, fun _ => ⟨⟨_, (tail_index_bounds b0 b0).2.1, rfl⟩, rfl, rfl⟩,
      by simp⟩
  | [b0, b1], _ =>
    ⟨[], _, _, _, _, rfl, by simp, by simp,
      fun _ => ⟨⟨_, (tail_index_bounds b0 b1).2.2.2, rfl⟩, rfl⟩⟩
  | [b0, b1, b2], _ => by
    refine ⟨[], _, _, _, _, rfl, fun _ => ⟨⟨_, ?_, rfl⟩, ⟨_, ?_, rfl⟩⟩, by simp, by simp⟩
    · rw [and_63]; omega
    · rw [and_63]; omega
  | b0 :: b1 :: b2 :: b3 :: rest, _ => by
    obtain ⟨F, s0, s1, s2, s3, hs, h0, h1, h2⟩ :=
      symbolsOf_last_group A p (b3 :: rest) (List.cons_ne_nil _ _)
    have hlen : (b0 :: b1 :: b2 :: b3 :: rest).length % 3 = (b3 :: rest).length % 3 := by
      simp only [List.length_cons]; omega
    refine ⟨groupSymbols A b0 b1 b2 ++ F, s0, s1, s2, s3, ?_, ?_, ?_, ?_⟩
    · rw [symbolsOf, hs, List.append_assoc]
    · rw [hlen]; exact h0
    · rw [hlen]; exact h1
    · rw [hlen]; exact h2

theorem getD_ascii (A : List Nat) (hA : ∀ r ∈ A, r < 0x80) (i : Nat) : A.getD i 0 < 0x80 := by
  rw [List.getD_eq_getElem?_getD]
  cases h : A[i]? with
  | none => simp
  | some v =>
    simp only [Option.getD_some]
    exact hA v (List.getElem?_mem h)

/-- The symbols of an encoding are ASCII when the alphabet and the padding are. -/
theorem symbolsOf_ascii (A : List Nat) (p : Nat) (hA : ∀ r ∈ A, r < 0x80) (hp : p < 0x80) :
    ∀ input : List Byte, ∀ r ∈ symbolsOf A p input, r < 0x80
  | [], r, hr => by simp [symbolsOf] at hr
  | [b0], r, hr => by
    simp only [symbolsOf, List.mem_cons, List.mem_singleton, List.not_mem_nil, or_false] at hr
    rcases hr with h | h | h | h <;> subst h <;> first | exact getD_ascii A hA _ | exact hp
  | [b0, b1], r, hr => by
    simp only [symbolsOf, List.mem_cons, List.mem_singleton, List.not_mem_nil, or_false] at hr
    rcases hr with h | h | h | h <;> subst h <;> first | exact getD_ascii A hA _ | exact hp
  | b0 :: b1 :: b2 :: rest, r, hr => by
    rw [symbolsOf, List.mem_append] at hr
    rcases hr with h | h
    · simp only [groupSymbols, List.mem_cons, List.mem_singleton, List.not_mem_nil,
        or_false] at h
      rcases h with h | h | h | h <;> subst h <;> exact getD_ascii A hA _
    · exact symbolsOf_ascii A p hA hp rest r h

/-- The runes of the alphabet of a well formed codec: the 64 byte values, all
distinct, all ASCII, none equal to the padding. -/
theorem wellFormed_runes (sb : SecureBase) (hw : WellFormed sb) :
    stringToRunes sb.globalcharset = sb.globalcharset.map (fun b => b.val) ∧
      (stringToRunes sb.globalcharset).length = 64 ∧
      (stringToRunes sb.globalcharset).Nodup ∧
      (∀ r ∈ stringToRunes sb.globalcharset, r < 0x80) ∧
      sb.padding ∉ stringToRunes sb.globalcharset := by
  have h := stringToRunes_ascii sb.globalcharset hw.ascii
  rw [h]
  refine ⟨rfl, by simp [hw.length], hw.nodup.map Fin.val_injective, ?_, ?_⟩
  · intro r hr
    obtain ⟨b, hb, rfl⟩ := List.mem_map.mp hr
    exact hw.ascii b hb
  · intro hp
    obtain ⟨b, hb, hbp⟩ := List.mem_map.mp hp
    exact hw.padFresh b hb hbp

theorem getD_mem_of_lt (A : List Nat) (i : Nat) (h : i < A.length) : A.getD i 0 ∈ A := by
  rw [List.getD_eq_getElem?_getD, List.getElem?_eq_getElem h]
  exact List.getElem_mem h

/-- The heart of the round trip: `processDecoding` applied to the text of the
symbols of `input` rebuilds `input`, for every well formed codec. -/
theorem decodeBody_encoded (sb : SecureBase) (hw : WellFormed sb) (input : List Byte) :
    decodeBody sb (runesToString (symbolsOf (stringToRunes sb.globalcharset) sb.padding input))
      = some input := by
  obtain ⟨-, hAlen, hAnd, hAascii, hpA⟩ := wellFormed_runes sb hw
  generalize hA : stringToRunes sb.globalcharset = A at hAlen hAnd hAascii hpA
  by_cases hin : input = []
  · subst hin
    simp [decodeBody, symbolsOf, runesToString]
  have hSascii := symbolsOf_ascii A sb.padding hAascii hw.padAscii input
  have hrunes := stringToRunes_runesToString_ascii _ hSascii
  have hT := runesToString_ascii _ hSascii
  obtain ⟨F, s0, s1, s2, s3, hS, h0, h1, h2⟩ := symbolsOf_last_group A sb.padding input hin
  have hSlen := symbolsOf_length A sb.padding input
  obtain ⟨m, hm, hm1, hm2⟩ := base64Values_spec A hAnd 64 (by omega)
  have hmp : m sb.padding = 0 := hm2 _ (fun h => hpA (List.mem_of_mem_take h))
  have hloop := decodeLoop_spec A sb.padding m hm1 hmp input [] []
    (List.replicate input.length 0) (by simp)
  simp only [List.nil_append, List.length_nil, Nat.zero_add] at hloop
  have hnpos : 0 < input.length := List.length_pos.mpr hin
  have hne : ∀ i, i < 64 → A.getD i 0 ≠ sb.padding := by
    intro i hi h
    exact hpA (h ▸ getD_mem_of_lt A i (by omega))
  have hs2 : s2 < 0x80 := hSascii s2 (by rw [hS]; simp)
  have hs3 : s3 < 0x80 := hSascii s3 (by rw [hS]; simp)
  generalize hSe : symbolsOf A sb.padding input = S at hS hSlen hrunes hT hloop
  generalize hTe : runesToString S = T at hrunes hT
  have hTlen : T.length = F.length + 4 := by rw [hT, hS]; simp
  have hFlen : F.length + 4 = 4 * ((input.length + 2) / 3) := by
    rw [← hSlen, hS]; simp
  have hl1 : T[T.length - 1]? = some (byte s3) := by
    rw [hTlen, hT, hS, List.map_append, show F.length + 4 - 1 = (F.map byte).length + 3 by simp,
      getElem?_append_at]
    rfl
  have hl2 : T[T.length - 2]? = some (byte s2) := by
    rw [hTlen, hT, hS, List.map_append, show F.length + 4 - 2 = (F.map byte).length + 2 by simp,
      getElem?_append_at]
    rfl
  have hv2 : (byte s2).val = s2 := byte_val_of_lt _ (by omega)
  have hv3 : (byte s3).val = s3 := byte_val_of_lt _ (by omega)
  have hTpos : T.length > 0 := by omega
  have hT1 : T.length > 1 := by omega
  have htrips : (T.length + 3) / 4 = (input.length + 2) / 3 := by omega
  unfold decodeBody
  simp only [hA, hTpos, hT1, if_true, Option.bind_eq_bind, Option.pure_def] at hm ⊢
  rw [hm]
  simp only [Option.some_bind, hl1, hl2, hv2, hv3, hrunes, htrips]
  have hr3 : input.length % 3 < 3 := Nat.mod_lt _ (by decide)
  have hcases : input.length % 3 = 0 ∨ input.length % 3 = 1 ∨ input.length % 3 = 2 := by omega
  rcases hcases with hc | hc | hc
  · obtain ⟨⟨i, hi, hi2⟩, ⟨j, hj, hj3⟩⟩ := h0 hc
    have e2 : s2 ≠ sb.padding := by rw [hi2]; exact hne i hi
    have e3 : s3 ≠ sb.padding := by rw [hj3]; exact hne j hj
    simp only [e2, e3, if_false, Option.some_bind]
    have hdl : ((T.length * 3 / 4 : Nat) : Int) - ((0 : Nat) : Int) = (input.length : Int) := by
      omega
    rw [hdl]
    simp only [Int.toNat_ofNat]
    rw [if_neg (by omega)]
    exact hloop
  · obtain ⟨-, e2, e3⟩ := h1 hc
    simp only [e2, e3, if_true, Option.some_bind]
    have hdl : ((T.length * 3 / 4 : Nat) : Int) - ((0 + 1 + 1 : Nat) : Int)
        = (input.length : Int) := by
      omega
    rw [hdl]
    simp only [Int.toNat_ofNat]
    rw [if_neg (by omega)]
    exact hloop
  · obtain ⟨⟨i, hi, hi2⟩, e3⟩ := h2 hc
    have e2 : s2 ≠ sb.padding := by rw [hi2]; exact hne i hi
    simp only [e2, e3, if_true, if_false, Option.some_bind]
    have hdl : ((T.length * 3 / 4 : Nat) : Int) - ((0 + 1 : Nat) : Int)
        = (input.length : Int) := by
      omega
    rw [hdl]
    simp only [Int.toNat_ofNat]
    rw [if_neg (by omega)]
    exact hloop

end Decoding

/-! ## The codec contracts -/

section Codec

/-- On a well formed codec `processEncoding` never takes its recover branch;
in narrow mode its result is the text of the symbols. -/
theorem processEncoding_narrow (sb : SecureBase) (hw : WellFormed sb)
    (hmode : sb.gencoding = SBEncoding.UTF8) (input : List Byte) :
    processEncoding sb input
      = (runesToString (symbolsOf (stringToRunes sb.globalcharset) sb.padding input), none) := by
  unfold processEncoding
  rw [encodeSymbols_eq sb input (wellFormed_runes sb hw).2.1]
  simp [hmode]

theorem processDecoding_encoded (sb : SecureBase) (hw : WellFormed sb) (input : List Byte) :
    processDecoding sb
        (runesToString (symbolsOf (stringToRunes sb.globalcharset) sb.padding input))
      = (input, none) := by
  unfold processDecoding
  rw [decodeBody_encoded sb hw input]

/-- The narrow round trip on any well formed codec. -/
theorem wf_narrow_round_trip (sb : SecureBase) (hw : WellFormed sb)
    (hmode : sb.gencoding = SBEncoding.UTF8) (b : List Byte) :
    (processEncoding sb b).2 = none ∧
      processDecoding sb (processEncoding sb b).1 = (b, none) ∧
      (Encode sb b).2 = none ∧ Decode sb (Encode sb b).1 = (b, none) := by
  have he := processEncoding_narrow sb hw hmode b
  have hd := processDecoding_encoded sb hw b
  refine ⟨by rw [he], by rw [he]; exact hd, ?_, ?_⟩
  · simp [Encode, hmode, he]
  · simp [Encode, Decode, hmode, he, hd]

/-- C1.  Narrow-mode round trip.  For every secret key, empty or not, the
constructor with mode UTF8 returns a codec (it does not panic), and on that
codec, for every byte sequence `b`: `processEncoding` returns no error,
`processDecoding` of its text returns `b` and no error, and `Decode` of
`Encode` returns `b` and no error.  The same holds on `NewSecureBase(UTF8)`. -/
theorem narrow_round_trip (secretkey b : List Byte) :
    (∃ sb, NewSecureBaseWithKey SBEncoding.UTF8 secretkey = some sb ∧
      (processEncoding sb b).2 = none ∧
      processDecoding sb (processEncoding sb b).1 = (b, none) ∧
      (Encode sb b).2 = none ∧ Decode sb (Encode sb b).1 = (b, none)) ∧
    ((processEncoding (NewSecureBase SBEncoding.UTF8) b).2 = none ∧
      processDecoding (NewSecureBase SBEncoding.UTF8)
        (processEncoding (NewSecureBase SBEncoding.UTF8) b).1 = (b, none) ∧
      (Encode (NewSecureBase SBEncoding.UTF8) b).2 = none ∧
      Decode (NewSecureBase SBEncoding.UTF8) (Encode (NewSecureBase SBEncoding.UTF8) b).1
        = (b, none)) := by
  obtain ⟨sb, hsb, hw, hmode⟩ := SetSecretKey_wellFormed
    { globalcharset := [], padding := 0, gencoding := SBEncoding.UTF8 } secretkey
  exact ⟨⟨sb, hsb, wf_narrow_round_trip sb hw hmode b⟩,
    wf_narrow_round_trip _ (NewSecureBase_wellFormed _) rfl b⟩

/-- C3.  After `SetSecretKey` with a non-empty key (on any codec), and more
generally for every sequence of derived key values, which are non-negative and
below `2^31 - 1`, fed to `fnSuffleCharset` on `defcharset`: nothing panics, and
the alphabet, the first 64 characters of the shuffled string, has exactly 64
symbols, pairwise distinct, as bytes and as runes.  The last part states that
the derivation `fnCharacterSetSecretKey` yields only values of that range. -/
theorem alphabet_64_distinct (sb : SecureBase) (secretkey : List Byte) (keys : List Int)
    (hkey : secretkey ≠ []) (hkeys : ∀ k ∈ keys, 0 ≤ k ∧ k < 2147483647) :
    (∃ sb', SetSecretKey sb secretkey = some sb' ∧
      sb'.globalcharset.length = 64 ∧ sb'.globalcharset.Nodup ∧
      (stringToRunes sb'.globalcharset).length = 64 ∧
      (stringToRunes sb'.globalcharset).Nodup) ∧
    (∃ s, fnSuffleCharset defcharset keys = some s ∧ s.Perm defcharset ∧
      (s.take 64).length = 64 ∧ (s.take 64).Nodup ∧
      (stringToRunes (s.take 64)).length = 64 ∧ (stringToRunes (s.take 64)).Nodup) ∧
    (∀ anahtar : List Byte, ∃ derived, fnCharacterSetSecretKey anahtar = some derived ∧
      ∀ k ∈ derived, 0 ≤ k ∧ k < 2147483647) := by
  refine ⟨?_, ?_, fun anahtar => ?_⟩
  · obtain ⟨s, hperm, hs⟩ := SetSecretKey_shuffled sb secretkey hkey
    have hw := wellFormed_shuffled s hperm sb.gencoding
    have hr := wellFormed_runes _ hw
    exact ⟨_, hs, hw.length, hw.nodup, hr.2.1, hr.2.2.1⟩
  · obtain ⟨s, hs, hperm⟩ := fnSuffleCharset_perm defcharset keys defcharset_ascii
      (by rw [defcharset_length]; decide) hkeys
    have hw := wellFormed_shuffled s hperm SBEncoding.UTF8
    have hr := wellFormed_runes _ hw
    exact ⟨s, hs, hperm, hw.length, hw.nodup, hr.2.1, hr.2.2.1⟩
  · obtain ⟨derived, hd, -, hb⟩ := fnCharacterSetSecretKey_total anahtar
    exact ⟨derived, hd, hb⟩

/-- The witness of C3: the key "key" and the key values 107, 101, 0. -/
theorem alphabet_64_distinct_witness :
    (∃ sb', SetSecretKey (NewSecureBase SBEncoding.UTF8) (lit "key") = some sb' ∧
      sb'.globalcharset.length = 64 ∧ sb'.globalcharset.Nodup ∧
      (stringToRunes sb'.globalcharset).length = 64 ∧
      (stringToRunes sb'.globalcharset).Nodup) ∧
    (∃ s, fnSuffleCharset defcharset [107, 101, 0] = some s ∧ s.Perm defcharset ∧
      (s.take 64).length = 64 ∧ (s.take 64).Nodup ∧
      (stringToRunes (s.take 64)).length = 64 ∧ (stringToRunes (s.take 64)).Nodup) ∧
    (∀ anahtar : List Byte, ∃ derived, fnCharacterSetSecretKey anahtar = some derived ∧
      ∀ k ∈ derived, 0 ≤ k ∧ k < 2147483647) :=
  alphabet_64_distinct (NewSecureBase SBEncoding.UTF8) (lit "key") [107, 101, 0]
    (by decide) (by decide)

section Padding

theorem utf16Encode_ascii (rs : List Nat) (h : ∀ r ∈ rs, r < 0x80) : utf16Encode rs = rs := by
  induction rs with
  | nil => rfl
  | cons r rs ih =>
    have h0 : r < 0x80 := h r (List.mem_cons_self _ _)
    have h1 : r < surr1 ∨ (surr3 ≤ r ∧ r < surrSelf) := Or.inl (by unfold surr1; omega)
    rw [utf16Encode, if_pos h1, ih (fun x hx => h x (List.mem_cons_of_mem _ hx)),
      Nat.mod_eq_of_lt (by omega)]

/-- The wide representation of ASCII symbols: each symbol followed by a zero byte. -/
theorem stringToUTF16LE_ascii (rs : List Nat) (h : ∀ r ∈ rs, r < 0x80) :
    stringToUTF16LE (runesToString rs) = rs.flatMap (fun r => [byte r, 0]) := by
  unfold stringToUTF16LE
  rw [stringToRunes_runesToString_ascii rs h, utf16Encode_ascii rs h]
  induction rs with
  | nil => rfl
  | cons r rs ih =>
    have h0 : r < 0x80 := h r (List.mem_cons_self _ _)
    have hz : byte (r >>> 8) = 0 := by
      apply Fin.ext
      rw [Nat.shiftRight_eq_div_pow]
      simp only [byte]
      have : r / 2 ^ 8 = 0 := by omega
      rw [this]
      rfl
    rw [List.flatMap_cons, List.flatMap_cons, hz, ih (fun x hx => h x (List.mem_cons_of_mem _ hx))]

theorem processEncoding_wf (sb : SecureBase) (hw : WellFormed sb) (input : List Byte) :
    encodeSymbols sb input
        = some (symbolsOf (stringToRunes sb.globalcharset) sb.padding input) ∧
      processEncoding sb input =
        (if sb.gencoding = SBEncoding.UNICODE then
          (symbolsOf (stringToRunes sb.globalcharset) sb.padding input).flatMap
            (fun r => [byte r, 0])
         else (symbolsOf (stringToRunes sb.globalcharset) sb.padding input).map byte, none) := by
  have hr := wellFormed_runes sb hw
  have he := encodeSymbols_eq sb input hr.2.1
  have hascii := symbolsOf_ascii _ sb.padding hr.2.2.2.1 hw.padAscii input
  refine ⟨he, ?_⟩
  unfold processEncoding
  rw [he]
  by_cases hm : sb.gencoding = SBEncoding.UNICODE
  · simp only [hm, if_true, stringToUTF16LE_ascii _ hascii]
  · simp only [hm, if_false, runesToString_ascii _ hascii]

/-- The number of trailing padding symbols of an encoding, by the input length. -/
theorem trailingPadding_symbolsOf (A : List Nat) (p : Nat) (hA : A.length = 64) (hp : p ∉ A)
    (input : List Byte) :
    trailingPadding p (symbolsOf A p input)
      = if input.length % 3 = 0 then 0 else if input.length % 3 = 1 then 2 else 1 := by
  by_cases hin : input = []
  · subst hin
    simp [trailingPadding, symbolsOf]
  obtain ⟨F, s0, s1, s2, s3, hS, h0, h1, h2⟩ := symbolsOf_last_group A p input hin
  have hne : ∀ i, i < 64 → A.getD i 0 ≠ p := by
    intro i hi h
    exact hp (h ▸ getD_mem_of_lt A i (by omega))
  have hcases : input.length % 3 = 0 ∨ input.length % 3 = 1 ∨ input.length % 3 = 2 := by omega
  rw [hS]
  unfold trailingPadding
  simp only [List.reverse_append, List.reverse_cons, List.reverse_nil, List.nil_append,
    List.cons_append, List.singleton_append]
  rcases hcases with hc | hc | hc
  · obtain ⟨-, ⟨j, hj, hj3⟩⟩ := h0 hc
    have e3 : s3 ≠ p := by rw [hj3]; exact hne j hj
    simp [hc, List.takeWhile_cons, e3]
  · obtain ⟨⟨i, hi, hi1⟩, e2, e3⟩ := h1 hc
    have e1 : s1 ≠ p := by rw [hi1]; exact hne i hi
    simp [hc, List.takeWhile_cons, e1, e2, e3]
  · obtain ⟨⟨i, hi, hi2⟩, e3⟩ := h2 hc
    have e2 : s2 ≠ p := by rw [hi2]; exact hne i hi
    simp [hc, List.takeWhile_cons, e2, e3]

/-- C4.  Padding correctness.  The constructor without a key returns the codec
of the constructor with the empty key.  For every mode, every key and every
input of `n` bytes, the constructor returns a codec on which `processEncoding` does not
fail and writes the symbol sequence `symbols`: one byte a symbol in narrow mode,
the symbol and a zero byte in wide mode.  The sequence has `4 * ceil(n/3)`
symbols, a multiple of 4, and ends in exactly 0, 2 or 1 padding symbols when
`n mod 3` is 0, 1 or 2. -/
theorem padding_correct (enc : SBEncoding) (secretkey input : List Byte) :
    NewSecureBaseWithKey enc [] = some (NewSecureBase enc) ∧
    ∃ sb symbols, NewSecureBaseWithKey enc secretkey = some sb ∧
      encodeSymbols sb input = some symbols ∧
      processEncoding sb input =
        (if enc = SBEncoding.UNICODE then symbols.flatMap (fun r => [byte r, 0])
         else symbols.map byte, none) ∧
      symbols.length = 4 * ((input.length + 2) / 3) ∧
      symbols.length % 4 = 0 ∧
      trailingPadding sb.padding symbols
        = (if input.length % 3 = 0 then 0 else if input.length % 3 = 1 then 2 else 1) := by
  obtain ⟨sb, hsb, hw, hmode⟩ := SetSecretKey_wellFormed
    { globalcharset := [], padding := 0, gencoding := enc } secretkey
  have hr := wellFormed_runes sb hw
  obtain ⟨he, hp⟩ := processEncoding_wf sb hw input
  have hlen := symbolsOf_length (stringToRunes sb.globalcharset) sb.padding input
  simp only at hmode
  rw [hmode] at hp
  exact ⟨NewSecureBaseWithKey_empty enc, sb, _, hsb, he, hp, hlen, by omega,
    trailingPadding_symbolsOf _ _ hr.2.1 hr.2.2.2.2 input⟩

end Padding

section Standard

theorem standard_symbol (i : Nat) :
    byte ((base64standart.map (fun b => b.val)).getD i 0) = rfc4648Char i := by
  have h : (base64standart.map (fun b => b.val)).getD i 0 = (base64standart.getD i 0).val := by
    simp only [List.getD_eq_getElem?_getD, List.getElem?_map]
    cases base64standart[i]? <;> rfl
  rw [h, byte_val]
  rfl

theorem or_tail (a b : Nat) (hb : b < 256) :
    ((a &&& 3) <<< 4) ||| (b >>> 4) = (a % 4) * 16 + b / 16 := by
  rw [and_3, Nat.shiftLeft_eq, Nat.shiftRight_eq_div_pow,
    or_eq_add _ _ 4 (by omega) (by omega)]

/-- The text of the symbols under the standard table is the RFC 4648 encoding. -/
theorem symbolsOf_standard :
    ∀ input : List Byte,
      (symbolsOf (base64standart.map (fun b => b.val)) 61 input).map byte = rfc4648Encode input
  | [] => rfl
  | [a] => by
    have ha := a.isLt
    have e0 : a.val >>> 2 = a.val * 2 ^ 4 / 2 ^ 6 := by
      rw [Nat.shiftRight_eq_div_pow]; omega
    have e1 : (a.val &&& 3) <<< 4 = a.val * 2 ^ 4 % 2 ^ 6 := by
      rw [and_3, Nat.shiftLeft_eq]; omega
    simp only [symbolsOf, rfc4648Encode, List.map_cons, List.map_nil, standard_symbol, e0, e1]
    rfl
  | [a, b] => by
    have ha := a.isLt
    have hb := b.isLt
    have e0 : a.val >>> 2 = (a.val * 2 ^ 8 + b.val) * 2 ^ 2 / 2 ^ 12 := by
      rw [Nat.shiftRight_eq_div_pow]; omega
    have e1 : ((a.val &&& 3) <<< 4) ||| (b.val >>> 4)
        = (a.val * 2 ^ 8 + b.val) * 2 ^ 2 / 2 ^ 6 % 2 ^ 6 := by
      rw [or_tail _ _ hb]; omega
    have e2 : (b.val &&& 15) <<< 2 = (a.val * 2 ^ 8 + b.val) * 2 ^ 2 % 2 ^ 6 := by
      rw [and_15, Nat.shiftLeft_eq]; omega
    simp only [symbolsOf, rfc4648Encode, List.map_cons, List.map_nil, standard_symbol, e0, e1, e2]
    rfl
  | a :: b :: c :: rest => by
    have ha := a.isLt
    have hb := b.isLt
    have hc := c.isLt
    have hch : (a.val <<< 16) ||| (b.val <<< 8) ||| c.val
        = a.val * 2 ^ 16 + b.val * 2 ^ 8 + c.val := chunk3_eq _ _ _ hb hc
    have e0 : ((a.val * 2 ^ 16 + b.val * 2 ^ 8 + c.val) >>> 18) &&& 63
        = (a.val * 2 ^ 16 + b.val * 2 ^ 8 + c.val) / 2 ^ 18 := by
      rw [and_63, Nat.shiftRight_eq_div_pow]; omega
    have e1 : ((a.val * 2 ^ 16 + b.val * 2 ^ 8 + c.val) >>> 12) &&& 63
        = (a.val * 2 ^ 16 + b.val * 2 ^ 8 + c.val) / 2 ^ 12 % 2 ^ 6 := by
      rw [and_63, Nat.shiftRight_eq_div_pow]; rfl
    have e2 : ((a.val * 2 ^ 16 + b.val * 2 ^ 8 + c.val) >>> 6) &&& 63
        = (a.val * 2 ^ 16 + b.val * 2 ^ 8 + c.val) / 2 ^ 6 % 2 ^ 6 := by
      rw [and_63, Nat.shiftRight_eq_div_pow]; rfl
    have e3 : (a.val * 2 ^ 16 + b.val * 2 ^ 8 + c.val) &&& 63
        = (a.val * 2 ^ 16 + b.val * 2 ^ 8 + c.val) % 2 ^ 6 := and_63 _
    rw [symbolsOf, rfc4648Encode, List.map_append, symbolsOf_standard rest]
    simp only [groupSymbols, hch, e0, e1, e2, e3, List.map_cons, List.map_nil, standard_symbol]

/-- C5.  The constructor without a key, and the one with an empty key, hold
the table of RFC 4648 and the padding `=`; in narrow mode `Encode` then returns
the padded base 64 encoding of RFC 4648 of the input bytes and no error, for
every input; `Encode("Man")` is `"TWFu"`. -/
theorem default_is_rfc4648 (input : List Byte) :
    (NewSecureBase SBEncoding.UTF8).globalcharset = rfc4648Alphabet ∧
      (NewSecureBase SBEncoding.UTF8).padding = 61 ∧
      NewSecureBaseWithKey SBEncoding.UTF8 [] = some (NewSecureBase SBEncoding.UTF8) ∧
      Encode (NewSecureBase SBEncoding.UTF8) input = (rfc4648Encode input, none) ∧
      Encode (NewSecureBase SBEncoding.UTF8) (lit "Man") = (lit "TWFu", none) := by
  have hw := NewSecureBase_wellFormed SBEncoding.UTF8
  have key : ∀ inp, Encode (NewSecureBase SBEncoding.UTF8) inp = (rfc4648Encode inp, none) := by
    intro inp
    have hp := (processEncoding_wf _ hw inp).2
    have hr := (wellFormed_runes _ hw).1
    rw [hr] at hp
    simp only [Encode, NewSecureBase] at hp ⊢
    rw [hp]
    simp only [reduceCtorEq, if_false, ne_eq, not_true_eq_false]
    exact congrArg (fun x => (x, none)) (symbolsOf_standard inp)
  refine ⟨rfl, rfl, NewSecureBaseWithKey_empty _, key input, ?_⟩
  rw [key]
  decide

end Standard

/-! ## UTF-8 and UTF-16 round trips on scalar values -/

section Unicode

theorem and_1F (x : Nat) : x &&& 0x1F = x % 32 := Nat.and_pow_two_sub_one_eq_mod x 5
theorem and_0F (x : Nat) : x &&& 0x0F = x % 16 := Nat.and_pow_two_sub_one_eq_mod x 4
theorem and_07 (x : Nat) : x &&& 0x07 = x % 8 := Nat.and_pow_two_sub_one_eq_mod x 3
theorem and_3F (x : Nat) : x &&& 0x3F = x % 64 := Nat.and_pow_two_sub_one_eq_mod x 6
theorem and_3FF (x : Nat) : x &&& 0x3FF = x % 1024 := Nat.and_pow_two_sub_one_eq_mod x 10

/-- A continuation byte `0x80 | v` for a 6-bit value `v`. -/
theorem cont_byte (v : Nat) (hv : v < 64) :
    (byte (0x80 ||| v)).val = 128 + v ∧ isCont (byte (0x80 ||| v)) = true := by
  have h : (0x80 ||| v) = 128 + v := or_eq_add 0x80 v 6 (by decide) (by omega)
  have hb : (byte (0x80 ||| v)).val = 128 + v := by
    rw [h, byte_val_of_lt _ (by omega)]
  refine ⟨hb, ?_⟩
  simp only [isCont, hb, Bool.and_eq_true, decide_eq_true_eq]
  omega

theorem lead_byte (t v k : Nat) (ht : t % 2 ^ k = 0) (hv : v < 2 ^ k) (hlt : t + v < 256) :
    (byte (t ||| v)).val = t + v := by
  rw [or_eq_add t v k ht hv, byte_val_of_lt _ hlt]

theorem or3_eq (a b c : Nat) (hb : b < 64) (hc : c < 64) :
    (a <<< 12) ||| (b <<< 6) ||| c = a * 4096 + b * 64 + c := by
  rw [Nat.shiftLeft_eq, Nat.shiftLeft_eq]
  rw [or_eq_add (a * 2 ^ 12) (b * 2 ^ 6) 12 (by omega) (by omega)]
  rw [or_eq_add (a * 2 ^ 12 + b * 2 ^ 6) c 6 (by omega) (by omega)]

theorem or2_eq (a b : Nat) (hb : b < 64) : (a <<< 6) ||| b = a * 64 + b := by
  rw [Nat.shiftLeft_eq, or_eq_add (a * 2 ^ 6) b 6 (by omega) (by omega)]

/-- One rune of two bytes is decoded back from its encoding. -/
theorem decoderune_two (r : Nat) (h0 : 0x80 ≤ r) (h1 : r ≤ 0x7FF) (rest : List Byte) :
    decoderune (byte (0xC0 ||| (r >>> 6)) :: byte (0x80 ||| (r &&& 0x3F)) :: rest) = (r, 2) ∧
      ¬ (byte (0xC0 ||| (r >>> 6))).val < 0x80 := by
  rw [Nat.shiftRight_eq_div_pow, and_3F]
  have hl := lead_byte 0xC0 (r / 2 ^ 6) 5 (by decide) (by omega) (by omega)
  obtain ⟨hc, hcont⟩ := cont_byte (r % 64) (Nat.mod_lt _ (by decide))
  refine ⟨?_, by rw [hl]; omega⟩
  unfold decoderune
  simp only [hl, hc, hcont, and_1F, and_3F, if_true]
  rw [if_pos (by omega), or2_eq _ _ (Nat.mod_lt _ (by decide))]
  have : (192 + r / 2 ^ 6) % 32 * 64 + (128 + r % 64) % 64 = r := by omega
  rw [this, if_pos (by omega)]

/-- One rune of three bytes is decoded back from its encoding. -/
theorem decoderune_three (r : Nat) (h0 : 0x800 ≤ r) (h1 : r ≤ 0xFFFF)
    (hs : ¬ (0xD800 ≤ r ∧ r ≤ 0xDFFF)) (rest : List Byte) :
    decoderune (byte (0xE0 ||| (r >>> 12)) :: byte (0x80 ||| ((r >>> 6) &&& 0x3F))
        :: byte (0x80 ||| (r &&& 0x3F)) :: rest) = (r, 3) ∧
      ¬ (byte (0xE0 ||| (r >>> 12))).val < 0x80 := by
  rw [Nat.shiftRight_eq_div_pow, Nat.shiftRight_eq_div_pow, and_3F, and_3F]
  have hl := lead_byte 0xE0 (r / 2 ^ 12) 4 (by decide) (by omega) (by omega)
  obtain ⟨hc1, hcont1⟩ := cont_byte (r / 2 ^ 6 % 64) (Nat.mod_lt _ (by decide))
  obtain ⟨hc2, hcont2⟩ := cont_byte (r % 64) (Nat.mod_lt _ (by decide))
  refine ⟨?_, by rw [hl]; omega⟩
  unfold decoderune
  simp only [hl, hc1, hc2, hcont1, hcont2, and_0F, and_3F, and_self, if_true, surrogateMin,
    surrogateMax]
  rw [if_neg (by omega), if_pos (by omega),
    or3_eq _ _ _ (Nat.mod_lt _ (by decide)) (Nat.mod_lt _ (by decide))]
  have : (224 + r / 2 ^ 12) % 16 * 4096 + (128 + r / 2 ^ 6 % 64) % 64 * 64
      + (128 + r % 64) % 64 = r := by omega
  rw [this, if_pos ⟨by omega, hs⟩]

/-- One rune of four bytes is decoded back from its encoding. -/
theorem decoderune_four (r : Nat) (h0 : 0x10000 ≤ r) (h1 : r ≤ 0x10FFFF) (rest : List Byte) :
    decoderune (byte (0xF0 ||| (r >>> 18)) :: byte (0x80 ||| ((r >>> 12) &&& 0x3F))
        :: byte (0x80 ||| ((r >>> 6) &&& 0x3F)) :: byte (0x80 ||| (r &&& 0x3F)) :: rest)
      = (r, 4) ∧ ¬ (byte (0xF0 ||| (r >>> 18))).val < 0x80 := by
  rw [Nat.shiftRight_eq_div_pow, Nat.shiftRight_eq_div_pow, Nat.shiftRight_eq_div_pow, and_3F,
    and_3F, and_3F]
  have hl := lead_byte 0xF0 (r / 2 ^ 18) 3 (by decide) (by omega) (by omega)
  obtain ⟨hc1, hcont1⟩ := cont_byte (r / 2 ^ 12 % 64) (Nat.mod_lt _ (by decide))
  obtain ⟨hc2, hcont2⟩ := cont_byte (r / 2 ^ 6 % 64) (Nat.mod_lt _ (by decide))
  obtain ⟨hc3, hcont3⟩ := cont_byte (r % 64) (Nat.mod_lt _ (by decide))
  refine ⟨?_, by rw [hl]; omega⟩
  unfold decoderune
  simp only [hl, hc1, hc2, hc3, hcont1, hcont2, hcont3, and_07, and_3F, and_self, if_true,
    maxRune]
  rw [if_neg (by omega), if_neg (by omega), if_pos (by omega),
    chunk4_eq _ _ _ _ (Nat.mod_lt _ (by decide)) (Nat.mod_lt _ (by decide))
      (Nat.mod_lt _ (by decide))]
  have : (240 + r / 2 ^ 18) % 8 * 262144 + (128 + r / 2 ^ 12 % 64) % 64 * 4096
      + (128 + r / 2 ^ 6 % 64) % 64 * 64 + (128 + r % 64) % 64 = r := by omega
  rw [this, if_pos ⟨by omega, by omega⟩]

theorem encoderune_length_pos (r : Nat) : 1 ≤ (encoderune r).length := by
  unfold encoderune
  repeat' split
  all_goals simp

/-- The conversion `[]rune(string(rs))` gives back `rs` when every rune is a
scalar value. -/
theorem stringToRunesAux_runesToString (rs : List Nat) (h : ∀ r ∈ rs, isScalar r) :
    ∀ fuel, (runesToString rs).length ≤ fuel → stringToRunesAux fuel (runesToString rs) = rs := by
  induction rs with
  | nil =>
    intro fuel _
    cases fuel <;> rfl
  | cons r rs ih =>
    intro fuel hf
    have hr : isScalar r := h r (List.mem_cons_self _ _)
    have ih' := ih (fun x hx => h x (List.mem_cons_of_mem _ hx))
    have hcons : runesToString (r :: rs) = encoderune r ++ runesToString rs := rfl
    rw [hcons] at hf ⊢
    rw [List.length_append] at hf
    have hpos := encoderune_length_pos r
    obtain ⟨f, rfl⟩ : ∃ f, fuel = f + 1 := ⟨fuel - 1, by omega⟩
    unfold isScalar at hr
    by_cases c1 : r ≤ 0x7F
    · have he : encoderune r = [byte r] := by
        unfold encoderune
        rw [if_pos c1]
      rw [he] at hf ⊢
      simp only [List.singleton_append, stringToRunesAux, byte_val_of_lt r (by omega),
        show r < 0x80 by omega, if_true]
      rw [ih' f (by simp at hf; omega)]
    · by_cases c2 : r ≤ 0x7FF
      · have he : encoderune r = [byte (0xC0 ||| (r >>> 6)), byte (0x80 ||| (r &&& 0x3F))] := by
          unfold encoderune
          rw [if_neg c1, if_pos c2]
        obtain ⟨hd, hlead⟩ := decoderune_two r (by omega) c2 (runesToString rs)
        have hlen : (encoderune r).length = 2 := by rw [he]; rfl
        rw [he]
        simp only [List.cons_append, List.nil_append, stringToRunesAux, hlead, if_false, hd,
          List.drop_succ_cons, List.drop_zero]
        rw [ih' f (by omega)]
      · by_cases c3 : r ≤ 0xFFFF
        · have he : encoderune r = [byte (0xE0 ||| (r >>> 12)),
              byte (0x80 ||| ((r >>> 6) &&& 0x3F)), byte (0x80 ||| (r &&& 0x3F))] := by
            unfold encoderune
            rw [if_neg c1, if_neg c2, if_neg (show ¬ (maxRune < r ∨ (surrogateMin ≤ r ∧ r ≤ surrogateMax)) by
              simp only [maxRune, surrogateMin, surrogateMax]; omega),
              if_pos c3]
          obtain ⟨hd, hlead⟩ := decoderune_three r (by omega) c3 hr.2 (runesToString rs)
          have hlen : (encoderune r).length = 3 := by rw [he]; rfl
          rw [he]
          simp only [List.cons_append, List.nil_append, stringToRunesAux, hlead, if_false, hd,
            List.drop_succ_cons, List.drop_zero]
          rw [ih' f (by omega)]
        · have he : encoderune r = [byte (0xF0 ||| (r >>> 18)),
              byte (0x80 ||| ((r >>> 12) &&& 0x3F)), byte (0x80 ||| ((r >>> 6) &&& 0x3F)),
              byte (0x80 ||| (r &&& 0x3F))] := by
            unfold encoderune
            rw [if_neg c1, if_neg c2, if_neg (show ¬ (maxRune < r ∨ (surrogateMin ≤ r ∧ r ≤ surrogateMax)) by
              simp only [maxRune, surrogateMin, surrogateMax]; omega),
              if_neg c3]
          obtain ⟨hd, hlead⟩ := decoderune_four r (by omega) hr.1 (runesToString rs)
          have hlen : (encoderune r).length = 4 := by rw [he]; rfl
          rw [he]
          simp only [List.cons_append, List.nil_append, stringToRunesAux, hlead, if_false, hd,
            List.drop_succ_cons, List.drop_zero]
          rw [ih' f (by omega)]

theorem stringToRunes_runesToString (rs : List Nat) (h : ∀ r ∈ rs, isScalar r) :
    stringToRunes (runesToString rs) = rs :=
  stringToRunesAux_runesToString rs h _ (le_refl _)

theorem utf16Decode_cons_normal (x : Nat) (l : List Nat) (h : x < surr1 ∨ surr3 ≤ x) :
    utf16Decode (x :: l) = x :: utf16Decode l := by
  cases l with
  | nil => simp [utf16Decode, h]
  | cons y l => rw [utf16Decode, if_pos h]

/-- The functions `utf16.Decode` after `utf16.Encode` give back scalar values. -/
theorem utf16Decode_utf16Encode (rs : List Nat) (h : ∀ r ∈ rs, isScalar r) :
    utf16Decode (utf16Encode rs) = rs := by
  induction rs with
  | nil => rfl
  | cons r rs ih =>
    have hr : isScalar r := h r (List.mem_cons_self _ _)
    have ih' := ih (fun x hx => h x (List.mem_cons_of_mem _ hx))
    simp only [isScalar] at hr
    by_cases c1 : r < 55296 ∨ (57344 ≤ r ∧ r < 65536)
    · rw [utf16Encode]
      simp only [surr1, surr3, surrSelf]
      rw [if_pos c1]
      rw [Nat.mod_eq_of_lt (by omega),
        utf16Decode_cons_normal _ _ (show r < surr1 ∨ surr3 ≤ r by
          simp only [surr1, surr3]; omega), ih']
    · have c2 : 65536 ≤ r ∧ r ≤ 1114111 := by omega
      have e1 : (55296 + (r - 65536) / 2 ^ 10 % 1024) % 65536 = 55296 + (r - 65536) / 1024 := by
        omega
      have e2 : (56320 + (r - 65536) % 1024) % 65536 = 56320 + (r - 65536) % 1024 := by
        omega
      have e3 : 55296 + (r - 65536) / 1024 - 55296 = (r - 65536) / 1024 := by omega
      have e4 : 56320 + (r - 65536) % 1024 - 56320 = (r - 65536) % 1024 := by omega
      have e5 : (r - 65536) / 1024 * 2 ^ 10 + (r - 65536) % 1024 + 65536 = r := by omega
      rw [utf16Encode]
      simp only [surr1, surr2, surr3, surrSelf, maxRune]
      rw [if_neg c1, if_pos c2]
      simp only [Nat.shiftRight_eq_div_pow, and_3FF]
      rw [e1, e2, utf16Decode]
      simp only [surr1, surr2, surr3, surrSelf]
      rw [if_neg (show ¬ (55296 + (r - 65536) / 1024 < 55296
          ∨ 57344 ≤ 55296 + (r - 65536) / 1024) by omega),
        if_pos (show 55296 ≤ 55296 + (r - 65536) / 1024 ∧ 55296 + (r - 65536) / 1024 < 56320
          ∧ 56320 ≤ 56320 + (r - 65536) % 1024 ∧ 56320 + (r - 65536) % 1024 < 57344 by omega),
        ih']
      rw [e3, e4, Nat.shiftLeft_eq,
        or_eq_add ((r - 65536) / 1024 * 2 ^ 10) ((r - 65536) % 1024) 10 (by omega) (by omega), e5]

theorem utf16Encode_lt (rs : List Nat) : ∀ x ∈ utf16Encode rs, x < 65536 := by
  induction rs with
  | nil => intro x hx; simp [utf16Encode] at hx
  | cons r rs ih =>
    intro x hx
    unfold utf16Encode at hx
    split at hx
    · rcases List.mem_cons.mp hx with h | h
      · rw [h]; exact Nat.mod_lt _ (by decide)
      · exact ih x h
    · split at hx
      · rcases List.mem_cons.mp hx with h | h
        · rw [h]; exact Nat.mod_lt _ (by decide)
        · rcases List.mem_cons.mp h with h | h
          · rw [h]; exact Nat.mod_lt _ (by decide)
          · exact ih x h
      · rcases List.mem_cons.mp hx with h | h
        · rw [h]; decide
        · exact ih x h

theorem pairs_getD (X : List Nat) :
    ∀ i, i < X.length →
      (X.flatMap (fun r => [byte r, byte (r >>> 8)])).getD (i * 2) 0 = byte (X.getD i 0) ∧
      (X.flatMap (fun r => [byte r, byte (r >>> 8)])).getD (i * 2 + 1) 0
        = byte (X.getD i 0 >>> 8) := by
  induction X with
  | nil => intro i hi; simp at hi
  | cons x X ih =>
    intro i hi
    cases i with
    | zero => simp [List.flatMap_cons]
    | succ i =>
      have := ih i (by simpa using hi)
      rw [List.flatMap_cons, show (i + 1) * 2 = i * 2 + 1 + 1 by omega]
      simpa using this

theorem pairs_length (X : List Nat) :
    (X.flatMap (fun r => [byte r, byte (r >>> 8)])).length = 2 * X.length := by
  induction X with
  | nil => rfl
  | cons x X ih =>
    rw [List.flatMap_cons, List.length_append, ih]
    simp only [List.length_cons, List.length_nil]
    omega

/-- Reading back the little-endian bytes of 16-bit code units. -/
theorem utf16LE_units (X : List Nat) (h : ∀ x ∈ X, x < 65536) :
    (List.range ((X.flatMap (fun r => [byte r, byte (r >>> 8)])).length / 2)).map (fun i =>
      (((X.flatMap (fun r => [byte r, byte (r >>> 8)])).getD (i * 2) 0).val
        + ((((X.flatMap (fun r => [byte r, byte (r >>> 8)])).getD (i * 2 + 1) 0).val <<< 8)
            % 65536)) % 65536) = X := by
  apply List.ext_getElem
  · rw [List.length_map, List.length_range, pairs_length]
    omega
  · intro i h1 h2
    rw [List.getElem_map, List.getElem_range]
    obtain ⟨e0, e1⟩ := pairs_getD X i h2
    have hx : X.getD i 0 = X[i] := by
      simp [List.getD_eq_getElem?_getD, List.getElem?_eq_getElem h2]
    have hlt := h X[i] (List.getElem_mem h2)
    rw [e0, e1, hx]
    simp only [byte, Nat.shiftRight_eq_div_pow, Nat.shiftLeft_eq]
    omega

/-- The function `utf16LEToString` after `stringToUTF16LE`: the string goes
through runes and UTF-16 code units and back. -/
theorem utf16LEToString_stringToUTF16LE (s : List Byte) :
    utf16LEToString (stringToUTF16LE s)
      = runesToString (utf16Decode (utf16Encode (stringToRunes s))) := by
  unfold utf16LEToString stringToUTF16LE
  simp only
  rw [utf16LE_units _ (utf16Encode_lt _)]

theorem isScalar_of_ascii (r : Nat) (h : r < 0x80) : isScalar r := by
  unfold isScalar
  omega

/-- ASCII text is unchanged by the trip through UTF-16. -/
theorem utf16LEToString_stringToUTF16LE_ascii (rs : List Nat) (h : ∀ r ∈ rs, r < 0x80) :
    utf16LEToString (stringToUTF16LE (runesToString rs)) = runesToString rs := by
  have hs : ∀ r ∈ rs, isScalar r := fun r hr => isScalar_of_ascii r (h r hr)
  rw [utf16LEToString_stringToUTF16LE, stringToRunes_runesToString rs hs,
    utf16Decode_utf16Encode rs hs]

end Unicode

section Malformed

theorem bind_eq_none_of_forall {α β : Type} (x : Option α) (f : α → Option β)
    (h : ∀ a, f a = none) : x.bind f = none := by
  cases x with
  | none => rfl
  | some a => exact h a

theorem ite_eq_none_of {α : Type} (c : Prop) [Decidable c] (a b : Option α)
    (ha : a = none) (hb : b = none) : (if c then a else b) = none := by
  split
  · exact ha
  · exact hb

/-- The loop of `processDecoding` panics when its rounds reach beyond the runes
of the input: the fourth rune of the last round does not exist. -/
theorem decodeLoop_short (m : Nat → Byte) (inputRunes : List Nat) (decodedLength : Nat)
    (n : Nat) :
    ∀ (encodedIndex decodedIndex : Nat) (decodedData : List Byte),
      inputRunes.length < encodedIndex + 4 * (n + 1) →
      decodeLoop m inputRunes decodedLength (n + 1) encodedIndex decodedIndex decodedData
        = none := by
  induction n with
  | zero =>
    intro e d data h
    have h3 : inputRunes[e + 3]? = none := List.getElem?_eq_none (by omega)
    rw [decodeLoop]
    simp only [Option.bind_eq_bind]
    refine bind_eq_none_of_forall _ _ (fun _ => ?_)
    refine bind_eq_none_of_forall _ _ (fun _ => ?_)
    refine bind_eq_none_of_forall _ _ (fun _ => ?_)
    rw [h3]
    rfl
  | succ n ih =>
    intro e d data h
    rw [decodeLoop]
    simp only [Option.bind_eq_bind]
    by_cases hR : inputRunes.length ≤ e + 3
    · have h3 : inputRunes[e + 3]? = none := List.getElem?_eq_none hR
      refine bind_eq_none_of_forall _ _ (fun _ => ?_)
      refine bind_eq_none_of_forall _ _ (fun _ => ?_)
      refine bind_eq_none_of_forall _ _ (fun _ => ?_)
      rw [h3]
      rfl
    · have hlen : ∀ e', e' = e + 4 → inputRunes.length < e' + 4 * (n + 1) := by
        intro e' he'
        omega
      repeat' first
        | with_reducible refine ite_eq_none_of _ _ _ ?_ ?_
        | with_reducible refine bind_eq_none_of_forall _ _ (fun ⟨_, _⟩ => ?_)
        | with_reducible refine bind_eq_none_of_forall _ _ (fun _ => ?_)
        | exact ih _ _ _ (hlen _ rfl)

/-- The body of `processDecoding` panics on every non-empty input that has
fewer runes than its rounds read, whatever the codec holds. -/
theorem decodeBody_short (sb : SecureBase) (input : List Byte) (hpos : input.length > 0)
    (h : (stringToRunes input).length < 4 * ((input.length + 3) / 4)) :
    decodeBody sb input = none := by
  obtain ⟨n, hn⟩ : ∃ n, (input.length + 3) / 4 = n + 1 := ⟨(input.length + 3) / 4 - 1, by omega⟩
  unfold decodeBody
  simp only [hpos, if_true, Option.bind_eq_bind, hn]
  have hshort : (stringToRunes input).length < 0 + 4 * (n + 1) := by omega
  repeat' first
    | with_reducible refine ite_eq_none_of _ _ _ ?_ ?_
    | with_reducible refine bind_eq_none_of_forall _ _ (fun _ => ?_)
    | exact decodeLoop_short _ _ _ n 0 0 _ hshort

/-- The loop of `processDecoding` runs to its end when every round finds its
four runes and the output slice has room for the first byte of every round. -/
theorem decodeLoop_total (m : Nat → Byte) (inputRunes : List Nat) (decodedLength : Nat)
    (n : Nat) :
    ∀ (encodedIndex decodedIndex : Nat) (decodedData : List Byte),
      encodedIndex + 4 * n ≤ inputRunes.length → decodedData.length = decodedLength →
      decodedIndex + 3 * n ≤ decodedLength + 2 →
      ∃ out, decodeLoop m inputRunes decodedLength n encodedIndex decodedIndex decodedData
        = some out ∧ out.length = decodedLength := by
  induction n with
  | zero =>
    intro e d data _ hl _
    exact ⟨data, rfl, hl⟩
  | succ n ih =>
    intro e d data he hl hd
    obtain ⟨r0, h0⟩ := getElem?_total inputRunes e (by omega)
    obtain ⟨r1, h1⟩ := getElem?_total inputRunes (e + 1) (by omega)
    obtain ⟨r2, h2⟩ := getElem?_total inputRunes (e + 2) (by omega)
    obtain ⟨r3, h3⟩ := getElem?_total inputRunes (e + 3) (by omega)
    have hd0 : d < data.length := by omega
    rw [decodeLoop]
    simp only [h0, h1, h2, h3, Option.bind_eq_bind, Option.some_bind, store, hd0, if_true,
      Option.pure_def]
    by_cases c1 : d + 1 < decodedLength
    · have c1' : d + 1 < data.length := by omega
      by_cases c2 : d + 1 + 1 < decodedLength
      · have c2' : d + 1 + 1 < data.length := by omega
        simp only [c1, c2, c1', c2', if_true, List.length_set, Option.some_bind]
        exact ih _ _ _ (by omega) (by simp [hl]) (by omega)
      · simp only [c1, c2, c1', if_true, if_false, List.length_set, Option.some_bind]
        exact ih _ _ _ (by omega) (by simp [hl]) (by omega)
    · simp only [c1, if_false, Option.some_bind]
      exact ih _ _ _ (by omega) (by simp [hl]) (by omega)

/-- The body of `processDecoding` does not panic on a text of single-byte
characters whose length is a multiple of 4, whatever the characters are, when
the codec holds at least 64 alphabet runes. -/
theorem decodeBody_total (sb : SecureBase) (input : List Byte)
    (hA : 64 ≤ (stringToRunes sb.globalcharset).length)
    (h4 : input.length % 4 = 0) (hr : (stringToRunes input).length = input.length) :
    ∃ out, decodeBody sb input = some out := by
  by_cases hpos : input.length > 0
  · obtain ⟨m, hm, -⟩ := foldlM_option_inv (fun _ : Nat → Byte => True)
      (fun (m : Nat → Byte) i => do
        let key ← (stringToRunes sb.globalcharset)[i]?
        pure (fun r => if r = key then byte i else m r)) (List.range 64) (fun _ => (0 : Byte))
      trivial (by
        intro m i _ hi
        have hi : i < 64 := List.mem_range.mp hi
        obtain ⟨v, hv⟩ := getElem?_total (stringToRunes sb.globalcharset) i (by omega)
        exact ⟨fun r => if r = v then byte i else m r, by simp [hv], trivial⟩)
    obtain ⟨l1, hl1⟩ := getElem?_total input (input.length - 1) (by omega)
    obtain ⟨l2, hl2⟩ := getElem?_total input (input.length - 2) (by omega)
    have h1 : input.length > 1 := by omega
    unfold decodeBody
    simp only [hpos, h1, if_true, Option.bind_eq_bind, Option.pure_def] at hm ⊢
    rw [hm]
    simp only [Option.some_bind, hl1, hl2]
    have key : ∀ pc : Nat, pc ≤ 2 →
        ∃ out, (if ((input.length * 3 / 4 : Nat) : Int) - (pc : Int) < 0 then none
          else decodeLoop m (stringToRunes input)
            (((input.length * 3 / 4 : Nat) : Int) - (pc : Int)).toNat ((input.length + 3) / 4) 0 0
            (List.replicate (((input.length * 3 / 4 : Nat) : Int) - (pc : Int)).toNat 0))
          = some out := by
      intro pc hpc
      rw [if_neg (by omega)]
      obtain ⟨out, ho, -⟩ := decodeLoop_total m (stringToRunes input)
        (((input.length * 3 / 4 : Nat) : Int) - (pc : Int)).toNat ((input.length + 3) / 4) 0 0
        (List.replicate (((input.length * 3 / 4 : Nat) : Int) - (pc : Int)).toNat 0)
        (by omega) (by simp) (by omega)
      exact ⟨out, ho⟩
    by_cases e1 : l1.val = sb.padding <;> by_cases e2 : l2.val = sb.padding <;>
      simp only [e1, e2, if_true, if_false, Option.some_bind]
    · exact key 2 (by omega)
    · exact key 1 (by omega)
    · exact key 1 (by omega)
    · exact key 0 (by omega)
  · have : input = [] := List.length_eq_zero.mp (by omega)
    subst this
    exact ⟨[], by simp [decodeBody]⟩

/-- C7.  For every codec, in either mode, and every input text whose length in
bytes is not a multiple of 4 (such a text is not empty), `processDecoding` and
`Decode` return the empty result together with the invalid-data error; the empty
text decodes to the empty result without error. -/
theorem decode_rejects_bad_length (sb : SecureBase) (input : List Byte)
    (h : input.length % 4 ≠ 0) :
    processDecoding sb input = ([], some errInvalidData) ∧
      Decode sb input = ([], some errInvalidData) ∧
      processDecoding sb [] = ([], none) ∧ Decode sb [] = ([], none) := by
  have hr := stringToRunes_length_le input
  have hd : processDecoding sb input = ([], some errInvalidData) := by
    unfold processDecoding
    rw [decodeBody_short sb input (by omega) (by omega)]
  have he : processDecoding sb [] = ([], none) := by
    simp [processDecoding, decodeBody]
  refine ⟨hd, ?_, he, ?_⟩
  · unfold Decode
    rw [hd]
    simp
  · unfold Decode
    rw [he]
    cases sb.gencoding <;> simp [utf16LEToString, utf16Decode, runesToString]

/-- The witness of C7: the three characters "TWF" on the standard codec. -/
theorem decode_rejects_bad_length_witness :
    processDecoding (NewSecureBase SBEncoding.UTF8) (lit "TWF") = ([], some errInvalidData) ∧
      Decode (NewSecureBase SBEncoding.UTF8) (lit "TWF") = ([], some errInvalidData) ∧
      processDecoding (NewSecureBase SBEncoding.UTF8) [] = ([], none) ∧
      Decode (NewSecureBase SBEncoding.UTF8) [] = ([], none) :=
  decode_rejects_bad_length (NewSecureBase SBEncoding.UTF8) (lit "TWF") (by decide)

/-- The counterexample to C6: `!` is neither one of the 64 symbols of the
standard codec nor its padding, yet `Decode("!!!!")` returns three zero bytes and
no error. -/
theorem decode_accepts_foreign_symbol :
    (33 : Nat) ∈ stringToRunes (lit "!!!!") ∧
      (33 : Nat) ∉ stringToRunes (NewSecureBase SBEncoding.UTF8).globalcharset ∧
      (33 : Nat) ≠ (NewSecureBase SBEncoding.UTF8).padding ∧
      Decode (NewSecureBase SBEncoding.UTF8) (lit "!!!!") = ([0, 0, 0], none) ∧
      (Decode (NewSecureBase SBEncoding.UTF8) (lit "!!!!")).2 ≠ some errInvalidData := by
  decide

/-- C6, amended.  On every constructed codec (any mode, any key) `Decode`
returns the invalid-data error exactly when the length of the text in bytes is
not a multiple of 4 or some character of the text takes more than one byte;
whether a character belongs to the alphabet plays no part.  When `Decode`
reports an error its result is empty. -/
theorem decode_fails_iff (enc : SBEncoding) (secretkey input : List Byte) :
    NewSecureBaseWithKey enc [] = some (NewSecureBase enc) ∧
    ∃ sb, NewSecureBaseWithKey enc secretkey = some sb ∧
      ((Decode sb input).2 = some errInvalidData ↔
        (input.length % 4 ≠ 0 ∨ (stringToRunes input).length < input.length)) ∧
      ((Decode sb input).2 = none ∨ Decode sb input = ([], some errInvalidData)) := by
  obtain ⟨sb, hsb, hw, -⟩ := SetSecretKey_wellFormed
    { globalcharset := [], padding := 0, gencoding := enc } secretkey
  refine ⟨NewSecureBaseWithKey_empty enc, sb, hsb, ?_⟩
  have hr := stringToRunes_length_le input
  have hA := (wellFormed_runes sb hw).2.1
  by_cases hbad : input.length % 4 ≠ 0 ∨ (stringToRunes input).length < input.length
  · have hnone : decodeBody sb input = none :=
      decodeBody_short sb input (by omega) (by omega)
    have hd : Decode sb input = ([], some errInvalidData) := by
      unfold Decode processDecoding
      rw [hnone]
      simp
    rw [hd]
    exact ⟨⟨fun _ => hbad, fun _ => rfl⟩, Or.inr rfl⟩
  · obtain ⟨out, hout⟩ := decodeBody_total sb input (by omega) (by omega) (by omega)
    have hd : (Decode sb input).2 = none := by
      unfold Decode processDecoding
      rw [hout]
      cases sb.gencoding <;> simp
    rw [hd]
    exact ⟨⟨fun h => by simp at h, fun h => absurd h hbad⟩, Or.inl rfl⟩

end Malformed

section Wide

/-- The wide round trip on a well formed codec, for any input: what comes back
is the input after the trip through runes and UTF-16 code units. -/
theorem wf_wide_round_trip (sb : SecureBase) (hw : WellFormed sb)
    (hmode : sb.gencoding = SBEncoding.UNICODE) (input : List Byte) :
    (Encode sb input).2 = none ∧
      Decode sb (Encode sb input).1
        = (runesToString (utf16Decode (utf16Encode (stringToRunes input))), none) := by
  have hr := wellFormed_runes sb hw
  have he := encodeSymbols_eq sb (stringToUTF16LE input) hr.2.1
  have hascii := symbolsOf_ascii _ sb.padding hr.2.2.2.1 hw.padAscii (stringToUTF16LE input)
  have henc : Encode sb input
      = (runesToString (symbolsOf (stringToRunes sb.globalcharset) sb.padding
          (stringToUTF16LE input)), none) := by
    simp only [Encode, processEncoding, hmode, he, if_true, ne_eq, not_true_eq_false, if_false,
      utf16LEToString_stringToUTF16LE_ascii _ hascii]
  have hdec := decodeBody_encoded sb hw (stringToUTF16LE input)
  refine ⟨by rw [henc], ?_⟩
  rw [henc]
  simp only [Decode, processDecoding, hmode, hdec, if_true, ne_eq, not_true_eq_false, if_false,
    utf16LEToString_stringToUTF16LE]

/-- The counterexample to C2: the one-byte string `0xFF` is no valid UTF-8; in
wide mode `Decode(Encode(s))` returns the three bytes of U+FFFD instead. -/
theorem wide_round_trip_invalid_utf8 :
    (Encode (NewSecureBase SBEncoding.UNICODE) [0xFF]).2 = none ∧
      Decode (NewSecureBase SBEncoding.UNICODE)
        (Encode (NewSecureBase SBEncoding.UNICODE) [0xFF]).1 = ([0xEF, 0xBF, 0xBD], none) ∧
      Decode (NewSecureBase SBEncoding.UNICODE)
        (Encode (NewSecureBase SBEncoding.UNICODE) [0xFF]).1 ≠ ([0xFF], none) := by
  decide

/-- C2, amended.  Wide-mode round trip.  For every secret key, empty or not,
the constructor with mode UNICODE returns a codec on which `Encode` never fails
and `Decode(Encode(s))` returns, without error, the string `s` read as runes,
written as UTF-16 and read back; that is `s` itself whenever `s` is valid UTF-8,
the encoding of a sequence `rs` of Unicode scalar values. -/
theorem wide_round_trip (secretkey input : List Byte) (rs : List Nat)
    (hvalid : ∀ r ∈ rs, isScalar r) :
    NewSecureBaseWithKey SBEncoding.UNICODE [] = some (NewSecureBase SBEncoding.UNICODE) ∧
    ∃ sb, NewSecureBaseWithKey SBEncoding.UNICODE secretkey = some sb ∧
      (Encode sb input).2 = none ∧
      Decode sb (Encode sb input).1
        = (runesToString (utf16Decode (utf16Encode (stringToRunes input))), none) ∧
      (Encode sb (runesToString rs)).2 = none ∧
      Decode sb (Encode sb (runesToString rs)).1 = (runesToString rs, none) := by
  obtain ⟨sb, hsb, hw, hmode⟩ := SetSecretKey_wellFormed
    { globalcharset := [], padding := 0, gencoding := SBEncoding.UNICODE } secretkey
  obtain ⟨h1, h2⟩ := wf_wide_round_trip sb hw hmode input
  obtain ⟨h3, h4⟩ := wf_wide_round_trip sb hw hmode (runesToString rs)
  rw [stringToRunes_runesToString rs hvalid, utf16Decode_utf16Encode rs hvalid] at h4
  exact ⟨NewSecureBaseWithKey_empty _, sb, hsb, h1, h2, h3, h4⟩

/-- The witness of C2: the key "key" and the string of U+004D, U+00E9, U+20AC
and U+1F600, with the invalid string `0xFF` as the arbitrary input. -/
theorem wide_round_trip_witness :
    (∀ r ∈ [0x4D, 0xE9, 0x20AC, 0x1F600], isScalar r) ∧
    NewSecureBaseWithKey SBEncoding.UNICODE [] = some (NewSecureBase SBEncoding.UNICODE) ∧
    ∃ sb, NewSecureBaseWithKey SBEncoding.UNICODE (lit "key") = some sb ∧
      (Encode sb [0xFF]).2 = none ∧
      Decode sb (Encode sb [0xFF]).1
        = (runesToString (utf16Decode (utf16Encode (stringToRunes [0xFF]))), none) ∧
      (Encode sb (runesToString [0x4D, 0xE9, 0x20AC, 0x1F600])).2 = none ∧
      Decode sb (Encode sb (runesToString [0x4D, 0xE9, 0x20AC, 0x1F600])).1
        = (runesToString [0x4D, 0xE9, 0x20AC, 0x1F600], none) :=
  have hv : ∀ r ∈ [0x4D, 0xE9, 0x20AC, 0x1F600], isScalar r := by
    unfold isScalar
    decide
  ⟨hv, wide_round_trip (lit "key") [0xFF] [0x4D, 0xE9, 0x20AC, 0x1F600] hv⟩

end Wide

end Codec

/-! ## Keccak: the shape of the padding -/

section PadShape

theorem paddingBytes_length (n : Nat) (hn : 1 ≤ n) : (paddingBytes n).length = n := by
  unfold paddingBytes
  by_cases h : n ≤ 1
  · rw [if_pos h]; simp; omega
  · rw [if_neg h]; simp; omega

/-- What `pad` returns, in closed form: the input followed by the padding bytes
for the distance to the next multiple of the rate above the input length. -/
theorem pad_eq (input : List Byte) (r : Nat) (hr : 1 ≤ r) :
    pad input (r : Int) = some (input ++ paddingBytes (r - input.length % r)) := by
  have hmod : Int.tmod (input.length : Int) (r : Int) = ((input.length % r : Nat) : Int) := by
    rw [Int.tmod_eq_emod (Int.ofNat_nonneg _) (Int.ofNat_nonneg _)]
    exact (Int.natCast_mod _ _).symm
  have hlt : input.length % r < r := Nat.mod_lt _ (by omega)
  unfold pad
  rw [if_neg (by omega), hmod]
  simp only
  rw [if_neg (by omega)]
  have htot : ((input.length : Int) + ((r : Int) - ((input.length % r : Nat) : Int))).toNat
      = input.length + (r - input.length % r) := by omega
  rw [htot]
  generalize hn : r - input.length % r = n
  have hn1 : 1 ≤ n := by omega
  have hcopy : copyInto (List.replicate (input.length + n) (0 : Byte)) 0
      (List.replicate (input.length + n) (0 : Byte)).length input
      = some (input ++ List.replicate n 0) := by
    unfold copyInto
    rw [if_pos ⟨Nat.zero_le _, le_refl _⟩]
    simp only [List.length_replicate, Nat.sub_zero, List.take_zero, List.nil_append, Nat.zero_add]
    rw [Nat.min_eq_right (by omega), List.take_length, List.drop_replicate]
    simp
  rw [hcopy]
  obtain ⟨m, rfl⟩ : ∃ m, n = m + 1 := ⟨n - 1, by omega⟩
  have hstore : store (input ++ List.replicate (m + 1) (0 : Byte)) input.length (byte 0x06)
      = some (input ++ byte 0x06 :: List.replicate m 0) := by
    rw [List.replicate_succ]
    exact store_append input _ _ _ _ rfl
  simp only [Option.bind_eq_bind, Option.some_bind, hstore]
  cases m with
  | zero =>
    have hlen : (input ++ byte 0x06 :: List.replicate 0 (0 : Byte)).length - 1 = input.length := by
      simp
    rw [hlen]
    simp only [List.replicate_zero]
    rw [getElem?_append_cons input [] _ _ rfl]
    simp only [Option.some_bind]
    rw [store_append input [] _ _ _ rfl]
    rfl
  | succ k =>
    have hsplit : input ++ byte 0x06 :: List.replicate (k + 1) (0 : Byte)
        = (input ++ byte 0x06 :: List.replicate k 0) ++ [0] := by
      rw [List.replicate_succ']; simp
    have hlen : (input ++ byte 0x06 :: List.replicate (k + 1) (0 : Byte)).length - 1
        = (input ++ byte 0x06 :: List.replicate k (0 : Byte)).length := by
      simp
    rw [hlen, hsplit]
    rw [getElem?_append_cons _ [] _ _ rfl]
    simp only [Option.some_bind]
    rw [store_append _ [] _ _ _ rfl]
    unfold paddingBytes
    rw [if_neg (by omega)]
    simp
    exact ⟨by decide, by decide⟩

theorem paddingBytes_head (n : Nat) :
    (n ≤ 1 → (paddingBytes n)[0]? = some 0x86) ∧ (1 < n → (paddingBytes n)[0]? = some 0x06) := by
  unfold paddingBytes
  constructor
  · intro h; rw [if_pos h]; rfl
  · intro h; rw [if_neg (by omega)]; simp

theorem paddingBytes_last (n : Nat) (hn : 1 < n) : (paddingBytes n)[n - 1]? = some 0x80 := by
  unfold paddingBytes
  rw [if_neg (by omega)]
  exact getElem?_append_cons _ [] _ _ (by simp; omega)

theorem paddingBytes_mid (n i : Nat) (h1 : 1 ≤ i) (h2 : i < n - 1) :
    (paddingBytes n)[i]? = some 0 := by
  unfold paddingBytes
  rw [if_neg (by omega)]
  rw [List.append_assoc, List.getElem?_append_right (by simpa using h1)]
  rw [List.getElem?_append_left (by simp; omega)]
  rw [List.getElem?_replicate, if_pos (by simp; omega)]

/-- The length `pad` gives a message of length `L` at rate `r`. -/
theorem padded_length (L r : Nat) (hr : 1 ≤ r) :
    L + (r - L % r) = r * (L / r + 1) := by
  have h1 := Nat.div_add_mod L r
  have h2 : L % r < r := Nat.mod_lt _ (by omega)
  rw [Nat.mul_add, Nat.mul_one]
  omega

/-- C11.  At every rate `r ≥ 1` and for every input, of length `L`, `pad`
returns a buffer whose length is the smallest multiple of `r` strictly greater
than `L`, so that between 1 and `r` bytes are added, a whole block of `r` when
`r` divides `L`.  The first `L` bytes are the input.  When one byte is added it
is `0x86`; when more are added the byte at index `L` is `0x06`, the last byte is
`0x80` and every byte between them is zero. -/
theorem pad_shape (input : List Byte) (r : Nat) (hr : 1 ≤ r) :
    ∃ padded, pad input (r : Int) = some padded ∧
      padded.length % r = 0 ∧ input.length < padded.length ∧
      (∀ m, m % r = 0 → input.length < m → padded.length ≤ m) ∧
      1 ≤ padded.length - input.length ∧ padded.length - input.length ≤ r ∧
      (input.length % r = 0 → padded.length = input.length + r) ∧
      padded.take input.length = input ∧
      (padded.length - input.length = 1 → padded[input.length]? = some 0x86) ∧
      (1 < padded.length - input.length →
        padded[input.length]? = some 0x06 ∧ padded[padded.length - 1]? = some 0x80 ∧
        ∀ j, input.length < j → j < padded.length - 1 → padded[j]? = some 0) := by
  have hlt : input.length % r < r := Nat.mod_lt _ (by omega)
  have hn1 : 1 ≤ r - input.length % r := by omega
  have hlen : (input ++ paddingBytes (r - input.length % r)).length
      = input.length + (r - input.length % r) := by
    rw [List.length_append, paddingBytes_length _ hn1]
  have hmul := padded_length input.length r hr
  refine ⟨_, pad_eq input r hr, ?_, ?_, ?_, ?_, ?_, ?_, ?_, ?_, ?_⟩
  · rw [hlen, hmul]; exact Nat.mul_mod_right _ _
  · rw [hlen]; omega
  · intro m hm hLm
    rw [hlen, hmul]
    have h1 := Nat.div_add_mod m r
    rw [hm, Nat.add_zero] at h1
    have h2 : input.length / r < m / r := by
      apply Nat.div_lt_of_lt_mul
      rw [h1]; exact hLm
    calc r * (input.length / r + 1) ≤ r * (m / r) := Nat.mul_le_mul_left _ h2
      _ = m := h1
  · rw [hlen]; omega
  · rw [hlen]; omega
  · intro h0; rw [hlen, h0]; omega
  · rw [List.take_left]
  · intro h1
    rw [hlen] at h1
    rw [List.getElem?_append_right (le_refl _), Nat.sub_self]
    exact (paddingBytes_head _).1 (by omega)
  · intro h1
    rw [hlen] at h1 ⊢
    refine ⟨?_, ?_, ?_⟩
    · rw [List.getElem?_append_right (le_refl _), Nat.sub_self]
      exact (paddingBytes_head _).2 (by omega)
    · rw [List.getElem?_append_right (by omega)]
      have : input.length + (r - input.length % r) - 1 - input.length
          = (r - input.length % r) - 1 := by omega
      rw [this]
      exact paddingBytes_last _ (by omega)
    · intro j hj1 hj2
      rw [List.getElem?_append_right (by omega)]
      exact paddingBytes_mid _ _ (by omega) (by omega)

/-- The witness of C11: three bytes at rate 4, where one byte is added. -/
theorem pad_shape_witness :
    1 ≤ 4 ∧ ∃ padded, pad ([1, 2, 3] : List Byte) ((4 : Nat) : Int) = some padded ∧
      padded.length % 4 = 0 ∧ ([1, 2, 3] : List Byte).length < padded.length ∧
      (∀ m, m % 4 = 0 → ([1, 2, 3] : List Byte).length < m → padded.length ≤ m) ∧
      1 ≤ padded.length - ([1, 2, 3] : List Byte).length ∧
      padded.length - ([1, 2, 3] : List Byte).length ≤ 4 ∧
      (([1, 2, 3] : List Byte).length % 4 = 0 →
        padded.length = ([1, 2, 3] : List Byte).length + 4) ∧
      padded.take ([1, 2, 3] : List Byte).length = [1, 2, 3] ∧
      (padded.length - ([1, 2, 3] : List Byte).length = 1 →
        padded[([1, 2, 3] : List Byte).length]? = some 0x86) ∧
      (1 < padded.length - ([1, 2, 3] : List Byte).length →
        padded[([1, 2, 3] : List Byte).length]? = some 0x06 ∧
        padded[padded.length - 1]? = some 0x80 ∧
        ∀ j, ([1, 2, 3] : List Byte).length < j → j < padded.length - 1 →
          padded[j]? = some 0) :=
  ⟨by decide, pad_shape [1, 2, 3] 4 (by decide)⟩

end PadShape

section PadInjective

/-- Two padded messages whose inputs differ in length differ at the index where
the longer input ends: the longer one holds its domain byte there, the shorter
one a zero or the final bit. -/
theorem pad_append_ne (a b : List Byte) (na nb : Nat) (hlt : a.length < b.length)
    (hnb : 1 ≤ nb) (hlen : a.length + na = b.length + nb) :
    a ++ paddingBytes na ≠ b ++ paddingBytes nb := by
  intro h
  have h1 : (a ++ paddingBytes na)[b.length]? = (b ++ paddingBytes nb)[b.length]? := by rw [h]
  rw [List.getElem?_append_right (by omega), List.getElem?_append_right (le_refl _),
    Nat.sub_self] at h1
  have hb : (paddingBytes nb)[0]? = some 0x86 ∨ (paddingBytes nb)[0]? = some 0x06 := by
    by_cases h2 : nb ≤ 1
    · exact Or.inl ((paddingBytes_head nb).1 h2)
    · exact Or.inr ((paddingBytes_head nb).2 (by omega))
  have ha : (paddingBytes na)[b.length - a.length]? = some 0x80 ∨
      (paddingBytes na)[b.length - a.length]? = some 0 := by
    by_cases h2 : b.length - a.length = na - 1
    · rw [h2]; exact Or.inl (paddingBytes_last na (by omega))
    · exact Or.inr (paddingBytes_mid na _ (by omega) (by omega))
  rcases ha with ha | ha <;> rcases hb with hb | hb <;> rw [ha, hb] at h1 <;>
    exact absurd (Option.some.inj h1) (by decide)

/-- C19.  At every fixed rate `r ≥ 1`, `pad` is injective: two different inputs,
of equal or of different lengths, never get the same padded message. -/
theorem pad_injective (r : Nat) (hr : 1 ≤ r) (a b : List Byte) (hab : a ≠ b) :
    pad a (r : Int) ≠ pad b (r : Int) := by
  rw [pad_eq a r hr, pad_eq b r hr]
  intro h
  have h := Option.some.inj h
  have ha : a.length % r < r := Nat.mod_lt _ (by omega)
  have hb : b.length % r < r := Nat.mod_lt _ (by omega)
  have hl : (a ++ paddingBytes (r - a.length % r)).length
      = (b ++ paddingBytes (r - b.length % r)).length := by rw [h]
  rw [List.length_append, List.length_append, paddingBytes_length _ (by omega),
    paddingBytes_length _ (by omega)] at hl
  rcases Nat.lt_trichotomy a.length b.length with hlt | heq | hgt
  · exact pad_append_ne a b _ _ hlt (by omega) hl h
  · exact hab (List.append_inj h heq).1
  · exact pad_append_ne b a _ _ hgt (by omega) hl.symm h.symm

/-- The witness of C19: at rate 4 the input `06` and the input `06 06`, which
continues the first one by the byte that padding would add. -/
theorem pad_injective_witness :
    1 ≤ 4 ∧ ([6] : List Byte) ≠ [6, 6] ∧
      pad ([6] : List Byte) ((4 : Nat) : Int) ≠ pad ([6, 6] : List Byte) ((4 : Nat) : Int) :=
  ⟨by decide, by decide, pad_injective 4 (by decide) [6] [6, 6] (by decide)⟩

end PadInjective

/-! ## Keccak: the rotation of a lane -/

section Rotation

theorem testBit_of_lt_two_pow_64 (x : Nat) (hx : x < 2 ^ 64) (k : Nat) (hk : 64 ≤ k) :
    x.testBit k = false :=
  Nat.testBit_lt_two_pow (lt_of_lt_of_le hx (Nat.pow_le_pow_right (by decide) hk))

theorem rol_zero (x : Nat) (hx : x < 2 ^ 64) : rol x 0 = x := by
  unfold rol
  rw [if_neg (by omega), Nat.shiftLeft_zero, Nat.mod_eq_of_lt hx, Nat.or_zero]

theorem rol_lt (x n : Nat) (hx : x < 2 ^ 64) : rol x n < 2 ^ 64 := by
  unfold rol
  apply Nat.or_lt_two_pow (Nat.mod_lt _ (by decide))
  split
  · rw [Nat.shiftRight_eq_div_pow]
    exact lt_of_le_of_lt (Nat.div_le_self _ _) hx
  · decide

theorem rol_testBit (x n : Nat) (hx : x < 2 ^ 64) (hn : n ≤ 63) (i : Nat) (hi : i < 64) :
    (rol x n).testBit ((i + n) % 64) = x.testBit i := by
  rcases Nat.eq_zero_or_pos n with h0 | hpos
  · subst h0
    rw [rol_zero x hx, Nat.add_zero, Nat.mod_eq_of_lt hi]
  unfold rol
  rw [if_pos ⟨by omega, by omega⟩, Nat.testBit_or, Nat.testBit_mod_two_pow,
    Nat.testBit_shiftLeft, Nat.testBit_shiftRight]
  by_cases hc : i + n < 64
  · have hj : (i + n) % 64 = i + n := Nat.mod_eq_of_lt hc
    rw [hj]
    have h1 : 64 - n + (i + n) = 64 + i := by omega
    rw [h1, testBit_of_lt_two_pow_64 x hx (64 + i) (by omega), Nat.add_sub_cancel]
    simp [hc]
  · have hj : (i + n) % 64 = i + n - 64 := by omega
    rw [hj]
    have h1 : 64 - n + (i + n - 64) = i := by omega
    rw [h1]
    have h2 : ¬ (i + n - 64 ≥ n) := by omega
    simp [h2]

/-- C13.  On a 64-bit value `rol` is a left rotation for every count from 0 to
63: the result is a 64-bit value, a rotation by 0 returns the value itself (the
right shift by 64 contributes nothing), and bit `i` of `x` is bit
`(i + n) mod 64` of `rol(x, n)`. -/
theorem rol_is_rotation (x : Nat) (hx : x < 2 ^ 64) :
    rol x 0 = x ∧
      ∀ n, n ≤ 63 → rol x n < 2 ^ 64 ∧
        ∀ i, i < 64 → (rol x n).testBit ((i + n) % 64) = x.testBit i :=
  ⟨rol_zero x hx, fun n hn => ⟨rol_lt x n hx, fun i hi => rol_testBit x n hx hn i hi⟩⟩

/-- The witness of C13: the value with the top and the bottom bit set. -/
theorem rol_is_rotation_witness :
    0x8000000000000001 < 2 ^ 64 ∧ rol 0x8000000000000001 0 = 0x8000000000000001 ∧
      ∀ n, n ≤ 63 → rol 0x8000000000000001 n < 2 ^ 64 ∧
        ∀ i, i < 64 →
          (rol 0x8000000000000001 n).testBit ((i + n) % 64)
            = (0x8000000000000001 : Nat).testBit i :=
  ⟨by decide, rol_is_rotation 0x8000000000000001 (by decide)⟩

end Rotation

/-! ## Keccak: the step between theta and chi -/

section RhoInPlace

theorem mapM_option_eq_map {α β : Type} (f : α → Option β) (g : α → β) (l : List α)
    (h : ∀ a ∈ l, f a = some (g a)) : l.mapM f = some (l.map g) := by
  induction l with
  | nil => rfl
  | cons a l ih =>
    rw [List.mapM_cons, h a (List.mem_cons_self a l),
      ih (fun x hx => h x (List.mem_cons_of_mem a hx))]
    rfl

/-- The rotation loop in closed form: lane `i` of `b` is lane `i` of the state
rotated by `rhoOffsets[i]`, at the same index. -/
theorem rhoB_eq (state : List Nat) (h : state.length = 25) :
    rhoB state
      = some ((List.range 25).map (fun i => rol (state.getD i 0) (rhoOffsets.getD i 0))) := by
  unfold rhoB
  apply mapM_option_eq_map
  intro i hi
  have hi : i < 25 := List.mem_range.mp hi
  have h0 : state[i]? = some (state.getD i 0) := by
    rw [List.getD_eq_getElem?_getD, List.getElem?_eq_getElem (by omega)]; rfl
  have h1 : rhoOffsets[i]? = some (rhoOffsets.getD i 0) := by
    rw [List.getD_eq_getElem?_getD, List.getElem?_eq_getElem (by simpa [rhoOffsets] using hi)]
    rfl
  show (do pure (rol (← state[i]?) (← rhoOffsets[i]?))) = _
  rw [h0, h1]
  rfl

/-- The counterexample to C12: on the state whose lane 1 is 1 and whose other
lanes are 0, the rotation loop leaves the rotated lane at index 1, where the
standard moves it to index 10, and the round of the program differs from the
standard round. -/
theorem keccakRound_no_pi :
    rhoB ((List.replicate 25 0).set 1 1) = some ((List.replicate 25 0).set 1 2) ∧
      standardRhoPi ((List.replicate 25 0).set 1 1) = (List.replicate 25 0).set 10 2 ∧
      keccakRound ((List.replicate 25 0).set 1 1) 0
        ≠ standardRound ((List.replicate 25 0).set 1 1) 0 := by
  refine ⟨by decide, by decide, by decide⟩

/-- C12, as amended.  In every round of `keccakF`, on 25 lanes, the step after
theta rotates each lane `i` left by `rhoOffsets[i]` and keeps it at the index
`i`: the slice `b` that chi reads holds at every index the rotated lane of the
same index, no lane is relocated, and the round is theta, this rotation, chi and
iota. -/
theorem keccakRound_rho_in_place (state : List Nat) (round : Nat) (h : state.length = 25)
    (hr : round < 24) :
    ∃ t bs out, (thetaC state >>= thetaD >>= thetaXor state) = some t ∧ t.length = 25 ∧
      rhoB t = some bs ∧ bs.length = 25 ∧
      (∀ i, i < 25 → bs[i]? = some (rol (t.getD i 0) (rhoOffsets.getD i 0))) ∧
      (chi t bs >>= fun s => iota s round) = some out ∧
      keccakRound state round = some out := by
  obtain ⟨cs, hcs, hcl⟩ := thetaC_total state h
  obtain ⟨ds, hds, hdl⟩ := thetaD_total cs hcl
  obtain ⟨t, ht, hl⟩ := thetaXor_total state ds h hdl
  obtain ⟨s2, hs2, hl2⟩ := chi_total t _ hl
    (show ((List.range 25).map
      (fun i => rol (t.getD i 0) (rhoOffsets.getD i 0))).length = 25 by simp)
  obtain ⟨out, hout, _⟩ := iota_total s2 round hl2 hr
  refine ⟨t, _, out, ?_, hl, rhoB_eq t hl, by simp, ?_, ?_, ?_⟩
  · simp [hcs, hds, ht]
  · intro i hi
    rw [List.getElem?_map, List.getElem?_range hi]
    rfl
  · show (chi t _).bind _ = _
    rw [hs2]; exact hout
  · unfold keccakRound
    simp only [hcs, hds, ht, rhoB_eq t hl, Option.bind_eq_bind, Option.some_bind]
    rw [hs2]; exact hout

/-- The witness of C12 as amended: round 0 on the state whose lane 1 is 1. -/
theorem keccakRound_rho_in_place_witness :
    ((List.replicate 25 0).set 1 1 : List Nat).length = 25 ∧ 0 < 24 ∧
    ∃ t bs out, (thetaC ((List.replicate 25 0).set 1 1) >>= thetaD
        >>= thetaXor ((List.replicate 25 0).set 1 1)) = some t ∧ t.length = 25 ∧
      rhoB t = some bs ∧ bs.length = 25 ∧
      (∀ i, i < 25 → bs[i]? = some (rol (t.getD i 0) (rhoOffsets.getD i 0))) ∧
      (chi t bs >>= fun s => iota s 0) = some out ∧
      keccakRound ((List.replicate 25 0).set 1 1) 0 = some out :=
  ⟨by decide, by decide,
    keccakRound_rho_in_place ((List.replicate 25 0).set 1 1) 0 (by decide) (by decide)⟩

end RhoInPlace

/-! ## Keccak: what `absorb` reads of a block -/

section BlockTail

theorem foldlM_option_congr {σ α : Type} (f g : σ → α → Option σ) (l : List α) (s : σ)
    (h : ∀ s a, a ∈ l → f s a = g s a) : l.foldlM f s = l.foldlM g s := by
  induction l generalizing s with
  | nil => rfl
  | cons a l ih =>
    rw [List.foldlM_cons, List.foldlM_cons, h s a (List.mem_cons_self a l)]
    congr 1
    funext s1
    exact ih s1 (fun s x hx => h s x (List.mem_cons_of_mem a hx))

/-- A slice expression reads only the elements between its bounds. -/
theorem subslice_congr {α : Type} (m m' : List α) (lo hi : Nat) (hlen : m.length = m'.length)
    (h : ∀ p, lo ≤ p → p < hi → m[p]? = m'[p]?) : subslice m lo hi = subslice m' lo hi := by
  unfold subslice
  rw [hlen]
  by_cases hc : lo ≤ hi ∧ hi ≤ m'.length
  · rw [if_pos hc, if_pos hc]
    congr 1
    apply List.ext_getElem?
    intro i
    by_cases hi : i < hi - lo
    · rw [List.getElem?_take_of_lt hi, List.getElem?_take_of_lt hi, List.getElem?_drop,
        List.getElem?_drop]
      exact h (lo + i) (by omega) (by omega)
    · rw [List.getElem?_take_eq_none (by omega), List.getElem?_take_eq_none (by omega)]
  · rw [if_neg hc, if_neg hc]

/-- The inner loop of `absorb` reads `8 * words` bytes from the offset on. -/
theorem absorbBlock_congr (m m' : List Byte) (offset words : Nat) (state : List Nat)
    (hlen : m.length = m'.length)
    (h : ∀ j, j < 8 * words → m[offset + j]? = m'[offset + j]?) :
    absorbBlock m offset words state = absorbBlock m' offset words state := by
  unfold absorbBlock
  apply foldlM_option_congr
  intro st i hi
  have hi : i < words := List.mem_range.mp hi
  have hs : subslice m (offset + i * 8) (offset + i * 8 + 8)
      = subslice m' (offset + i * 8) (offset + i * 8 + 8) := by
    apply subslice_congr m m' _ _ hlen
    intro p hp1 hp2
    have := h (p - offset) (by omega)
    rwa [show offset + (p - offset) = p by omega] at this
  rw [hlen, hs]

/-- The outer loop of `absorb`, started at a multiple of the block size, does
not read the bytes beyond the last whole word of a block. -/
theorem absorbLoop_congr (m m' : List Byte) (r : Nat)
    (hlen : m.length = m'.length)
    (h : ∀ p, p % r < 8 * (r / 8) → m[p]? = m'[p]?) (n : Nat) :
    ∀ (k : Nat) (state : List Nat),
      absorbLoop m r n (k * r) state = absorbLoop m' r n (k * r) state := by
  induction n with
  | zero => intro k state; rfl
  | succ n ih =>
    intro k state
    have hb := absorbBlock_congr m m' (k * r) (r / 8) state hlen (by
      intro j hj
      apply h
      rw [Nat.mul_add_mod_of_lt (by omega)]
      exact hj)
    have hk : k * r + r = (k + 1) * r := by rw [Nat.add_mul, Nat.one_mul]
    unfold absorbLoop
    rw [hb, hk]
    congr 1
    funext s1
    congr 1
    funext s2
    exact ih (k + 1) s2

theorem absorb_congr (state : List Nat) (m m' : List Byte) (r : Nat)
    (hlen : m.length = m'.length)
    (h : ∀ p, p % r < 8 * (r / 8) → m[p]? = m'[p]?) :
    absorb state m (r : Int) = absorb state m' (r : Int) := by
  unfold absorb
  rw [hlen]
  by_cases h0 : m'.length = 0
  · rw [if_pos h0, if_pos h0]
  · rw [if_neg h0, if_neg h0]
    by_cases hr : (r : Int) ≤ 0
    · rw [if_pos hr, if_pos hr]
    · rw [if_neg hr, if_neg hr]
      simp only [Int.toNat_ofNat]
      have := absorbLoop_congr m m' r hlen h ((m'.length + r - 1) / r) 0 state
      rwa [Nat.zero_mul] at this

/-- Two inputs of one length that agree wherever `absorb` reads have padded
messages that agree there too, and so the same digest. -/
theorem Hash_congr (k : Keccak) (outputLengthBits : Int) (r : Nat) (hr : 1 ≤ r)
    (hrate : (r : Int) = Int.tdiv (1600 - 2 * outputLengthBits) 8) (a b : List Byte)
    (hlen : a.length = b.length)
    (h : ∀ p, p % r < 8 * (r / 8) → a[p]? = b[p]?) :
    Hash k a outputLengthBits = Hash k b outputLengthBits := by
  unfold Hash
  simp only [← hrate, pad_eq a r hr, pad_eq b r hr, Option.bind_eq_bind, Option.some_bind]
  have habs : ∀ state, absorb state (a ++ paddingBytes (r - a.length % r)) (r : Int)
      = absorb state (b ++ paddingBytes (r - b.length % r)) (r : Int) := by
    intro state
    apply absorb_congr
    · rw [List.length_append, List.length_append, hlen]
    · intro p hp
      by_cases hpa : p < a.length
      · rw [List.getElem?_append_left hpa, List.getElem?_append_left (by omega)]
        exact h p hp
      · rw [List.getElem?_append_right (by omega), List.getElem?_append_right (by omega), hlen]
  rw [habs]

/-- C17.  For a digest length in bits that is a multiple of 8 and not of 32,
below 800, the rate in bytes is not a multiple of 8, and `absorb` does not read
the last `rate mod 8` bytes of any block of the size of the rate: two messages
of one length that agree outside these positions leave the same lanes, two
inputs of one length that agree outside them get the same result of `Hash`, and
there are two distinct inputs that get the same digest, without an error. -/
theorem absorb_ignores_block_tail (outputLengthBits : Int)
    (h8 : outputLengthBits % 8 = 0) (h32 : outputLengthBits % 32 ≠ 0)
    (h0 : 0 ≤ outputLengthBits) (h1 : outputLengthBits < 800) :
    ∃ rate : Nat, (rate : Int) = Int.tdiv (1600 - 2 * outputLengthBits) 8 ∧ rate % 8 ≠ 0 ∧
      (∀ (state : List Nat) (m m' : List Byte), m.length = m'.length →
        (∀ p, p % rate < rate - rate % 8 → m[p]? = m'[p]?) →
        absorb state m (rate : Int) = absorb state m' (rate : Int)) ∧
      (∀ (k : Keccak) (a b : List Byte), a.length = b.length →
        (∀ p, p % rate < rate - rate % 8 → a[p]? = b[p]?) →
        Hash k a outputLengthBits = Hash k b outputLengthBits) ∧
      ∃ (a b : List Byte) (digest : List Byte) (k' : Keccak), a ≠ b ∧
        Hash New a outputLengthBits = some ((digest, none), k') ∧
        Hash New b outputLengthBits = some ((digest, none), k') := by
  have hdiv : Int.tdiv (1600 - 2 * outputLengthBits) 8 = (1600 - 2 * outputLengthBits) / 8 :=
    Int.tdiv_eq_ediv (by omega) (by decide)
  have hout : Int.tdiv outputLengthBits 8 = outputLengthBits / 8 :=
    Int.tdiv_eq_ediv h0 (by decide)
  obtain ⟨rate, hrate⟩ : ∃ rate : Nat, (rate : Int) = (1600 - 2 * outputLengthBits) / 8 :=
    ⟨((1600 - 2 * outputLengthBits) / 8).toNat, by omega⟩
  have hr1 : 1 ≤ rate := by omega
  have htail : rate - rate % 8 = 8 * (rate / 8) := by omega
  have hH : ∀ (k : Keccak) (a b : List Byte), a.length = b.length →
      (∀ p, p % rate < rate - rate % 8 → a[p]? = b[p]?) →
      Hash k a outputLengthBits = Hash k b outputLengthBits := by
    intro k a b hlen h
    exact Hash_congr k outputLengthBits rate hr1 (by rw [hdiv]; exact hrate) a b hlen
      (fun p hp => h p (by omega))
  refine ⟨rate, by rw [hdiv]; exact hrate, by omega, ?_, hH, ?_⟩
  · intro state m m' hlen h
    exact absorb_congr state m m' rate hlen (fun p hp => h p (by omega))
  · obtain ⟨digest, st, hd, -, -⟩ := Hash_total New (List.replicate rate 0) outputLengthBits
      rfl (by simp [New]) (by rw [hdiv]; omega) (by rw [hdiv]; omega) (by rw [hout]; omega)
    have hne : List.replicate rate (0 : Byte)
        ≠ (List.replicate rate (0 : Byte)).set (rate - 1) 1 := by
      intro he
      have h2 : (List.replicate rate (0 : Byte))[rate - 1]?
          = ((List.replicate rate (0 : Byte)).set (rate - 1) 1)[rate - 1]? := by rw [← he]
      rw [List.getElem?_set_self (by simp; omega), List.getElem?_replicate,
        if_pos (by omega)] at h2
      exact absurd (Option.some.inj h2) (by decide)
    refine ⟨_, _, digest, _, hne, hd, ?_⟩
    rw [← hH New (List.replicate rate 0) ((List.replicate rate 0).set (rate - 1) 1) (by simp) ?_]
    · exact hd
    · intro p hp
      have hmod : (rate - 1) % rate = rate - 1 := Nat.mod_eq_of_lt (by omega)
      have hp1 : rate - 1 ≠ p := by
        intro he
        rw [← he, hmod] at hp
        omega
      rw [List.getElem?_set_ne hp1]

/-- The witness of C17: 8 bits of digest, where the rate is 198 bytes and the
last 6 bytes of a block are not read; the two inputs of 198 bytes differ at
index 192 only. -/
theorem absorb_ignores_block_tail_witness :
    (8 : Int) % 8 = 0 ∧ (8 : Int) % 32 ≠ 0 ∧ Int.tdiv (1600 - 2 * 8) 8 = 198 ∧
      List.replicate 198 (0 : Byte) ≠ (List.replicate 198 (0 : Byte)).set 192 1 ∧
      ∃ digest k', Hash New (List.replicate 198 0) 8 = some ((digest, none), k') ∧
        Hash New ((List.replicate 198 0).set 192 1) 8 = some ((digest, none), k') := by
  obtain ⟨rate, hrate, -, -, hH, -⟩ :=
    absorb_ignores_block_tail 8 (by decide) (by decide) (by decide) (by decide)
  have h198 : Int.tdiv (1600 - 2 * 8) 8 = 198 := by decide
  have hr : rate = 198 := by omega
  subst hr
  obtain ⟨digest, st, hd, -, -⟩ := Hash_total New (List.replicate 198 0) 8
    rfl (by decide) (by decide) (by decide) (by decide)
  refine ⟨by decide, by decide, h198, by decide, digest, _, hd, ?_⟩
  rw [← hH New (List.replicate 198 0) ((List.replicate 198 0).set 192 1) (by simp) ?_]
  · exact hd
  · intro p hp
    have hp1 : 192 ≠ p := by
      intro he
      rw [← he] at hp
      exact absurd hp (by decide)
    rw [List.getElem?_set_ne hp1]

end BlockTail

/-! ## The derivation of the key values -/

section Derivation

/-- A loop over `0 .. n-1` with an invariant that knows the loop index. -/
theorem foldlM_range_inv {σ : Type} (P : Nat → σ → Prop) (f : σ → Nat → Option σ) (n : Nat)
    (s : σ) (h0 : P 0 s)
    (hstep : ∀ i s, i < n → P i s → ∃ s', f s i = some s' ∧ P (i + 1) s') :
    ∃ s', (List.range n).foldlM f s = some s' ∧ P n s' := by
  induction n with
  | zero => exact ⟨s, rfl, h0⟩
  | succ n ih =>
    obtain ⟨s1, h1, hp1⟩ := ih (fun i s hi hp => hstep i s (by omega) hp)
    obtain ⟨s2, h2, hp2⟩ := hstep n s1 (by omega) hp1
    refine ⟨s2, ?_, hp2⟩
    rw [List.range_succ, List.foldlM_append, h1]
    simp [List.foldlM_cons, h2]

/-- The derived key values in closed form: the code of the byte at every index
but the last, and 0 at the last index. -/
theorem fnCharacterSetSecretKey_eq (anahtar : List Byte) :
    fnCharacterSetSecretKey anahtar = some ((List.range anahtar.length).map (fun i =>
      if i < anahtar.length - 1 then ((anahtar.getD i 0).val : Int) else 0)) := by
  unfold fnCharacterSetSecretKey
  obtain ⟨arr, harr, hl, hv⟩ := foldlM_range_inv
    (fun j (arr : List Int) => arr.length = anahtar.length ∧
      ∀ i, i < anahtar.length →
        arr[i]? = some (if i < j then ((anahtar.getD i 0).val : Int) else 0))
    (fun arr i => do
      let ch ← anahtar[i]?
      let hs : Int := 0
      let hs := Int.tmod (hs * 31 + (ch.val : Int)) 2147483647
      store arr i hs)
    (anahtar.length - 1) (List.replicate anahtar.length (0 : Int))
    ⟨by simp, by
      intro i hi
      rw [List.getElem?_replicate, if_pos hi, if_neg (by omega)]⟩
    (by
      intro j arr hj ⟨hl, hv⟩
      have hjl : j < anahtar.length := by omega
      have hval : Int.tmod (anahtar[j].val : Int) 2147483647 = (anahtar[j].val : Int) := by
        have := anahtar[j].isLt
        rw [Int.tmod_eq_emod (by omega) (by decide)]
        omega
      refine ⟨arr.set j (anahtar[j].val : Int), ?_, by simpa using hl, ?_⟩
      · simp [List.getElem?_eq_getElem hjl, hval, store, hl, hjl]
      · intro i hi
        by_cases hij : j = i
        · subst hij
          rw [List.getElem?_set_self (by omega), if_pos (by omega)]
          simp [List.getD_eq_getElem?_getD, List.getElem?_eq_getElem hjl]
        · rw [List.getElem?_set_ne hij, hv i hi]
          by_cases hlt : i < j
          · rw [if_pos hlt, if_pos (by omega)]
          · rw [if_neg hlt, if_neg (by omega)])
  rw [harr]
  congr 1
  apply List.ext_getElem?
  intro i
  by_cases hi : i < anahtar.length
  · rw [hv i hi, List.getElem?_map, List.getElem?_range hi]
    rfl
  · rw [List.getElem?_eq_none (by omega), List.getElem?_eq_none (by simp; omega)]

/-- The shuffle does not read the last key value. -/
theorem fnSuffleCharset_last_key (data : List Byte) (ks : List Int) (k k' : Int) :
    fnSuffleCharset data (ks ++ [k]) = fnSuffleCharset data (ks ++ [k']) := by
  unfold fnSuffleCharset
  have hl : (ks ++ [k]).length - 1 = ks.length := by simp
  have hl' : (ks ++ [k']).length - 1 = ks.length := by simp
  rw [hl, hl']
  have hf := foldlM_option_congr
    (fun (chars : List Rune) j => do shuffleInner (← (ks ++ [k])[j]?) (chars.length - 1) chars)
    (fun (chars : List Rune) j => do shuffleInner (← (ks ++ [k'])[j]?) (chars.length - 1) chars)
    (List.range ks.length) (stringToRunes data) (by
      intro s j hj
      have hj : j < ks.length := List.mem_range.mp hj
      simp only [List.getElem?_append_left hj])
  simp only [Option.bind_eq_bind] at hf ⊢
  rw [hf]

/-- C15.  The key derivation does not accumulate.  For every string `h`,
`fnCharacterSetSecretKey(h)` returns a slice of the length of `h` whose entry
`i` is the code of the byte `h[i]` for every `i < len(h) - 1`, whatever the
other bytes are, and whose last entry is 0.  The shuffle does not read the last
key value, and so the last character of the string has no influence on the
derived values nor on the shuffled alphabet. -/
theorem key_derivation_non_accumulating (h : List Byte) :
    ∃ keys, fnCharacterSetSecretKey h = some keys ∧ keys.length = h.length ∧
      (∀ i, i < h.length - 1 → keys[i]? = some ((h.getD i 0).val : Int)) ∧
      (h = [] ∨ keys[h.length - 1]? = some 0) ∧
      (∀ (data : List Byte) (ks : List Int) (k k' : Int),
        fnSuffleCharset data (ks ++ [k]) = fnSuffleCharset data (ks ++ [k'])) ∧
      (∀ (pre : List Byte) (c c' : Byte),
        fnCharacterSetSecretKey (pre ++ [c]) = fnCharacterSetSecretKey (pre ++ [c'])) ∧
      (∀ (pre : List Byte) (c c' : Byte) (data : List Byte),
        (fnCharacterSetSecretKey (pre ++ [c]) >>= fnSuffleCharset data)
          = (fnCharacterSetSecretKey (pre ++ [c']) >>= fnSuffleCharset data)) := by
  have hlast : ∀ (pre : List Byte) (c c' : Byte),
      fnCharacterSetSecretKey (pre ++ [c]) = fnCharacterSetSecretKey (pre ++ [c']) := by
    intro pre c c'
    rw [fnCharacterSetSecretKey_eq, fnCharacterSetSecretKey_eq]
    simp only [List.length_append, List.length_singleton, Nat.add_sub_cancel]
    congr 1
    apply List.map_congr_left
    intro i _
    by_cases hi : i < pre.length
    · rw [if_pos hi, if_pos hi]
      simp [List.getD_eq_getElem?_getD, List.getElem?_append_left hi]
    · rw [if_neg hi, if_neg hi]
  refine ⟨_, fnCharacterSetSecretKey_eq h, by simp, ?_, ?_, fnSuffleCharset_last_key, hlast, ?_⟩
  · intro i hi
    rw [List.getElem?_map, List.getElem?_range (by omega)]
    simp [hi]
  · by_cases he : h = []
    · exact Or.inl he
    · right
      have hpos : 0 < h.length := List.length_pos.mpr he
      rw [List.getElem?_map, List.getElem?_range (by omega)]
      simp
  · intro pre c c' data
    rw [hlast pre c c']

end Derivation

/-! ## The shuffled array, and two invariants of a constructed codec -/

section ShuffleArray

/-- One turn of the inner loop of the shuffle, for a key value in the range of
the derivation: the positions `i + 1` and `(i + 1) * k mod len(characters)` are
exchanged. -/
theorem shuffleInner_step (k : Nat) (hk : k < 2147483647) (i : Nat) (characters : List Nat)
    (hi : i + 1 < characters.length) (hlen : characters.length ≤ 2147483647) :
    shuffleInner (k : Int) (i + 1) characters
      = shuffleInner (k : Int) i
          ((characters.set (i + 1) (characters.getD ((i + 1) * k % characters.length) 0)).set
            ((i + 1) * k % characters.length) (characters.getD (i + 1) 0)) := by
  have hn : characters.length ≠ 0 := by omega
  have hprod0 : 0 ≤ ((i + 1 : Nat) : Int) * (k : Int) :=
    Int.mul_nonneg (Int.ofNat_nonneg _) (Int.ofNat_nonneg _)
  have hprod1 : ((i + 1 : Nat) : Int) * (k : Int) < 2 ^ 63 := by
    have h1 : ((i + 1 : Nat) : Int) ≤ 2147483647 := by omega
    have h2 : (k : Int) ≤ 2147483647 := by omega
    have : ((i + 1 : Nat) : Int) * (k : Int) ≤ 2147483647 * 2147483647 :=
      Int.mul_le_mul h1 h2 (Int.ofNat_nonneg _) (by decide)
    have h3 : (2147483647 : Int) * 2147483647 < 2 ^ 63 := by norm_num
    omega
  have hx : Int.tmod (wrapInt (((i + 1 : Nat) : Int) * (k : Int))) (characters.length : Int)
      = (((i + 1) * k % characters.length : Nat) : Int) := by
    rw [wrapInt_eq _ hprod0 hprod1, Int.tmod_eq_emod hprod0 (Int.ofNat_nonneg _),
      Int.natCast_mod, Int.natCast_mul]
  have hxn : (i + 1) * k % characters.length < characters.length := Nat.mod_lt _ (by omega)
  have hg1 : characters.getD (i + 1) 0 = characters[i + 1] := by
    simp [List.getD_eq_getElem?_getD, List.getElem?_eq_getElem hi]
  have hg2 : characters.getD ((i + 1) * k % characters.length) 0
      = characters[(i + 1) * k % characters.length] := by
    simp [List.getD_eq_getElem?_getD, List.getElem?_eq_getElem hxn]
  rw [hg1, hg2]
  conv_lhs => unfold shuffleInner
  simp only [hn, hx, index, storeInt, store, if_true, if_false, Int.toNat_ofNat,
    Int.ofNat_nonneg, List.getElem?_eq_getElem hi, List.getElem?_eq_getElem hxn, hi,
    List.length_set, hxn, Option.bind_eq_bind, Option.some_bind, Option.pure_def]

/-- What `SetSecretKey` does with a non-empty key, step by step: the digest in
hexadecimal, the derived values, the shuffled string of 91 characters, and the
codec made of its first 64 characters and its 65th. -/
theorem SetSecretKey_trace (sb : SecureBase) (secretkey : List Byte) (hkey : secretkey ≠ []) :
    ∃ (hash : List Byte) (keys : List Int) (s : List Byte),
      computeHash secretkey 512 = some hash ∧ fnCharacterSetSecretKey hash = some keys ∧
      (∀ k ∈ keys, 0 ≤ k ∧ k < 2147483647) ∧
      fnSuffleCharset defcharset keys = some s ∧ s.length = 91 ∧ s.Perm defcharset ∧
      SetSecretKey sb secretkey = some
        { globalcharset := s.take 64, padding := (s.getD 64 0).val,
          gencoding := sb.gencoding } := by
  obtain ⟨hash, hhash⟩ := computeHash_total secretkey
  obtain ⟨keys, hkeys, -, hkb⟩ := fnCharacterSetSecretKey_total hash
  obtain ⟨s, hs, hperm⟩ := fnSuffleCharset_perm defcharset keys defcharset_ascii
    (by rw [defcharset_length]; decide) hkb
  have hlen : s.length = 91 := by rw [hperm.length_eq, defcharset_length]
  have hascii : ∀ b ∈ s, b.val < 0x80 := fun b hb => defcharset_ascii b (hperm.mem_iff.mp hb)
  refine ⟨hash, keys, s, hhash, hkeys, hkb, hs, hlen, hperm, ?_⟩
  have hne : secretkey.length ≠ 0 := fun h => hkey (List.length_eq_zero.mp h)
  have htail : subslice s 64 s.length = some (s.drop 64) := by
    unfold subslice
    rw [if_pos ⟨by omega, le_refl _⟩]
    congr 1
    exact List.take_of_length_le (by simp)
  have hhead : subslice s 0 64 = some (s.take 64) := by
    unfold subslice
    rw [if_pos ⟨by omega, by omega⟩]
    rfl
  have hrunes : (stringToRunes (s.drop 64))[0]? = some (s.getD 64 0).val := by
    rw [stringToRunes_ascii _ (fun b hb => hascii b (List.mem_of_mem_drop hb)),
      List.getElem?_map, List.getElem?_drop]
    simp [List.getD_eq_getElem?_getD, List.getElem?_eq_getElem (show 64 < s.length by omega)]
  simp only [SetSecretKey, hne, ne_eq, not_false_eq_true, if_true, prSuffleCharset, hhash, hkeys,
    hs, Option.bind_eq_bind, Option.some_bind, Option.pure_def, htail, hrunes, hhead]

/-- In a string of 91 distinct characters the 65th is not the last. -/
theorem not_last_of_nodup (s : List Byte) (hlen : s.length = 91) (hnd : s.Nodup) :
    s.getLast? ≠ s[64]? := by
  rw [List.getLast?_eq_getElem?, hlen, List.getElem?_eq_getElem (show 90 < s.length by omega),
    List.getElem?_eq_getElem (show 64 < s.length by omega)]
  intro h
  have h1 := (List.Nodup.getElem_inj_iff hnd).mp (Option.some.inj h)
  omega

/-- The counterexample to C14.  The array that is shuffled holds the 91
characters of `defcharset`, not 65.  With the key "a" the padding is the 65th
character of a shuffled string of 91, which is not its last one.  With the key
value 1 the first swap of a pass, at `i = 90`, has the index `90 mod 91 = 90`,
where a modulus of 65 would give 25, and the whole pass leaves the string as it
is. -/
theorem shuffle_array_not_65 :
    (stringToRunes defcharset).length = 91 ∧ (stringToRunes defcharset).length ≠ 65 ∧
      (∃ s : List Byte, s.length = 91 ∧
        SetSecretKey (NewSecureBase SBEncoding.UTF8) (lit "a") = some
          { globalcharset := s.take 64, padding := (s.getD 64 0).val,
            gencoding := SBEncoding.UTF8 } ∧
        s.getLast? ≠ s[64]?) ∧
      Int.tmod (wrapInt (((90 : Nat) : Int) * 1)) ((stringToRunes defcharset).length : Int) = 90 ∧
      (((90 : Nat) : Int) * 1) % 65 = 25 ∧
      fnSuffleCharset defcharset [1, 0] = some defcharset := by
  obtain ⟨-, -, s, -, -, -, -, hlen, hperm, hset⟩ :=
    SetSecretKey_trace (NewSecureBase SBEncoding.UTF8) (lit "a") (by decide)
  exact ⟨by decide, by decide,
    ⟨s, hlen, hset, not_last_of_nodup s hlen (hperm.nodup_iff.mpr defcharset_nodup)⟩,
    by decide, by decide, by decide⟩

/-- C14, as amended.  For a non-empty secret key the shuffle works on the array
of all 91 characters of `defcharset`; in a pass with a derived key value `k`
the turn at position `i + 1` exchanges that position with the position
`(i + 1) * k mod 91`; the padding symbol taken afterwards is the 65th character
of the shuffled string of 91, which is not its last character, and the alphabet
is its first 64 characters. -/
theorem shuffle_on_91 (sb : SecureBase) (secretkey : List Byte) (hkey : secretkey ≠ []) :
    (stringToRunes defcharset).length = 91 ∧
      (∀ (k i : Nat) (characters : List Nat), characters.length = 91 → i + 1 < 91 →
        k < 2147483647 →
        shuffleInner (k : Int) (i + 1) characters
          = shuffleInner (k : Int) i
              ((characters.set (i + 1) (characters.getD ((i + 1) * k % 91) 0)).set
                ((i + 1) * k % 91) (characters.getD (i + 1) 0))) ∧
      ∃ (hash : List Byte) (keys : List Int) (s : List Byte),
        computeHash secretkey 512 = some hash ∧ fnCharacterSetSecretKey hash = some keys ∧
        (∀ k ∈ keys, 0 ≤ k ∧ k < 2147483647) ∧
        fnSuffleCharset defcharset keys = some s ∧ s.length = 91 ∧ s.Perm defcharset ∧
        SetSecretKey sb secretkey = some
          { globalcharset := s.take 64, padding := (s.getD 64 0).val,
            gencoding := sb.gencoding } ∧
        (s.take 64).length = 64 ∧ s[64]? = some (s.getD 64 0) ∧ s.getLast? ≠ s[64]? := by
  refine ⟨by decide, ?_, ?_⟩
  · intro k i characters hlen hi hk
    have := shuffleInner_step k hk i characters (by omega) (by omega)
    rwa [hlen] at this
  · obtain ⟨hash, keys, s, hhash, hkeys, hkb, hs, hlen, hperm, hset⟩ :=
      SetSecretKey_trace sb secretkey hkey
    refine ⟨hash, keys, s, hhash, hkeys, hkb, hs, hlen, hperm, hset, by simp [hlen], ?_,
      not_last_of_nodup s hlen (hperm.nodup_iff.mpr defcharset_nodup)⟩
    simp [List.getD_eq_getElem?_getD, List.getElem?_eq_getElem (show 64 < s.length by omega)]

/-- The witness of C14 as amended: the key "a" on a narrow codec. -/
theorem shuffle_on_91_witness :
    lit "a" ≠ [] ∧ (stringToRunes defcharset).length = 91 ∧
      (∀ (k i : Nat) (characters : List Nat), characters.length = 91 → i + 1 < 91 →
        k < 2147483647 →
        shuffleInner (k : Int) (i + 1) characters
          = shuffleInner (k : Int) i
              ((characters.set (i + 1) (characters.getD ((i + 1) * k % 91) 0)).set
                ((i + 1) * k % 91) (characters.getD (i + 1) 0))) ∧
      ∃ (hash : List Byte) (keys : List Int) (s : List Byte),
        computeHash (lit "a") 512 = some hash ∧ fnCharacterSetSecretKey hash = some keys ∧
        (∀ k ∈ keys, 0 ≤ k ∧ k < 2147483647) ∧
        fnSuffleCharset defcharset keys = some s ∧ s.length = 91 ∧ s.Perm defcharset ∧
        SetSecretKey (NewSecureBase SBEncoding.UTF8) (lit "a") = some
          { globalcharset := s.take 64, padding := (s.getD 64 0).val,
            gencoding := (NewSecureBase SBEncoding.UTF8).gencoding } ∧
        (s.take 64).length = 64 ∧ s[64]? = some (s.getD 64 0) ∧ s.getLast? ≠ s[64]? :=
  ⟨by decide, shuffle_on_91 (NewSecureBase SBEncoding.UTF8) (lit "a") (by decide)⟩

end ShuffleArray

section Invariants

/-- On a well formed codec the padding rune is none of the alphabet runes, and
no byte of the alphabet string has its code. -/
theorem wf_padding_fresh (sb : SecureBase) (hw : WellFormed sb) :
    (stringToRunes sb.globalcharset).length = 64 ∧
      sb.padding ∉ stringToRunes sb.globalcharset ∧
      ∀ b ∈ sb.globalcharset, b.val ≠ sb.padding :=
  ⟨(wellFormed_runes sb hw).2.1, (wellFormed_runes sb hw).2.2.2.2, hw.padFresh⟩

/-- C16.  For every codec that a constructor returns, and for every codec after
`SetSecretKey` with any key, empty or not, the alphabet has 64 runes and the
padding rune is none of them; the same holds byte by byte of the alphabet
string.  The calls do not panic. -/
theorem padding_not_in_alphabet (enc : SBEncoding) (sb : SecureBase) (secretkey : List Byte) :
    ((stringToRunes (NewSecureBase enc).globalcharset).length = 64 ∧
      (NewSecureBase enc).padding ∉ stringToRunes (NewSecureBase enc).globalcharset ∧
      ∀ b ∈ (NewSecureBase enc).globalcharset, b.val ≠ (NewSecureBase enc).padding) ∧
    (∃ sb', NewSecureBaseWithKey enc secretkey = some sb' ∧
      (stringToRunes sb'.globalcharset).length = 64 ∧
      sb'.padding ∉ stringToRunes sb'.globalcharset ∧
      ∀ b ∈ sb'.globalcharset, b.val ≠ sb'.padding) ∧
    (∃ sb', SetSecretKey sb secretkey = some sb' ∧
      (stringToRunes sb'.globalcharset).length = 64 ∧
      sb'.padding ∉ stringToRunes sb'.globalcharset ∧
      ∀ b ∈ sb'.globalcharset, b.val ≠ sb'.padding) := by
  refine ⟨wf_padding_fresh _ (NewSecureBase_wellFormed enc), ?_, ?_⟩
  · obtain ⟨sb', hsb, hw, -⟩ := SetSecretKey_wellFormed
      { globalcharset := [], padding := 0, gencoding := enc } secretkey
    exact ⟨sb', hsb, wf_padding_fresh sb' hw⟩
  · obtain ⟨sb', hsb, hw, -⟩ := SetSecretKey_wellFormed sb secretkey
    exact ⟨sb', hsb, wf_padding_fresh sb' hw⟩

/-- On a well formed codec the body of `processEncoding` does not panic, and
neither `processEncoding` nor `Encode` returns an error. -/
theorem wf_encode_ok (sb : SecureBase) (hw : WellFormed sb) (input : List Byte) :
    (∃ symbols, encodeSymbols sb input = some symbols) ∧
      (processEncoding sb input).2 = none ∧ (Encode sb input).2 = none := by
  have hp : ∀ x, (processEncoding sb x).2 = none := by
    intro x
    rw [(processEncoding_wf sb hw x).2]
  refine ⟨⟨_, (processEncoding_wf sb hw input).1⟩, hp input, ?_⟩
  unfold Encode
  by_cases hmode : sb.gencoding = SBEncoding.UNICODE
  · rw [if_pos hmode]
    have := hp (stringToUTF16LE input)
    generalize processEncoding sb (stringToUTF16LE input) = res at this
    obtain ⟨bytes, err⟩ := res
    simp only at this
    subst this
    simp
  · rw [if_neg hmode]
    have := hp input
    generalize processEncoding sb input = res at this
    obtain ⟨bytes, err⟩ := res
    simp only at this
    subst this
    simp

/-- C18.  `Encode` never fails.  For every codec that a constructor returns, in
either mode and with any key, and for every codec after `SetSecretKey`, the body
of `processEncoding` runs to its end on every input, so that the recovery branch
is not taken, and `processEncoding` and `Encode` return no error. -/
theorem encode_never_fails (enc : SBEncoding) (sb : SecureBase)
    (secretkey input : List Byte) :
    ((∃ symbols, encodeSymbols (NewSecureBase enc) input = some symbols) ∧
      (processEncoding (NewSecureBase enc) input).2 = none ∧
      (Encode (NewSecureBase enc) input).2 = none) ∧
    (∃ sb', NewSecureBaseWithKey enc secretkey = some sb' ∧
      (∃ symbols, encodeSymbols sb' input = some symbols) ∧
      (processEncoding sb' input).2 = none ∧ (Encode sb' input).2 = none) ∧
    (∃ sb', SetSecretKey sb secretkey = some sb' ∧
      (∃ symbols, encodeSymbols sb' input = some symbols) ∧
      (processEncoding sb' input).2 = none ∧ (Encode sb' input).2 = none) := by
  refine ⟨wf_encode_ok _ (NewSecureBase_wellFormed enc) input, ?_, ?_⟩
  · obtain ⟨sb', hsb, hw, -⟩ := SetSecretKey_wellFormed
      { globalcharset := [], padding := 0, gencoding := enc } secretkey
    exact ⟨sb', hsb, wf_encode_ok sb' hw input⟩
  · obtain ⟨sb', hsb, hw, -⟩ := SetSecretKey_wellFormed sb secretkey
    exact ⟨sb', hsb, wf_encode_ok sb' hw input⟩

end Invariants
